import Mathlib

/-!
Shallow embedding of the FiguratePartitionExplorer core
(`series.py`, `figurate.py`, `symmetric_group.py`, `bruteforce_partitions.py`,
`partitions_gf.py`) together with proofs of the specification claims.

Series are coefficient lists of length `N + 1` (index `n` holds the
coefficient of `q ^ n`), exactly as in `series.py`.
-/

namespace FPE

/-- Coefficient of index `n` in a coefficient list, `0` past the end.
This matches both in-range reads `a[n]` of the Python lists and the
zero-padding convention of `_ensure_length`. -/
def coeffL (a : List ℤ) (n : ℕ) : ℤ := a.getD n 0

/-- `_ensure_length` from `series.py`: a copy of `a` of length exactly `N + 1`,
zero-padded when shorter, truncated when longer. -/
def ensure_length (a : List ℤ) (N : ℕ) : List ℤ :=
  if a.length = N + 1 then a
  else if a.length < N + 1 then a ++ List.replicate (N + 1 - a.length) 0
  else a.take (N + 1)

/-- `zero_series` from `series.py`: the zero series of length `N + 1`. -/
def zero_series (N : ℕ) : List ℤ := List.replicate (N + 1) 0

/-- `one_series` from `series.py`: `[0] * (N + 1)` with position `0` set to `1`. -/
def one_series (N : ℕ) : List ℤ :=
  (List.range (N + 1)).map (fun n => if n = 0 then 1 else 0)

/-- `add_series` from `series.py`: coefficientwise sum after `_ensure_length`. -/
def add_series (a b : List ℤ) (N : ℕ) : List ℤ :=
  (List.range (N + 1)).map
    (fun n => coeffL (ensure_length a N) n + coeffL (ensure_length b N) n)

/-- `sub_series` from `series.py`: coefficientwise difference after `_ensure_length`. -/
def sub_series (a b : List ℤ) (N : ℕ) : List ℤ :=
  (List.range (N + 1)).map
    (fun n => coeffL (ensure_length a N) n - coeffL (ensure_length b N) n)

/-- `scalar_mul_series` from `series.py`: multiply every coefficient of the
length-normalized list by `scalar`. -/
def scalar_mul_series (a : List ℤ) (scalar : ℤ) (N : ℕ) : List ℤ :=
  (List.range (N + 1)).map (fun n => scalar * coeffL (ensure_length a N) n)

/-- `mul_series` from `series.py`: truncated Cauchy product,
`c[n] = sum_{k=0}^n a[k] * b[n-k]` for `n = 0..N` (the accumulation loops of
the source compute exactly this convolution). -/
def mul_series (a b : List ℤ) (N : ℕ) : List ℤ :=
  (List.range (N + 1)).map
    (fun n => ∑ i ∈ Finset.range (n + 1),
      coeffL (ensure_length a N) i * coeffL (ensure_length b N) (n - i))

/-- The binary-exponentiation loop of `pow_series` (`while e > 0` in
`series.py`): multiply `result` by `factor` when the low bit of `e` is set,
square `factor`, halve `e`. -/
def powLoop (N : ℕ) (result factor : List ℤ) (e : ℕ) : List ℤ :=
  if h : e = 0 then result
  else
    powLoop N (if e % 2 = 1 then mul_series result factor N else result)
      (mul_series factor factor N) (e / 2)
termination_by e
decreasing_by exact Nat.div_lt_self (Nat.pos_of_ne_zero h) one_lt_two

/-- `pow_series` from `series.py` (the source rejects negative exponents, so the
exponent is a natural number): `base ^ 0 = one`, `base ^ 1 = ensure_length base`,
otherwise binary exponentiation. -/
def pow_series (base : List ℤ) (exponent : ℕ) (N : ℕ) : List ℤ :=
  if exponent = 0 then one_series N
  else if exponent = 1 then ensure_length base N
  else powLoop N (one_series N) (ensure_length base N) exponent

/-- `shift_series` from `series.py` (the source rejects negative shifts, so `k`
is a natural number): `c[n] = a[n-k]` for `n ≥ k`, else `0`. -/
def shift_series (a : List ℤ) (k N : ℕ) : List ℤ :=
  (List.range (N + 1)).map
    (fun n => if k ≤ n then coeffL (ensure_length a N) (n - k) else 0)

/-- Body of `compose_q_to_qk` from `series.py` for a positive `k`: the loop
writes `out[k * n] = a[n]` for every `n ≤ min(len(a) - 1, N / k)`, which puts
`a[i / k]` at each index `i ≤ N` divisible by `k` (indices past the end of `a`
are never written, matching the `0` default of `coeffL`), and `0` elsewhere. -/
def compose_core (a : List ℤ) (k N : ℕ) : List ℤ :=
  (List.range (N + 1)).map (fun i => if k ∣ i then coeffL a (i / k) else 0)

/-- `compose_q_to_qk` from `series.py`: rejects `k ≤ 0`, otherwise substitutes
`q ↦ q^k`. -/
def compose_q_to_qk (a : List ℤ) (k : ℤ) (N : ℕ) : Except String (List ℤ) :=
  if k ≤ 0 then Except.error "k must be positive in q -> q^k substitution."
  else Except.ok (compose_core a k.toNat N)

/-! ### Basic length and coefficient lemmas -/

theorem length_ensure (a : List ℤ) (N : ℕ) : (ensure_length a N).length = N + 1 := by
  unfold ensure_length
  split
  · assumption
  · split
    · simp only [List.length_append, List.length_replicate]
      omega
    · rw [List.length_take]
      omega

theorem coeffL_rangeMap (f : ℕ → ℤ) (M n : ℕ) :
    coeffL ((List.range M).map f) n = if n < M then f n else 0 := by
  unfold coeffL
  rcases lt_or_le n M with h | h
  · rw [List.getD_eq_getElem?_getD, List.getElem?_map, List.getElem?_range h]
    simp [h]
  · rw [List.getD_eq_default]
    · simp [Nat.not_lt.mpr h]
    · simpa using h

theorem coeffL_ensure (a : List ℤ) (N n : ℕ) :
    coeffL (ensure_length a N) n = if n ≤ N then coeffL a n else 0 := by
  unfold ensure_length coeffL
  rcases le_or_lt n N with h | h
  · simp only [h, if_true]
    split
    · rfl
    · split
      · rcases lt_or_le n a.length with h2 | h2
        · rw [List.getD_eq_getElem?_getD, List.getElem?_append_left h2,
            ← List.getD_eq_getElem?_getD]
        · rw [List.getD_eq_getElem?_getD, List.getElem?_append_right h2,
            List.getD_eq_default _ _ h2]
          rcases lt_or_le (n - a.length) (N + 1 - a.length) with h3 | h3
          · simp [List.getElem?_replicate, h3]
          · rw [List.getElem?_eq_none] <;> simp [h3]
      · rw [List.getD_eq_getElem?_getD, List.getElem?_take_of_lt (Nat.lt_add_one_iff.mpr h),
          ← List.getD_eq_getElem?_getD]
  · simp only [Nat.not_le.mpr h, if_false]
    have hl : (ensure_length a N).length ≤ n := by
      rw [length_ensure]
      omega
    have := List.getD_eq_default (ensure_length a N) (0 : ℤ) hl
    unfold ensure_length at this
    exact this

theorem length_zero_series (N : ℕ) : (zero_series N).length = N + 1 := by
  simp [zero_series]

theorem length_one_series (N : ℕ) : (one_series N).length = N + 1 := by
  simp [one_series]

theorem length_add_series (a b : List ℤ) (N : ℕ) : (add_series a b N).length = N + 1 := by
  simp [add_series]

theorem length_sub_series (a b : List ℤ) (N : ℕ) : (sub_series a b N).length = N + 1 := by
  simp [sub_series]

theorem length_scalar_mul_series (a : List ℤ) (s : ℤ) (N : ℕ) :
    (scalar_mul_series a s N).length = N + 1 := by
  simp [scalar_mul_series]

theorem length_mul_series (a b : List ℤ) (N : ℕ) : (mul_series a b N).length = N + 1 := by
  simp [mul_series]

theorem length_shift_series (a : List ℤ) (k N : ℕ) :
    (shift_series a k N).length = N + 1 := by
  simp [shift_series]

theorem length_compose_core (a : List ℤ) (k N : ℕ) :
    (compose_core a k N).length = N + 1 := by
  simp [compose_core]

theorem length_powLoop (N : ℕ) (e : ℕ) :
    ∀ result factor : List ℤ, result.length = N + 1 →
      (powLoop N result factor e).length = N + 1 := by
  induction e using Nat.strong_induction_on with
  | _ e ih =>
    intro result factor h
    rw [powLoop]
    split
    · exact h
    · apply ih
      · exact Nat.div_lt_self (Nat.pos_of_ne_zero (by assumption)) one_lt_two
      · split
        · exact length_mul_series ..
        · exact h

theorem length_pow_series (base : List ℤ) (e N : ℕ) :
    (pow_series base e N).length = N + 1 := by
  unfold pow_series
  split
  · exact length_one_series N
  · split
    · exact length_ensure ..
    · exact length_powLoop N _ _ _ (length_one_series N)

/-! ### Power-series semantics of the list operations -/

/-- Interpret a coefficient list as a formal power series. -/
def toPS (a : List ℤ) : PowerSeries ℤ := PowerSeries.mk (coeffL a)

theorem coeff_toPS (a : List ℤ) (n : ℕ) :
    PowerSeries.coeff ℤ n (toPS a) = coeffL a n :=
  PowerSeries.coeff_mk n _

theorem coeffL_mul_series (x y : List ℤ) (N : ℕ) {X Y : PowerSeries ℤ}
    (hx : ∀ i, i ≤ N → coeffL x i = PowerSeries.coeff ℤ i X)
    (hy : ∀ i, i ≤ N → coeffL y i = PowerSeries.coeff ℤ i Y) :
    ∀ n, n ≤ N → coeffL (mul_series x y N) n = PowerSeries.coeff ℤ n (X * Y) := by
  intro n hn
  unfold mul_series
  rw [coeffL_rangeMap, if_pos (Nat.lt_add_one_iff.mpr hn)]
  rw [PowerSeries.coeff_mul, Finset.Nat.sum_antidiagonal_eq_sum_range_succ_mk]
  apply Finset.sum_congr rfl
  intro i hi
  rw [Finset.mem_range] at hi
  have h1 : i ≤ N := by omega
  have h2 : n - i ≤ N := by omega
  rw [coeffL_ensure, coeffL_ensure, if_pos h1, if_pos h2, hx i h1, hy (n - i) h2]

theorem coeffL_powLoop (N : ℕ) (e : ℕ) :
    ∀ (result factor : List ℤ) (R F : PowerSeries ℤ),
      (∀ i, i ≤ N → coeffL result i = PowerSeries.coeff ℤ i R) →
      (∀ i, i ≤ N → coeffL factor i = PowerSeries.coeff ℤ i F) →
      ∀ n, n ≤ N →
        coeffL (powLoop N result factor e) n = PowerSeries.coeff ℤ n (R * F ^ e) := by
  induction e using Nat.strong_induction_on with
  | _ e ih =>
    intro result factor R F hr hf n hn
    rw [powLoop]
    split
    · subst e
      rw [pow_zero, mul_one]
      exact hr n hn
    · have he : e ≠ 0 := by assumption
      have hr2 : ∀ i, i ≤ N →
          coeffL (if e % 2 = 1 then mul_series result factor N else result) i =
            PowerSeries.coeff ℤ i (R * F ^ (e % 2)) := by
        intro i hi
        by_cases hpar : e % 2 = 1
        · simp only [hpar, if_true, pow_one]
          exact coeffL_mul_series result factor N hr hf i hi
        · have h0 : e % 2 = 0 := by omega
          simp only [hpar, if_false, h0, pow_zero, mul_one]
          exact hr i hi
      have hf2 : ∀ i, i ≤ N →
          coeffL (mul_series factor factor N) i = PowerSeries.coeff ℤ i (F * F) :=
        coeffL_mul_series factor factor N hf hf
      rw [ih (e / 2) (Nat.div_lt_self (Nat.pos_of_ne_zero he) one_lt_two) _ _ _ _ hr2 hf2 n hn]
      congr 1
      rw [← sq F, ← pow_mul, mul_assoc, ← pow_add]
      have hee : e % 2 + 2 * (e / 2) = e := by omega
      rw [hee]

theorem coeffL_one_series (N : ℕ) :
    ∀ n, n ≤ N → coeffL (one_series N) n = PowerSeries.coeff ℤ n 1 := by
  intro n hn
  unfold one_series
  rw [coeffL_rangeMap, if_pos (Nat.lt_add_one_iff.mpr hn), PowerSeries.coeff_one]

theorem coeffL_pow_series (base : List ℤ) (e N : ℕ) :
    ∀ n, n ≤ N → coeffL (pow_series base e N) n = PowerSeries.coeff ℤ n (toPS base ^ e) := by
  intro n hn
  unfold pow_series
  split
  · rename_i h0
    subst h0
    rw [pow_zero]
    exact coeffL_one_series N n hn
  · split
    · rename_i h1
      subst h1
      rw [pow_one, coeffL_ensure, if_pos hn, coeff_toPS]
    · have hb : ∀ i, i ≤ N → coeffL (ensure_length base N) i =
          PowerSeries.coeff ℤ i (toPS base) := by
        intro i hi
        rw [coeffL_ensure, if_pos hi, coeff_toPS]
      rw [coeffL_powLoop N e (one_series N) (ensure_length base N) 1 (toPS base)
        (coeffL_one_series N) hb n hn, one_mul]

theorem list_ext_coeffL {a b : List ℤ} {L : ℕ} (ha : a.length = L) (hb : b.length = L)
    (h : ∀ n, n < L → coeffL a n = coeffL b n) : a = b := by
  apply List.ext_getElem (by rw [ha, hb])
  intro n h1 h2
  have hc := h n (ha ▸ h1)
  unfold coeffL at hc
  rwa [List.getD_eq_getElem?_getD, List.getD_eq_getElem?_getD,
    List.getElem?_eq_getElem h1, List.getElem?_eq_getElem h2] at hc

/-- C5: for every series `a`, every truncation order `N ≥ 0`, and all exponents
`e1, e2 ≥ 0`, `pow(a, e1+e2, N) = mul(pow(a,e1,N), pow(a,e2,N), N)`, and
`pow(a, 0, N) = one(N)`. -/
theorem claim_C5 (a : List ℤ) (N e1 e2 : ℕ) :
    pow_series a (e1 + e2) N =
      mul_series (pow_series a e1 N) (pow_series a e2 N) N ∧
    pow_series a 0 N = one_series N := by
  constructor
  · apply list_ext_coeffL (length_pow_series a (e1 + e2) N)
      (length_mul_series (pow_series a e1 N) (pow_series a e2 N) N)
    intro n hn
    have hn2 : n ≤ N := by omega
    rw [coeffL_pow_series a (e1 + e2) N n hn2,
      coeffL_mul_series _ _ N (coeffL_pow_series a e1 N) (coeffL_pow_series a e2 N) n hn2,
      pow_add]
  · rfl

/-- C7: every series-producing operation of the series engine returns a
coefficient list of length exactly `N + 1`, for arbitrary input lists; for
`composeQToQK` the guard `k ≥ 1` is what the source accepts, and the public
wrapper then returns the core result. (The embedding is purely functional, so
no operation can mutate its input.) -/
theorem claim_C7 (a b : List ℤ) (s : ℤ) (N e k k2 : ℕ) (hk2 : 1 ≤ k2) :
    (zero_series N).length = N + 1 ∧ (one_series N).length = N + 1 ∧
    (add_series a b N).length = N + 1 ∧ (sub_series a b N).length = N + 1 ∧
    (scalar_mul_series a s N).length = N + 1 ∧ (mul_series a b N).length = N + 1 ∧
    (pow_series a e N).length = N + 1 ∧ (shift_series a k N).length = N + 1 ∧
    (compose_core a k2 N).length = N + 1 ∧
    compose_q_to_qk a (k2 : ℤ) N = Except.ok (compose_core a k2 N) := by
  refine ⟨length_zero_series N, length_one_series N, length_add_series a b N,
    length_sub_series a b N, length_scalar_mul_series a s N, length_mul_series a b N,
    length_pow_series a e N, length_shift_series a k N, length_compose_core a k2 N, ?_⟩
  have hpos : ¬((k2 : ℤ) ≤ 0) := by
    rw [Int.not_le]
    exact_mod_cast hk2
  simp [compose_q_to_qk, hpos]

theorem claim_C7_witness : (compose_core [(1 : ℤ)] 1 2).length = 2 + 1 :=
  (claim_C7 [(1 : ℤ)] [] 0 2 0 0 1 (by decide)).2.2.2.2.2.2.2.2.1

/-! ### figurate.py: value generators -/

/-- The `while True` loop shared by the `*_numbers_up_to` generators of
`figurate.py`: starting at index `j`, append `f j` while it is `≤ N`, and stop
at the first index whose value exceeds `N`. `fuel` bounds the number of
iterations; callers supply enough fuel for the loop to reach its exit
condition, and `collectUpTo_stable` shows the result is then independent of
the fuel, i.e. the source loop terminates. -/
def collectUpTo (f : ℕ → ℕ) (N : ℕ) : ℕ → ℕ → List ℕ
  | 0, _ => []
  | fuel + 1, j => if f j ≤ N then f j :: collectUpTo f N fuel (j + 1) else []

theorem collectUpTo_stable (f : ℕ → ℕ) (N : ℕ) (d : ℕ) :
    ∀ (j fuel1 fuel2 : ℕ), d < fuel1 → d < fuel2 → N < f (j + d) →
      collectUpTo f N fuel1 j = collectUpTo f N fuel2 j := by
  induction d with
  | zero =>
    intro j fuel1 fuel2 h1 h2 hf
    obtain ⟨a, rfl⟩ := Nat.exists_eq_succ_of_ne_zero (by omega : fuel1 ≠ 0)
    obtain ⟨b, rfl⟩ := Nat.exists_eq_succ_of_ne_zero (by omega : fuel2 ≠ 0)
    rw [Nat.add_zero] at hf
    simp [collectUpTo, Nat.not_le.mpr hf]
  | succ d ih =>
    intro j fuel1 fuel2 h1 h2 hf
    obtain ⟨a, rfl⟩ := Nat.exists_eq_succ_of_ne_zero (by omega : fuel1 ≠ 0)
    obtain ⟨b, rfl⟩ := Nat.exists_eq_succ_of_ne_zero (by omega : fuel2 ≠ 0)
    simp only [collectUpTo]
    by_cases hj : f j ≤ N
    · rw [if_pos hj, if_pos hj,
        ih (j + 1) a b (by omega) (by omega) (by rw [Nat.add_right_comm]; exact hf)]
    · rw [if_neg hj, if_neg hj]

theorem collectUpTo_closed (f : ℕ → ℕ) (N : ℕ) (len : ℕ) :
    ∀ (j fuel : ℕ), (∀ i, i < len → f (j + i) ≤ N) → N < f (j + len) → len < fuel →
      collectUpTo f N fuel j = (List.range len).map (fun i => f (j + i)) := by
  induction len with
  | zero =>
    intro j fuel _ hgt hfuel
    obtain ⟨a, rfl⟩ := Nat.exists_eq_succ_of_ne_zero (by omega : fuel ≠ 0)
    rw [Nat.add_zero] at hgt
    simp [collectUpTo, Nat.not_le.mpr hgt]
  | succ len ih =>
    intro j fuel hle hgt hfuel
    obtain ⟨a, rfl⟩ := Nat.exists_eq_succ_of_ne_zero (by omega : fuel ≠ 0)
    simp only [collectUpTo]
    rw [if_pos (by simpa using hle 0 (by omega))]
    rw [ih (j + 1) a (fun i hi => by rw [Nat.add_right_comm]; exact hle (i + 1) (by omega))
      (by rw [Nat.add_right_comm]; exact hgt) (by omega)]
    rw [List.range_succ_eq_map, List.map_cons, List.map_map]
    congr 1
    apply List.map_congr_left
    intro i _
    simp only [Function.comp_apply, Nat.succ_eq_add_one]
    congr 1
    omega

/-- `T(j) = j (j+1) / 2` from `triangular_numbers_up_to`. -/
def tri (j : ℕ) : ℕ := j * (j + 1) / 2

/-- `j^2` from `square_numbers_up_to`. -/
def sqv (j : ℕ) : ℕ := j * j

/-- `C_k(j) = 1 + (k * j * (j-1)) // 2` from `centered_polygonal_numbers_up_to`
(for `j = 0` the Python product `k * 0 * (-1)` is `0`, matching truncated
subtraction). -/
def ck (k j : ℕ) : ℕ := 1 + k * j * (j - 1) / 2

theorem tri_succ (j : ℕ) : tri (j + 1) = tri j + (j + 1) := by
  unfold tri
  have h : (j + 1) * (j + 1 + 1) = j * (j + 1) + (j + 1) * 2 := by ring
  rw [h, Nat.add_mul_div_right _ _ (by omega : 0 < 2)]

theorem tri_strictMono : StrictMono tri := by
  apply strictMono_nat_of_lt_succ
  intro j
  rw [tri_succ]
  omega

theorem le_tri (j : ℕ) : j ≤ tri j := by
  induction j with
  | zero => simp [tri]
  | succ j ih =>
    rw [tri_succ]
    omega

theorem sqv_strictMono : StrictMono sqv := by
  apply strictMono_nat_of_lt_succ
  intro j
  unfold sqv
  nlinarith

theorem le_sqv (j : ℕ) : j ≤ sqv j := by
  unfold sqv
  cases j with
  | zero => simp
  | succ i => nlinarith

theorem ck_succ (k j : ℕ) : ck k (j + 1) = ck k j + k * j := by
  unfold ck
  have h : k * (j + 1) * (j + 1 - 1) = k * j * (j - 1) + (k * j) * 2 := by
    cases j with
    | zero => simp
    | succ i =>
      simp only [Nat.add_sub_cancel]
      ring
  rw [h, Nat.add_mul_div_right _ _ (by omega : 0 < 2)]
  omega

theorem ck_monotone (k : ℕ) : Monotone (ck k) := by
  apply monotone_nat_of_le_succ
  intro j
  rw [ck_succ]
  omega

theorem ck_zero_eq (k : ℕ) : ck k 0 = 1 := by simp [ck]

theorem ck_one_eq (k : ℕ) : ck k 1 = 1 := by simp [ck]

theorem le_ck (k j : ℕ) (hk : 1 ≤ k) : j ≤ ck k j + 1 := by
  induction j with
  | zero => omega
  | succ j ih =>
    rw [ck_succ]
    rcases Nat.eq_zero_or_pos j with h | h
    · subst h
      simp [ck_zero_eq]
    · have : 1 ≤ k * j := Nat.one_le_iff_ne_zero.mpr (by positivity)
      omega

/-- `triangular_numbers_up_to` from `figurate.py`: all `T(j) ≤ N` from `j = 0`
up; fuel `N + 2` is enough since `T(N+1) > N`. -/
def triangular_numbers_up_to (N : ℕ) : List ℕ := collectUpTo tri N (N + 2) 0

/-- `square_numbers_up_to` from `figurate.py`. -/
def square_numbers_up_to (N : ℕ) : List ℕ := collectUpTo sqv N (N + 2) 0

/-- The collection loop of `centered_polygonal_numbers_up_to` (values in
index order, the duplicate `1` from `j = 0` and `j = 1` still present). -/
def centeredCollect (k N : ℕ) : List ℕ := collectUpTo (ck k) N (N + 3) 0

/-- The `set` plus `sorted` step of `centered_polygonal_numbers_up_to`:
distinct values in ascending order. -/
def centered_sorted (k N : ℕ) : List ℕ :=
  ((centeredCollect k N).toFinset).sort (· ≤ ·)

/-- `centered_polygonal_numbers_up_to` from `figurate.py`: rejects `k < 3`,
otherwise returns the sorted list of distinct values `C_k(j) ≤ N`. -/
def centered_polygonal_numbers_up_to (k N : ℕ) : Except String (List ℕ) :=
  if k < 3 then Except.error "k should be >= 3 for centered k-gonal numbers."
  else Except.ok (centered_sorted k N)

theorem collectUpTo_find (f : ℕ → ℕ) (N fuel : ℕ) (hex : ∃ j, N < f j)
    (hfuel : Nat.find hex < fuel) :
    collectUpTo f N fuel 0 = (List.range (Nat.find hex)).map f := by
  rw [collectUpTo_closed f N (Nat.find hex) 0 fuel
    (fun i hi => by rw [Nat.zero_add]; exact Nat.not_lt.mp (Nat.find_min hex hi))
    (by simpa using Nat.find_spec hex) hfuel]
  simp

theorem mem_collectUpTo (f : ℕ → ℕ) (N fuel : ℕ) (hmono : Monotone f)
    (hex : ∃ j, N < f j) (hfuel : Nat.find hex < fuel) (t : ℕ) :
    t ∈ collectUpTo f N fuel 0 ↔ (∃ j, f j = t) ∧ t ≤ N := by
  rw [collectUpTo_find f N fuel hex hfuel]
  simp only [List.mem_map, List.mem_range]
  constructor
  · rintro ⟨i, hi, rfl⟩
    exact ⟨⟨i, rfl⟩, Nat.not_lt.mp (Nat.find_min hex hi)⟩
  · rintro ⟨⟨j, rfl⟩, hle⟩
    refine ⟨j, ?_, rfl⟩
    by_contra hj
    exact Nat.not_le.mpr (lt_of_lt_of_le (Nat.find_spec hex)
      (hmono (Nat.not_lt.mp hj))) hle

theorem tri_exceeds (N : ℕ) : ∃ j, N < tri j :=
  ⟨N + 1, lt_of_lt_of_le (Nat.lt_succ_self N) (le_tri (N + 1))⟩

theorem sqv_exceeds (N : ℕ) : ∃ j, N < sqv j :=
  ⟨N + 1, lt_of_lt_of_le (Nat.lt_succ_self N) (le_sqv (N + 1))⟩

theorem ck_exceeds (k N : ℕ) (hk : 1 ≤ k) : ∃ j, N < ck k j :=
  ⟨N + 2, by have := le_ck k (N + 2) hk; omega⟩

theorem tri_find_lt (N : ℕ) : Nat.find (tri_exceeds N) < N + 2 :=
  lt_of_le_of_lt (Nat.find_le (lt_of_lt_of_le (Nat.lt_succ_self N) (le_tri (N + 1))))
    (by omega)

theorem sqv_find_lt (N : ℕ) : Nat.find (sqv_exceeds N) < N + 2 :=
  lt_of_le_of_lt (Nat.find_le (lt_of_lt_of_le (Nat.lt_succ_self N) (le_sqv (N + 1))))
    (by omega)

theorem ck_find_lt (k N : ℕ) (hk : 1 ≤ k) : Nat.find (ck_exceeds k N hk) < N + 3 := by
  have h2 : N < ck k (N + 2) := by
    have := le_ck k (N + 2) hk
    omega
  exact lt_of_le_of_lt (Nat.find_le h2) (by omega)

/-! ### Figurate predicates -/

/-- `n` is a triangular number. -/
def isTri (n : ℕ) : Prop := ∃ j, tri j = n

/-- `n` is a perfect square. -/
def isSqv (n : ℕ) : Prop := ∃ j, sqv j = n

/-- `n` is a centered `k`-gonal number. -/
def isCk (k n : ℕ) : Prop := ∃ j, ck k j = n

instance : DecidablePred isTri := fun n => by
  apply decidable_of_iff (∃ j ∈ Finset.range (n + 1), tri j = n)
  constructor
  · rintro ⟨j, _, h⟩
    exact ⟨j, h⟩
  · rintro ⟨j, h⟩
    exact ⟨j, Finset.mem_range.mpr (by have := le_tri j; omega), h⟩

instance : DecidablePred isSqv := fun n => by
  apply decidable_of_iff (∃ j ∈ Finset.range (n + 1), sqv j = n)
  constructor
  · rintro ⟨j, _, h⟩
    exact ⟨j, h⟩
  · rintro ⟨j, h⟩
    exact ⟨j, Finset.mem_range.mpr (by have := le_sqv j; omega), h⟩

instance (k : ℕ) : DecidablePred (isCk k) := fun n => by
  apply decidable_of_iff (∃ j ∈ Finset.range (n + 3), ck k j = n)
  constructor
  · rintro ⟨j, _, h⟩
    exact ⟨j, h⟩
  · rintro ⟨j, h⟩
    rcases Nat.eq_zero_or_pos k with hk | hk
    · refine ⟨0, Finset.mem_range.mpr (by omega), ?_⟩
      subst hk
      simp only [ck, Nat.zero_mul, Nat.zero_div, Nat.zero_mul] at h ⊢
      simpa using h
    · exact ⟨j, Finset.mem_range.mpr (by have := le_ck k j hk; omega), h⟩

theorem mem_triangular_numbers_up_to (N t : ℕ) :
    t ∈ triangular_numbers_up_to N ↔ isTri t ∧ t ≤ N :=
  mem_collectUpTo tri N (N + 2) tri_strictMono.monotone (tri_exceeds N) (tri_find_lt N) t

theorem mem_square_numbers_up_to (N t : ℕ) :
    t ∈ square_numbers_up_to N ↔ isSqv t ∧ t ≤ N :=
  mem_collectUpTo sqv N (N + 2) sqv_strictMono.monotone (sqv_exceeds N) (sqv_find_lt N) t

theorem mem_centeredCollect (k N t : ℕ) (hk : 1 ≤ k) :
    t ∈ centeredCollect k N ↔ isCk k t ∧ t ≤ N :=
  mem_collectUpTo (ck k) N (N + 3) (ck_monotone k) (ck_exceeds k N hk) (ck_find_lt k N hk) t

theorem mem_centered_sorted (k N t : ℕ) (hk : 1 ≤ k) :
    t ∈ centered_sorted k N ↔ isCk k t ∧ t ≤ N := by
  rw [centered_sorted, Finset.mem_sort, List.mem_toFinset]
  exact mem_centeredCollect k N t hk

theorem sorted_lt_triangular (N : ℕ) :
    (triangular_numbers_up_to N).Sorted (· < ·) := by
  rw [triangular_numbers_up_to, collectUpTo_find tri N (N + 2) (tri_exceeds N) (tri_find_lt N)]
  rw [List.Sorted, List.pairwise_map]
  exact (List.pairwise_lt_range _).imp (fun h => tri_strictMono h)

theorem sorted_lt_square (N : ℕ) :
    (square_numbers_up_to N).Sorted (· < ·) := by
  rw [square_numbers_up_to, collectUpTo_find sqv N (N + 2) (sqv_exceeds N) (sqv_find_lt N)]
  rw [List.Sorted, List.pairwise_map]
  exact (List.pairwise_lt_range _).imp (fun h => sqv_strictMono h)

theorem sorted_lt_centered (k N : ℕ) : (centered_sorted k N).Sorted (· < ·) := by
  have hs := Finset.sort_sorted_lt (centeredCollect k N).toFinset
  exact hs

/-! ### figurate.py: indicator series -/

/-- Indicator series built the way `triangular_series` and friends do it:
position `n ≤ N` holds `1` exactly when `n` occurs in the value list. -/
def seriesOfValues (vals : List ℕ) (N : ℕ) : List ℤ :=
  (List.range (N + 1)).map (fun n => if n ∈ vals then 1 else 0)

/-- `triangular_series` from `figurate.py`. -/
def triangular_series (N : ℕ) : List ℤ := seriesOfValues (triangular_numbers_up_to N) N

/-- `square_series` from `figurate.py`. -/
def square_series (N : ℕ) : List ℤ := seriesOfValues (square_numbers_up_to N) N

/-- Body of `centered_polygonal_series` from `figurate.py` (the `k ≥ 3`
branch). -/
def centered_series_core (k N : ℕ) : List ℤ := seriesOfValues (centered_sorted k N) N

/-- Untruncated indicator power series of a decidable set of exponents. -/
def psiPS (A : ℕ → Prop) [DecidablePred A] : PowerSeries ℤ :=
  PowerSeries.mk (fun n => if A n then 1 else 0)

theorem coeffL_seriesOfValues (vals : List ℕ) (N n : ℕ) (hn : n ≤ N) :
    coeffL (seriesOfValues vals N) n = if n ∈ vals then 1 else 0 := by
  rw [seriesOfValues, coeffL_rangeMap, if_pos (Nat.lt_add_one_iff.mpr hn)]

theorem length_seriesOfValues (vals : List ℕ) (N : ℕ) :
    (seriesOfValues vals N).length = N + 1 := by simp [seriesOfValues]

theorem coeffL_triangular_series (N n : ℕ) (hn : n ≤ N) :
    coeffL (triangular_series N) n = PowerSeries.coeff ℤ n (psiPS isTri) := by
  rw [triangular_series, coeffL_seriesOfValues _ _ _ hn, psiPS, PowerSeries.coeff_mk]
  by_cases h : isTri n
  · rw [if_pos ((mem_triangular_numbers_up_to N n).mpr ⟨h, hn⟩), if_pos h]
  · rw [if_neg (fun hm => h ((mem_triangular_numbers_up_to N n).mp hm).1), if_neg h]

theorem coeffL_square_series (N n : ℕ) (hn : n ≤ N) :
    coeffL (square_series N) n = PowerSeries.coeff ℤ n (psiPS isSqv) := by
  rw [square_series, coeffL_seriesOfValues _ _ _ hn, psiPS, PowerSeries.coeff_mk]
  by_cases h : isSqv n
  · rw [if_pos ((mem_square_numbers_up_to N n).mpr ⟨h, hn⟩), if_pos h]
  · rw [if_neg (fun hm => h ((mem_square_numbers_up_to N n).mp hm).1), if_neg h]

theorem coeffL_centered_series (k N n : ℕ) (hk : 1 ≤ k) (hn : n ≤ N) :
    coeffL (centered_series_core k N) n = PowerSeries.coeff ℤ n (psiPS (isCk k)) := by
  rw [centered_series_core, coeffL_seriesOfValues _ _ _ hn, psiPS, PowerSeries.coeff_mk]
  by_cases h : isCk k n
  · rw [if_pos ((mem_centered_sorted k N n hk).mpr ⟨h, hn⟩), if_pos h]
  · rw [if_neg (fun hm => h ((mem_centered_sorted k N n hk).mp hm).1), if_neg h]

/-! ### bruteforce_partitions.py: the figurate-family dispatch -/

/-- The `FigurateFamily` tag; `centered` carries its parameter `k` (the Python
code passes `k` separately and raises when it is missing for `centered_k`). -/
inductive Fam where
  | triangular : Fam
  | square : Fam
  | centered : ℕ → Fam
deriving DecidableEq

/-- `figurate_values_up_to` from `bruteforce_partitions.py`: `[]` for negative
`n`, otherwise the family's value list `≤ n`, re-sorted ascending ("just in
case", as the source comments). -/
def figurate_values_up_to (family : Fam) (n : ℤ) : Except String (List ℕ) :=
  if n < 0 then Except.ok []
  else
    Except.map (fun vals => vals.mergeSort)
      (match family with
       | Fam.triangular => Except.ok (triangular_numbers_up_to n.toNat)
       | Fam.square => Except.ok (square_numbers_up_to n.toNat)
       | Fam.centered k => centered_polygonal_numbers_up_to k n.toNat)

theorem mergeSort_sorted_id {l : List ℕ} (h : l.Sorted (· < ·)) : l.mergeSort = l :=
  List.mergeSort_eq_self (h.imp (fun hab => le_of_lt hab))

theorem sorted_lt_ext {l1 l2 : List ℕ} (h1 : l1.Sorted (· < ·)) (h2 : l2.Sorted (· < ·))
    (hm : ∀ x, x ∈ l1 ↔ x ∈ l2) : l1 = l2 := by
  refine List.eq_of_perm_of_sorted ?_ h1 h2
  refine List.perm_of_nodup_nodup_toFinset_eq h1.nodup h2.nodup ?_
  apply Finset.ext
  intro a
  rw [List.mem_toFinset, List.mem_toFinset]
  exact hm a

theorem figurate_tri_eq (n : ℕ) :
    figurate_values_up_to Fam.triangular (n : ℤ) =
      Except.ok (triangular_numbers_up_to n) := by
  unfold figurate_values_up_to
  rw [if_neg (by omega : ¬(n : ℤ) < 0)]
  simp only [Int.toNat_natCast, Except.map]
  rw [mergeSort_sorted_id (sorted_lt_triangular n)]

theorem figurate_sq_eq (n : ℕ) :
    figurate_values_up_to Fam.square (n : ℤ) =
      Except.ok (square_numbers_up_to n) := by
  unfold figurate_values_up_to
  rw [if_neg (by omega : ¬(n : ℤ) < 0)]
  simp only [Int.toNat_natCast, Except.map]
  rw [mergeSort_sorted_id (sorted_lt_square n)]

theorem figurate_centered_eq (k n : ℕ) (hk : 3 ≤ k) :
    figurate_values_up_to (Fam.centered k) (n : ℤ) =
      Except.ok (centered_sorted k n) := by
  unfold figurate_values_up_to centered_polygonal_numbers_up_to
  rw [if_neg (by omega : ¬(n : ℤ) < 0)]
  simp only [Int.toNat_natCast]
  rw [if_neg (by omega : ¬k < 3)]
  simp only [Except.map]
  rw [mergeSort_sorted_id (sorted_lt_centered k n)]

theorem centered_5_22_eq : centered_sorted 5 22 = [1, 6, 16] := by
  have hb : ∀ x, x ≤ 22 → (isCk 5 x ↔ x ∈ [1, 6, 16]) := by decide
  apply sorted_lt_ext (sorted_lt_centered 5 22) (by decide)
  intro x
  rw [mem_centered_sorted 5 22 x (by omega)]
  constructor
  · rintro ⟨hck, hle⟩
    exact (hb x hle).mp hck
  · intro hx
    have hle : x ≤ 22 := by
      simp only [List.mem_cons, List.mem_singleton] at hx
      rcases hx with rfl | rfl | rfl | h
      · omega
      · omega
      · omega
      · simp at h
    exact ⟨(hb x hle).mpr hx, hle⟩

/-- C8 (counterexample): the spec example `valuesUpTo("centered_k", 22, k=5) =
[1, 5, 12, 22]` is false for the source formula `C_k(j) = 1 + k*j*(j-1)/2`,
which yields `[1, 6, 16]` up to `22` (the values `5`, `12`, `22` are ordinary,
not centered, pentagonal numbers). -/
theorem claim_C8_cex :
    figurate_values_up_to (Fam.centered 5) (22 : ℤ) ≠ Except.ok [1, 5, 12, 22] := by
  rw [show ((22 : ℤ)) = ((22 : ℕ) : ℤ) by norm_num, figurate_centered_eq 5 22 (by omega),
    centered_5_22_eq]
  intro h
  have := Except.ok.inj h
  simp at this

/-- C8 (amended): for every `k ≥ 3` and bound `N ≥ 1`, the centered-`k`-gonal
value list is strictly increasing, contains a value exactly when it is of the
form `C_k(j) = 1 + k*j*(j-1)/2` and `≤ N` (so the duplicate value `1` arising
from `j = 0` and `j = 1` appears once), and has smallest element `1`;
concretely `valuesUpTo("centered_k", 22, k=5) = [1, 6, 16]`. -/
theorem claim_C8 (k N : ℕ) (hk : 3 ≤ k) (hN : 1 ≤ N) :
    (∃ l, figurate_values_up_to (Fam.centered k) (N : ℤ) = Except.ok l ∧
      l.Sorted (· < ·) ∧ (∀ t, t ∈ l ↔ (∃ j, 1 + k * j * (j - 1) / 2 = t) ∧ t ≤ N) ∧
      1 ∈ l ∧ (∀ x ∈ l, 1 ≤ x)) ∧
    figurate_values_up_to (Fam.centered 5) (22 : ℤ) = Except.ok [1, 6, 16] := by
  constructor
  · refine ⟨centered_sorted k N, figurate_centered_eq k N hk, sorted_lt_centered k N,
      ?_, ?_, ?_⟩
    · intro t
      exact mem_centered_sorted k N t (by omega)
    · exact (mem_centered_sorted k N 1 (by omega)).mpr ⟨⟨0, ck_zero_eq k⟩, hN⟩
    · intro x hx
      obtain ⟨⟨j, rfl⟩, _⟩ := (mem_centered_sorted k N x (by omega)).mp hx
      simp [ck]
  · rw [show ((22 : ℤ)) = ((22 : ℕ) : ℤ) by norm_num, figurate_centered_eq 5 22 (by omega),
      centered_5_22_eq]

theorem claim_C8_witness :
    figurate_values_up_to (Fam.centered 5) (22 : ℤ) = Except.ok [1, 6, 16] :=
  (claim_C8 5 22 (by omega) (by omega)).2

/-- C10: the value-generator loops always reach their exit condition: their
result is independent of any sufficiently large iteration bound (so the
`while True` loops of `figurate.py` terminate for every input, including the
centered family whose formula repeats the value `1` at `j = 0` and `j = 1`),
and the public wrapper returns `[]` for every negative bound. -/
theorem claim_C10 :
    (∀ N fuel, N + 1 < fuel → collectUpTo tri N fuel 0 = triangular_numbers_up_to N) ∧
    (∀ N fuel, N + 1 < fuel → collectUpTo sqv N fuel 0 = square_numbers_up_to N) ∧
    (∀ k N fuel, 3 ≤ k → N + 2 < fuel →
      collectUpTo (ck k) N fuel 0 = centeredCollect k N) ∧
    (∀ (family : Fam) (n : ℤ), n < 0 → figurate_values_up_to family n = Except.ok []) := by
  refine ⟨?_, ?_, ?_, ?_⟩
  · intro N fuel hfuel
    exact collectUpTo_stable tri N (Nat.find (tri_exceeds N)) 0 fuel (N + 2)
      (lt_of_lt_of_le (tri_find_lt N) (by omega)) (tri_find_lt N)
      (by simpa using Nat.find_spec (tri_exceeds N))
  · intro N fuel hfuel
    exact collectUpTo_stable sqv N (Nat.find (sqv_exceeds N)) 0 fuel (N + 2)
      (lt_of_lt_of_le (sqv_find_lt N) (by omega)) (sqv_find_lt N)
      (by simpa using Nat.find_spec (sqv_exceeds N))
  · intro k N fuel hk hfuel
    have hk1 : 1 ≤ k := by omega
    exact collectUpTo_stable (ck k) N (Nat.find (ck_exceeds k N hk1)) 0 fuel (N + 3)
      (lt_of_lt_of_le (ck_find_lt k N hk1) (by omega)) (ck_find_lt k N hk1)
      (by simpa using Nat.find_spec (ck_exceeds k N hk1))
  · intro family n hn
    unfold figurate_values_up_to
    rw [if_pos hn]

theorem claim_C10_witness :
    collectUpTo (ck 3) 0 7 0 = centeredCollect 3 0 :=
  claim_C10.2.2.1 3 0 7 (by omega) (by omega)

/-! ### symmetric_group.py: integer partitions -/

/-- The recursive `_helper` of `integer_partitions` from `symmetric_group.py`:
for `k` from `min(remaining, max_part)` down to `1`, emit `k` followed by every
partition of `remaining - k` with parts `≤ k`; emit the empty suffix when
`remaining = 0`. Each recursive call decreases `remaining` by at least one, so
`fuel ≥ remaining` makes the fuel counter irrelevant. -/
def partHelperF : ℕ → ℕ → ℕ → List (List ℕ)
  | 0, remaining, _ => if remaining = 0 then [[]] else []
  | fuel + 1, remaining, max_part =>
    if remaining = 0 then [[]]
    else ((List.range (min remaining max_part)).reverse).flatMap
      (fun i => (partHelperF fuel (remaining - (i + 1)) (i + 1)).map
        (fun p => (i + 1) :: p))

/-- `integer_partitions` from `symmetric_group.py` (on natural arguments). -/
def integer_partitions (m : ℕ) : List (List ℕ) := partHelperF m m m

/-- `integer_partitions` on a Python `int`: for negative `n` the loop range
`range(min(n, n), 0, -1)` is empty and no partition is emitted. -/
def integer_partitionsZ (m : ℤ) : List (List ℕ) :=
  if m < 0 then [] else integer_partitions m.toNat

theorem mem_partHelperF (fuel : ℕ) :
    ∀ (r mp : ℕ) (p : List ℕ), r ≤ fuel →
      (p ∈ partHelperF fuel r mp ↔
        ((∀ x ∈ p, 1 ≤ x ∧ x ≤ mp) ∧ p.Pairwise (fun a b => b ≤ a) ∧ p.sum = r)) := by
  induction fuel with
  | zero =>
    intro r mp p hr
    interval_cases r
    have heq : partHelperF 0 0 mp = [[]] := rfl
    rw [heq, List.mem_singleton]
    constructor
    · rintro rfl
      simp
    · rintro ⟨h1, _, h3⟩
      cases p with
      | nil => rfl
      | cons a t =>
        have := h1 a (by simp)
        simp only [List.sum_cons] at h3
        omega
  | succ fuel ih =>
    intro r mp p hr
    by_cases hr0 : r = 0
    · subst hr0
      have heq : partHelperF (fuel + 1) 0 mp = [[]] := rfl
      rw [heq, List.mem_singleton]
      constructor
      · rintro rfl
        simp
      · rintro ⟨h1, _, h3⟩
        cases p with
        | nil => rfl
        | cons a t =>
          have := h1 a (by simp)
          simp only [List.sum_cons] at h3
          omega
    · simp only [partHelperF, if_neg hr0, List.mem_flatMap, List.mem_map,
        List.mem_reverse, List.mem_range]
      constructor
      · rintro ⟨i, hi, p2, hp2, rfl⟩
        rw [Nat.lt_min] at hi
        have hrec := (ih (r - (i + 1)) (i + 1) p2 (by omega)).mp hp2
        obtain ⟨hb, hpw, hsum⟩ := hrec
        refine ⟨?_, ?_, ?_⟩
        · intro x hx
          rcases List.mem_cons.mp hx with rfl | hx2
          · omega
          · have := hb x hx2
            omega
        · exact List.Pairwise.cons (fun x hx => (hb x hx).2) hpw
        · simp only [List.sum_cons]
          omega
      · rintro ⟨h1, hpw, h3⟩
        cases p with
        | nil => simp at h3; omega
        | cons k t =>
          have hk := h1 k (by simp)
          have hkr : k ≤ r := by
            simp only [List.sum_cons] at h3
            omega
          refine ⟨k - 1, ?_, t, ?_, ?_⟩
          · rw [Nat.lt_min]
            omega
          · have hk1 : k - 1 + 1 = k := by omega
            rw [hk1]
            apply (ih (r - k) k t (by omega)).mpr
            refine ⟨?_, (List.pairwise_cons.mp hpw).2, ?_⟩
            · intro x hx
              exact ⟨(h1 x (List.mem_cons_of_mem k hx)).1,
                (List.pairwise_cons.mp hpw).1 x hx⟩
            · simp only [List.sum_cons] at h3
              omega
          · have hk1 : k - 1 + 1 = k := by omega
            rw [hk1]

theorem pairwise_lex_partHelperF (fuel : ℕ) :
    ∀ (r mp : ℕ), r ≤ fuel →
      (partHelperF fuel r mp).Pairwise (fun p q => List.Lex (· < ·) q p) := by
  induction fuel with
  | zero =>
    intro r mp hr
    interval_cases r
    simp [partHelperF]
  | succ fuel ih =>
    intro r mp hr
    by_cases hr0 : r = 0
    · subst hr0
      simp [partHelperF]
    · simp only [partHelperF, if_neg hr0]
      rw [List.pairwise_flatMap]
      constructor
      · intro i _
        rw [List.pairwise_map]
        exact (ih (r - (i + 1)) (i + 1) (by omega)).imp (fun h => List.Lex.cons h)
      · rw [List.pairwise_reverse]
        apply (List.pairwise_lt_range _).imp
        intro a b hab
        intro x hx y hy
        simp only [List.mem_map] at hx hy
        obtain ⟨px, _, rfl⟩ := hx
        obtain ⟨py, _, rfl⟩ := hy
        exact List.Lex.rel (by omega)

theorem nodup_partHelperF (fuel r mp : ℕ) (hr : r ≤ fuel) :
    (partHelperF fuel r mp).Nodup := by
  apply (pairwise_lex_partHelperF fuel r mp hr).imp
  intro a b hab
  rintro rfl
  exact irrefl_of (List.Lex (· < ·)) a hab

/-- C6: `integerPartitions(m)` returns exactly the partitions of `m` (tuples of
positive parts in non-increasing order summing to `m`), with no duplicates, in
reverse-lexicographic first-part-largest order; in particular
`integerPartitions(4) = [(4,), (3,1), (2,2), (2,1,1), (1,1,1,1)]`. -/
theorem claim_C6 (m : ℕ) (hm : 1 ≤ m) :
    (∀ p, p ∈ integer_partitions m ↔
      ((∀ x ∈ p, 0 < x) ∧ p.Pairwise (fun a b => b ≤ a) ∧ p.sum = m)) ∧
    (integer_partitions m).Pairwise (fun p q => List.Lex (· < ·) q p) ∧
    (integer_partitions m).Nodup ∧
    integer_partitions 4 = [[4], [3, 1], [2, 2], [2, 1, 1], [1, 1, 1, 1]] := by
  refine ⟨?_, pairwise_lex_partHelperF m m m le_rfl, nodup_partHelperF m m m le_rfl, by decide⟩
  intro p
  rw [integer_partitions, mem_partHelperF m m m p le_rfl]
  constructor
  · rintro ⟨h1, h2, h3⟩
    exact ⟨fun x hx => (h1 x hx).1, h2, h3⟩
  · rintro ⟨h1, h2, h3⟩
    refine ⟨fun x hx => ⟨h1 x hx, ?_⟩, h2, h3⟩
    calc x ≤ p.sum := List.single_le_sum (fun y _ => Nat.zero_le y) x hx
    _ = m := h3

theorem claim_C6_witness :
    integer_partitions 4 = [[4], [3, 1], [2, 2], [2, 1, 1], [1, 1, 1, 1]] :=
  (claim_C6 4 (by omega)).2.2.2

/-! ### symmetric_group.py: class data -/

/-- One step of `cycle_type_multiplicities`: bump the count of `x` in the
insertion-ordered association list modelling the Python dict. -/
def addMult (l : List (ℕ × ℕ)) (x : ℕ) : List (ℕ × ℕ) :=
  match l with
  | [] => [(x, 1)]
  | (a, c) :: t => if a = x then (a, c + 1) :: t else (a, c) :: addMult t x

/-- `cycle_type_multiplicities` from `symmetric_group.py`: map each cycle
length to its multiplicity, keys in first-occurrence (Python dict insertion)
order. -/
def cycle_type_multiplicities (ct : List ℕ) : List (ℕ × ℕ) := ct.foldl addMult []

/-- The `denom` loop of `class_size_for_cycle_type`. -/
def classDenom (ct : List ℕ) : ℕ :=
  (cycle_type_multiplicities ct).foldl
    (fun d lc => d * (lc.1 ^ lc.2 * Nat.factorial lc.2)) 1

/-- `class_size_for_cycle_type` from `symmetric_group.py`:
`m! // (prod over lengths of length^mult * mult!)` (floor division in the
source; the divisibility is proved in `classDenom_dvd_factorial`). -/
def class_size_for_cycle_type (ct : List ℕ) (m : ℕ) : ℕ :=
  Nat.factorial m / classDenom ct

/-- `parity_for_cycle_type` from `symmetric_group.py`:
`"even"` when `(-1)^(m - r) = 1` where `r` is the number of cycles. -/
def parity_for_cycle_type (ct : List ℕ) (m : ℕ) : String :=
  if ((-1 : ℤ)) ^ (m - ct.length) = 1 then "even" else "odd"

/-- The cycle-building loop of `example_permutation_string`: label
`current, current+1, ...` into parenthesized cycles of the requested lengths. -/
def examplePermLoop : List ℕ → ℕ → List String
  | [], _ => []
  | length :: rest, current =>
    (if length = 1 then "(" ++ toString current ++ ")"
     else "(" ++ String.intercalate " "
        ((List.range length).map (fun i => toString (current + i))) ++ ")")
      :: examplePermLoop rest (current + length)

/-- `example_permutation_string` from `symmetric_group.py`. -/
def example_permutation_string (ct : List ℕ) : String :=
  String.join (examplePermLoop ct 1)

/-- `psi_term_for_cycle_type` from `symmetric_group.py`: the pieces for each
length in sorted key order, joined by spaces. -/
def psi_term_for_cycle_type (ct : List ℕ) : String :=
  let mult := cycle_type_multiplicities ct
  String.intercalate " " (((mult.map Prod.fst).mergeSort).map (fun length =>
    let count := (mult.lookup length).getD 0
    let base := if length = 1 then "ψ(q)" else "ψ(q^" ++ toString length ++ ")"
    if count = 1 then base else base ++ "^" ++ toString count))

/-- `index_pattern_description` from `symmetric_group.py`. -/
def index_pattern_description (ct : List ℕ) : String :=
  let mult := cycle_type_multiplicities ct
  let singles := (mult.lookup 1).getD 0
  let parts0 := (((mult.map Prod.fst).mergeSort).filter (fun l => l ≠ 1)).map
    (fun length =>
      let count := (mult.lookup length).getD 0
      let unit := if length = 2 then "pair" else if length = 3 then "triple"
        else if length = 4 then "4-tuple" else toString length ++ "-tuple"
      if count = 1 then "one " ++ unit ++ " of equal indices"
      else toString count ++ " " ++ unit ++ "s of equal indices")
  let parts := if 0 < singles then
      parts0 ++ [if singles = 1 then "one single (distinct) index"
                 else toString singles ++ " single (distinct) indices"]
    else parts0
  match parts with
  | [] => "all indices distinct"
  | [p] => p
  | [p, q] => p ++ " and " ++ q
  | _ => String.intercalate ", " parts.dropLast ++ ", and " ++ (parts.getLast?.getD "")

/-- The per-class dict of `conjugacy_classes_Sm` (the `example` key is named
`example_perm` because `example` is a reserved word in Lean). -/
structure ClassRec where
  cycle_type : List ℕ
  class_size : ℕ
  parity : String
  example_perm : String
  psi_term : String
  index_pattern : String
deriving DecidableEq

/-- The record built for one cycle type in `conjugacy_classes_Sm`. -/
def classRecOf (ct : List ℕ) (m : ℕ) : ClassRec :=
  { cycle_type := ct
    class_size := class_size_for_cycle_type ct m
    parity := parity_for_cycle_type ct m
    example_perm := example_permutation_string ct
    psi_term := psi_term_for_cycle_type ct
    index_pattern := index_pattern_description ct }

/-- `conjugacy_classes_Sm` from `symmetric_group.py`: one record per integer
partition of `m`. The source has no validation and never raises on this path
(for `m ≤ 0` the partition list is `[]` or `[()]`), so the `Except` result is
always `ok`. -/
def conjugacy_classes_Sm (m : ℤ) : Except String (List ClassRec) :=
  Except.ok ((integer_partitionsZ m).map (fun ct => classRecOf ct m.toNat))

open List in
unseal merge mergeSort in
theorem conj_zero_eq :
    conjugacy_classes_Sm 0 =
      Except.ok [{ cycle_type := [], class_size := 1, parity := "even",
                   example_perm := "", psi_term := "",
                   index_pattern := "all indices distinct" }] := rfl

/-- C4 (counterexample): `conjugacyClasses(0)` does not fail with
`InvalidArgument`; it returns a one-element list for the empty cycle type. -/
theorem claim_C4_cex :
    conjugacy_classes_Sm 0 =
      Except.ok [{ cycle_type := [], class_size := 1, parity := "even",
                   example_perm := "", psi_term := "",
                   index_pattern := "all indices distinct" }] :=
  conj_zero_eq

/-- C4 (amended): for `m ≤ 0`, `conjugacyClasses(m)` does not raise: it
returns the empty list for `m < 0` and the single record of the empty cycle
type for `m = 0`. -/
theorem claim_C4 (m : ℤ) (hm : m ≤ 0) :
    conjugacy_classes_Sm m =
      Except.ok (if m < 0 then [] else
        [{ cycle_type := [], class_size := 1, parity := "even", example_perm := "",
                   psi_term := "", index_pattern := "all indices distinct" }]) := by
  rcases lt_or_eq_of_le hm with h | h
  · rw [if_pos h]
    unfold conjugacy_classes_Sm integer_partitionsZ
    rw [if_pos h]
    rfl
  · subst h
    rw [if_neg (by omega)]
    exact conj_zero_eq

theorem claim_C4_witness : conjugacy_classes_Sm (-1) = Except.ok [] := by
  have h := claim_C4 (-1) (by omega)
  rwa [if_pos (by omega : (-1 : ℤ) < 0)] at h

/-! ### The multiplicity dict: specification lemmas -/

theorem mem_keys_addMult {l : List (ℕ × ℕ)} {x y : ℕ}
    (hy : y ∈ (addMult l x).map Prod.fst) : y ∈ l.map Prod.fst ∨ y = x := by
  induction l with
  | nil =>
    simp only [addMult, List.map_cons, List.map_nil, List.mem_singleton] at hy
    exact Or.inr hy
  | cons hd t ih =>
    obtain ⟨a, c⟩ := hd
    simp only [addMult] at hy
    split at hy
    · rename_i hax
      simp only [List.map_cons, List.mem_cons] at hy
      rcases hy with rfl | hy
      · exact Or.inr hax
      · exact Or.inl (by simp [hy])
    · simp only [List.map_cons, List.mem_cons] at hy
      rcases hy with rfl | hy
      · exact Or.inl (by simp)
      · rcases ih hy with h | h
        · exact Or.inl (by simp only [List.map_cons, List.mem_cons]; exact Or.inr h)
        · exact Or.inr h

theorem keys_nodup_addMult {l : List (ℕ × ℕ)} {x : ℕ}
    (h : (l.map Prod.fst).Nodup) : ((addMult l x).map Prod.fst).Nodup := by
  induction l with
  | nil => simp [addMult]
  | cons hd t ih =>
    obtain ⟨a, c⟩ := hd
    simp only [List.map_cons, List.nodup_cons] at h
    obtain ⟨ha, ht⟩ := h
    simp only [addMult]
    split
    · simp only [List.map_cons, List.nodup_cons]
      exact ⟨ha, ht⟩
    · rename_i hax
      simp only [List.map_cons, List.nodup_cons]
      refine ⟨?_, ih ht⟩
      intro hmem
      rcases mem_keys_addMult hmem with h2 | h2
      · exact ha h2
      · exact hax h2

theorem addMult_of_not_mem {l : List (ℕ × ℕ)} {x : ℕ} (h : x ∉ l.map Prod.fst) :
    addMult l x = l ++ [(x, 1)] := by
  induction l with
  | nil => rfl
  | cons hd t ih =>
    obtain ⟨a, c⟩ := hd
    simp only [List.map_cons, List.mem_cons, not_or] at h
    simp only [addMult, if_neg (fun hax : a = x => h.1 hax.symm)]
    rw [ih h.2]
    rfl

theorem addMult_of_mem {l : List (ℕ × ℕ)} {x c0 : ℕ}
    (hk : (l.map Prod.fst).Nodup) (h : (x, c0) ∈ l) :
    addMult l x = l.map (fun p => if p.1 = x then (x, c0 + 1) else p) := by
  induction l with
  | nil => simp at h
  | cons hd t ih =>
    obtain ⟨a, c⟩ := hd
    simp only [List.map_cons, List.nodup_cons] at hk
    rcases List.mem_cons.mp h with heq | hmem
    · obtain ⟨rfl, rfl⟩ : a = x ∧ c = c0 := by
        have h2 := heq.symm
        simp only [Prod.mk.injEq] at h2
        exact h2
      have h1 : addMult ((a, c) :: t) a = (a, c + 1) :: t := by
        simp [addMult]
      have h2 : (if ((a, c) : ℕ × ℕ).1 = a then (a, c + 1) else (a, c)) = (a, c + 1) := by
        simp
      rw [h1, List.map_cons, h2]
      congr 1
      have h3 : ∀ p ∈ t, (if p.1 = a then (a, c + 1) else p) = p := by
        intro p hp
        rw [if_neg]
        intro hpa
        exact hk.1 (hpa ▸ List.mem_map_of_mem Prod.fst hp)
      rw [List.map_congr_left h3]
      simp
    · have hax : ¬a = x := by
        rintro rfl
        exact hk.1 (List.mem_map_of_mem Prod.fst hmem)
      have h1 : addMult ((a, c) :: t) x = (a, c) :: addMult t x := by
        simp [addMult, hax]
      have h2 : (if ((a, c) : ℕ × ℕ).1 = x then (x, c0 + 1) else (a, c)) = (a, c) := by
        simp [hax]
      rw [h1, List.map_cons, h2, ih hk.2 hmem]

theorem count_append_singleton_self (seen : List ℕ) (x : ℕ) :
    (seen ++ [x]).count x = seen.count x + 1 := by
  simp

theorem count_append_singleton_ne (seen : List ℕ) (x a : ℕ) (hax : a ≠ x) :
    (seen ++ [x]).count a = seen.count a := by
  rw [List.count_append]
  have h0 : List.count a [x] = 0 := by
    apply List.count_eq_zero.mpr
    simp only [List.mem_singleton]
    exact fun h => hax h
  omega

theorem addMult_mem_iff {l : List (ℕ × ℕ)} {x : ℕ} {seen : List ℕ}
    (hk : (l.map Prod.fst).Nodup)
    (hinv : ∀ a c, ((a, c) ∈ l ↔ a ∈ seen ∧ c = seen.count a)) :
    ∀ a c, ((a, c) ∈ addMult l x ↔ a ∈ seen ++ [x] ∧ c = (seen ++ [x]).count a) := by
  intro a c
  by_cases hx : x ∈ l.map Prod.fst
  · obtain ⟨p, hp, hpx⟩ := List.mem_map.mp hx
    obtain ⟨x1, c0⟩ := p
    simp only at hpx
    subst hpx
    have hx_seen : x1 ∈ seen ∧ c0 = seen.count x1 := (hinv x1 c0).mp hp
    rw [addMult_of_mem hk hp, List.mem_map]
    constructor
    · rintro ⟨⟨b1, b2⟩, hb, hfb⟩
      by_cases hbx : b1 = x1
      · rw [if_pos hbx] at hfb
        simp only [Prod.mk.injEq] at hfb
        obtain ⟨rfl, rfl⟩ := hfb
        refine ⟨by simp [hx_seen.1], ?_⟩
        rw [count_append_singleton_self, hx_seen.2]
      · rw [if_neg hbx] at hfb
        injection hfb with hfb1 hfb2
        subst hfb1
        subst hfb2
        have hb2 := (hinv b1 b2).mp hb
        refine ⟨by simp [hb2.1], ?_⟩
        rw [count_append_singleton_ne seen x1 b1 hbx, hb2.2]
    · rintro ⟨hmem, rfl⟩
      by_cases hax : a = x1
      · subst hax
        refine ⟨(a, c0), hp, ?_⟩
        rw [if_pos rfl, count_append_singleton_self, hx_seen.2]
      · have hmem2 : a ∈ seen := by
          rcases List.mem_append.mp hmem with h | h
          · exact h
          · simp only [List.mem_singleton] at h
            exact absurd h hax
        refine ⟨(a, seen.count a), (hinv a (seen.count a)).mpr ⟨hmem2, rfl⟩, ?_⟩
        rw [if_neg hax, count_append_singleton_ne seen x1 a hax]
  · rw [addMult_of_not_mem hx, List.mem_append, List.mem_singleton]
    have hx_nseen : x ∉ seen := by
      intro hxs
      exact hx (List.mem_map_of_mem Prod.fst
        ((hinv x (seen.count x)).mpr ⟨hxs, rfl⟩))
    constructor
    · rintro (hmem | heq)
      · have hac := (hinv a c).mp hmem
        have hax : a ≠ x := by
          rintro rfl
          exact hx_nseen hac.1
        refine ⟨by simp [hac.1], ?_⟩
        rw [count_append_singleton_ne seen x a hax, hac.2]
      · simp only [Prod.mk.injEq] at heq
        obtain ⟨rfl, rfl⟩ := heq
        have h0 : seen.count a = 0 := List.count_eq_zero.mpr hx_nseen
        refine ⟨by simp, ?_⟩
        rw [count_append_singleton_self, h0]
    · rintro ⟨hmem, rfl⟩
      by_cases hax : a = x
      · subst hax
        right
        rw [count_append_singleton_self, List.count_eq_zero.mpr hx_nseen]
      · left
        have hmem2 : a ∈ seen := by
          rcases List.mem_append.mp hmem with h | h
          · exact h
          · simp only [List.mem_singleton] at h
            exact absurd h hax
        rw [count_append_singleton_ne seen x a hax]
        exact (hinv a _).mpr ⟨hmem2, rfl⟩

theorem foldl_addMult_spec (rest : List ℕ) :
    ∀ (l : List (ℕ × ℕ)) (seen : List ℕ),
      (l.map Prod.fst).Nodup →
      (∀ a c, ((a, c) ∈ l ↔ a ∈ seen ∧ c = seen.count a)) →
      ((rest.foldl addMult l).map Prod.fst).Nodup ∧
      ∀ a c, ((a, c) ∈ rest.foldl addMult l ↔
        a ∈ seen ++ rest ∧ c = (seen ++ rest).count a) := by
  induction rest with
  | nil =>
    intro l seen hk hinv
    simpa using ⟨hk, hinv⟩
  | cons x rest ih =>
    intro l seen hk hinv
    have hstep := ih (addMult l x) (seen ++ [x]) (keys_nodup_addMult hk)
      (addMult_mem_iff hk hinv)
    simp only [List.foldl_cons]
    constructor
    · exact hstep.1
    · intro a c
      rw [hstep.2 a c]
      simp [List.append_assoc]

theorem cycle_mult_keys_nodup (ct : List ℕ) :
    ((cycle_type_multiplicities ct).map Prod.fst).Nodup :=
  (foldl_addMult_spec ct [] [] (by simp) (by simp)).1

theorem cycle_mult_mem (ct : List ℕ) (a c : ℕ) :
    ((a, c) ∈ cycle_type_multiplicities ct ↔ a ∈ ct ∧ c = ct.count a) := by
  have h := (foldl_addMult_spec ct [] [] (by simp) (by simp)).2 a c
  simpa using h

theorem prod_cycle_mult {M : Type} [CommMonoid M] (ct : List ℕ) (f : ℕ → ℕ → M) :
    ((cycle_type_multiplicities ct).map (fun lc => f lc.1 lc.2)).prod =
      ∏ a ∈ ct.toFinset, f a (ct.count a) := by
  have hperm : List.Perm (cycle_type_multiplicities ct)
      (ct.toFinset.toList.map (fun a => (a, ct.count a))) := by
    apply List.perm_of_nodup_nodup_toFinset_eq
    · exact (cycle_mult_keys_nodup ct).of_map
    · exact (Finset.nodup_toList _).map (fun a b hab => by
        simpa using congrArg Prod.fst hab)
    · apply Finset.ext
      intro p
      obtain ⟨a, c⟩ := p
      rw [List.mem_toFinset, List.mem_toFinset, cycle_mult_mem, List.mem_map]
      constructor
      · rintro ⟨ha, rfl⟩
        exact ⟨a, by rw [Finset.mem_toList, List.mem_toFinset]; exact ha, rfl⟩
      · rintro ⟨b, hb, hba⟩
        simp only [Prod.mk.injEq] at hba
        obtain ⟨rfl, rfl⟩ := hba
        rw [Finset.mem_toList, List.mem_toFinset] at hb
        exact ⟨hb, rfl⟩
  rw [(hperm.map (fun lc => f lc.1 lc.2)).prod_eq, List.map_map]
  rw [← Finset.prod_to_list]
  rfl

/-! ### The symmetrization denominator z and the partition Finset -/

/-- The class-size denominator as a function of the multiset of parts:
`z(c) = (prod of parts) * (prod over distinct parts of multiplicity!)`. -/
def zMS (c : Multiset ℕ) : ℕ :=
  c.prod * ∏ a ∈ c.toFinset, (c.count a).factorial

theorem classDenom_eq_zMS (ct : List ℕ) : classDenom ct = zMS (↑ct) := by
  unfold classDenom zMS
  have hf : ∀ init, (cycle_type_multiplicities ct).foldl
      (fun d lc => d * (lc.1 ^ lc.2 * Nat.factorial lc.2)) init =
      init * (((cycle_type_multiplicities ct)).map
        (fun lc => lc.1 ^ lc.2 * Nat.factorial lc.2)).prod := by
    induction cycle_type_multiplicities ct with
    | nil => intro init; simp
    | cons hd t ih =>
      intro init
      simp only [List.foldl_cons, List.map_cons, List.prod_cons]
      rw [ih]
      ring
  rw [hf 1, one_mul, prod_cycle_mult ct (fun ℓ c => ℓ ^ c * Nat.factorial c)]
  rw [Finset.prod_mul_distrib]
  congr 1
  · rw [Finset.prod_multiset_count]
    apply Finset.prod_congr
    · simp
    · intro a _
      simp
  · apply Finset.prod_congr
    · simp
    · intro a _
      simp

theorem prod_dvd_prod_factorial (c : Multiset ℕ) :
    (∀ x ∈ c, 0 < x) → c.prod ∣ (c.map Nat.factorial).prod := by
  induction c using Multiset.induction_on with
  | empty => intro; simp
  | cons a s ih =>
    intro hpos
    simp only [Multiset.prod_cons, Multiset.map_cons]
    exact mul_dvd_mul (Nat.dvd_factorial (hpos a (by simp)) le_rfl)
      (ih (fun x hx => hpos x (by simp [hx])))

theorem zMS_dvd (c : Multiset ℕ) (hpos : ∀ x ∈ c, 0 < x) :
    zMS c ∣ (c.sum).factorial := by
  have h0 : (0 : ℕ) ∉ c := fun h => absurd (hpos 0 h) (lt_irrefl 0)
  have hbell := Multiset.bell_mul_eq c
  have herase : c.toFinset.erase 0 = c.toFinset :=
    Finset.erase_eq_of_not_mem (by simp [h0])
  rw [herase] at hbell
  have hdvd : zMS c ∣ (c.map Nat.factorial).prod * ∏ j ∈ c.toFinset, (c.count j).factorial :=
    mul_dvd_mul (prod_dvd_prod_factorial c hpos) dvd_rfl
  refine hdvd.trans ⟨c.bell, ?_⟩
  rw [← hbell]
  ring

theorem zMS_pos (c : Multiset ℕ) (hpos : ∀ x ∈ c, 0 < x) : 0 < zMS c := by
  unfold zMS
  apply Nat.mul_pos
  · exact Multiset.prod_pos hpos
  · exact Finset.prod_pos (fun a _ => Nat.factorial_pos _)

theorem sorted_coe_inj {p q : List ℕ} (hp : p.Pairwise (fun a b => b ≤ a))
    (hq : q.Pairwise (fun a b => b ≤ a)) (h : (↑p : Multiset ℕ) = ↑q) : p = q := by
  have hanti : IsAntisymm ℕ (fun a b => b ≤ a) := ⟨fun a b h1 h2 => le_antisymm h2 h1⟩
  exact List.eq_of_perm_of_sorted (Multiset.coe_eq_coe.mp h) hp hq

/-- The partitions of `m` as multisets, in enumeration order. -/
def PsetsList (m : ℕ) : List (Multiset ℕ) :=
  (integer_partitions m).map (fun l => Multiset.ofList l)

theorem PsetsList_nodup (m : ℕ) : (PsetsList m).Nodup := by
  unfold PsetsList
  apply List.Nodup.map_on
  · intro p hp q hq heq
    have hps := ((mem_partHelperF m m m p le_rfl).mp hp).2.1
    have hqs := ((mem_partHelperF m m m q le_rfl).mp hq).2.1
    exact sorted_coe_inj hps hqs heq
  · exact nodup_partHelperF m m m le_rfl

/-- The set of partitions of `m` as multisets of positive parts, built from
the enumeration `integer_partitions m`. -/
def Psets (m : ℕ) : Finset (Multiset ℕ) :=
  ⟨(PsetsList m : List (Multiset ℕ)), by
    rw [Multiset.coe_nodup]
    exact PsetsList_nodup m⟩

theorem mem_Psets (m : ℕ) (c : Multiset ℕ) :
    c ∈ Psets m ↔ c.sum = m ∧ ∀ x ∈ c, 0 < x := by
  have hmq : c ∈ Psets m ↔ c ∈ PsetsList m := by
    show c ∈ ((PsetsList m : List (Multiset ℕ)) : Multiset (Multiset ℕ)) ↔ _
    rw [Multiset.mem_coe]
  rw [hmq]
  constructor
  · intro hc
    obtain ⟨p, hp, rfl⟩ := List.mem_map.mp hc
    obtain ⟨h1, _, h3⟩ := (mem_partHelperF m m m p le_rfl).mp hp
    constructor
    · simpa using h3
    · intro x hx
      exact (h1 x (by simpa using hx)).1
  · rintro ⟨hsum, hpos⟩
    have hanti : IsAntisymm ℕ (fun a b => b ≤ a) := ⟨fun a b h1 h2 => le_antisymm h2 h1⟩
    have htot : IsTotal ℕ (fun a b => b ≤ a) := ⟨fun a b => (le_total b a)⟩
    have htrans : IsTrans ℕ (fun a b => b ≤ a) := ⟨fun a b c h1 h2 => le_trans h2 h1⟩
    set p := Multiset.sort (fun a b => b ≤ a) c with hpdef
    have hco : (↑p : Multiset ℕ) = c := Multiset.sort_eq _ c
    have hmem : p ∈ integer_partitions m := by
      apply (mem_partHelperF m m m p le_rfl).mpr
      refine ⟨?_, Multiset.sort_sorted _ c, ?_⟩
      · intro x hx
        have hxc : x ∈ c := by
          rw [← hco]
          exact_mod_cast hx
        refine ⟨hpos x hxc, ?_⟩
        calc x ≤ c.sum := Multiset.single_le_sum (fun y _ => Nat.zero_le y) x hxc
        _ = m := hsum
      · have : (↑p : Multiset ℕ).sum = c.sum := by rw [hco]
        simpa using this.trans hsum
    rw [PsetsList, List.mem_map]
    exact ⟨p, hmem, hco⟩

theorem sum_Psets_eq_list {M : Type} [AddCommMonoid M] (m : ℕ) (g : Multiset ℕ → M) :
    ∑ c ∈ Psets m, g c =
      ((integer_partitions m).map (fun p => g (Multiset.ofList p))).sum := by
  rw [Finset.sum]
  show ((Multiset.ofList (PsetsList m)).map g).sum = _
  rw [Multiset.map_coe, Multiset.sum_coe, PsetsList, List.map_map]
  rfl

theorem pf_cons (ℓ : ℕ) (s : Multiset ℕ) :
    ∏ a ∈ (ℓ ::ₘ s).toFinset, ((ℓ ::ₘ s).count a).factorial =
      (s.count ℓ + 1) * ∏ a ∈ s.toFinset, (s.count a).factorial := by
  by_cases hmem : ℓ ∈ s
  · have hins : (ℓ ::ₘ s).toFinset = s.toFinset := by
      rw [Multiset.toFinset_cons]
      exact Finset.insert_eq_self.mpr (Multiset.mem_toFinset.mpr hmem)
    rw [hins]
    have hsplit := Finset.mul_prod_erase s.toFinset
      (fun a => ((ℓ ::ₘ s).count a).factorial) (Multiset.mem_toFinset.mpr hmem)
    have hsplit2 := Finset.mul_prod_erase s.toFinset
      (fun a => (s.count a).factorial) (Multiset.mem_toFinset.mpr hmem)
    simp only at hsplit hsplit2
    rw [← hsplit, ← hsplit2]
    have hc1 : ((ℓ ::ₘ s).count ℓ).factorial = (s.count ℓ + 1) * (s.count ℓ).factorial := by
      rw [Multiset.count_cons_self]
      exact rfl
    have hc2 : ∏ a ∈ s.toFinset.erase ℓ, ((ℓ ::ₘ s).count a).factorial =
        ∏ a ∈ s.toFinset.erase ℓ, (s.count a).factorial := by
      apply Finset.prod_congr rfl
      intro a ha
      rw [Multiset.count_cons_of_ne (Finset.ne_of_mem_erase ha)]
    rw [hc1, hc2]
    ring
  · have hins : (ℓ ::ₘ s).toFinset = insert ℓ s.toFinset := Multiset.toFinset_cons ℓ s
    have hnm : ℓ ∉ s.toFinset := fun h => hmem (Multiset.mem_toFinset.mp h)
    rw [hins, Finset.prod_insert hnm]
    have hc0 : s.count ℓ = 0 := Multiset.count_eq_zero.mpr hmem
    have hc1 : ((ℓ ::ₘ s).count ℓ).factorial = 1 := by
      rw [Multiset.count_cons_self, hc0]
      decide
    have hc2 : ∏ a ∈ s.toFinset, ((ℓ ::ₘ s).count a).factorial =
        ∏ a ∈ s.toFinset, (s.count a).factorial := by
      apply Finset.prod_congr rfl
      intro a ha
      rw [Multiset.count_cons_of_ne]
      intro hal
      exact hnm (hal ▸ ha)
    rw [hc1, hc2, hc0]

theorem zMS_cons (ℓ : ℕ) (s : Multiset ℕ) :
    zMS (ℓ ::ₘ s) = (ℓ * (s.count ℓ + 1)) * zMS s := by
  unfold zMS
  rw [Multiset.prod_cons, pf_cons]
  ring

theorem sum_toFinset_count_mul (c : Multiset ℕ) :
    ∑ a ∈ c.toFinset, c.count a * a = c.sum := by
  rw [Finset.sum_multiset_count]
  apply Finset.sum_congr rfl
  intro a _
  rw [smul_eq_mul]

/-! ### The weighted Newton recurrence over partitions -/

section Wsum

variable {R : Type} [CommRing R] [Algebra ℚ R]

/-- The group-averaged partition sum `Σ over partitions c of m` of
`((prod of w over parts) / z(c)) • (prod of φ over parts)`. With `w = 1` and
`φ ℓ = ψ(q^ℓ)` this is `(1/m!) Σ_i |C_i| C_i(q)`; the weight
`w ℓ = (-1)^(ℓ-1)` produces the sign `(-1)^(m-r)` of the distinct case. -/
def Wsum (φ : ℕ → R) (w : ℕ → ℚ) (m : ℕ) : R :=
  ∑ c ∈ Psets m, ((c.map w).prod / (zMS c : ℚ)) • (c.map φ).prod

theorem Psets_zero : Psets 0 = {0} := by
  apply Finset.ext
  intro c
  rw [mem_Psets, Finset.mem_singleton]
  constructor
  · rintro ⟨hs, hp⟩
    apply Multiset.eq_zero_of_forall_not_mem
    intro x hx
    have hx0 : x = 0 := by
      have hle : x ≤ c.sum := Multiset.single_le_sum (fun y _ => Nat.zero_le y) x hx
      omega
    exact absurd hx0 (Nat.pos_iff_ne_zero.mp (hp x hx))
  · rintro rfl
    exact ⟨rfl, fun x hx => absurd hx (Multiset.not_mem_zero x)⟩

theorem Wsum_zero (φ : ℕ → R) (w : ℕ → ℚ) : Wsum φ w 0 = 1 := by
  rw [Wsum, Psets_zero, Finset.sum_singleton]
  simp [zMS]

theorem Wsum_rec (φ : ℕ → R) (w : ℕ → ℚ) (m : ℕ) (hm : 1 ≤ m) :
    (m : ℚ) • Wsum φ w m =
      ∑ ℓ ∈ Finset.Icc 1 m, w ℓ • (φ ℓ * Wsum φ w (m - ℓ)) := by
  have hinner : ∀ ℓ ∈ Finset.Icc 1 m, w ℓ • (φ ℓ * Wsum φ w (m - ℓ)) =
      ∑ c ∈ Psets (m - ℓ),
        ((w ℓ * ((c.map w).prod / (zMS c : ℚ))) • (φ ℓ * (c.map φ).prod)) := by
    intro ℓ _
    rw [Wsum, Finset.mul_sum, Finset.smul_sum]
    apply Finset.sum_congr rfl
    intro c _
    rw [mul_smul_comm, smul_smul]
  rw [Finset.sum_congr rfl hinner, Finset.sum_sigma']
  have hmaps : ∀ p ∈ (Finset.Icc 1 m).sigma (fun ℓ => Psets (m - ℓ)),
      (p.1 ::ₘ p.2) ∈ Psets m := by
    rintro ⟨ℓ, c⟩ hp
    rw [Finset.mem_sigma] at hp
    obtain ⟨hℓ, hc⟩ := hp
    rw [Finset.mem_Icc] at hℓ
    rw [mem_Psets] at hc ⊢
    dsimp only at hℓ hc ⊢
    constructor
    · rw [Multiset.sum_cons, hc.1]
      omega
    · intro x hx
      rcases Multiset.mem_cons.mp hx with rfl | hx2
      · omega
      · exact hc.2 x hx2
  rw [← Finset.sum_fiberwise_of_maps_to hmaps]
  have hfiber : ∀ c ∈ Psets m,
      (∑ p ∈ ((Finset.Icc 1 m).sigma (fun ℓ => Psets (m - ℓ))).filter
          (fun p => p.1 ::ₘ p.2 = c),
        ((w p.1 * ((p.2.map w).prod / (zMS p.2 : ℚ))) • (φ p.1 * (p.2.map φ).prod))) =
      ∑ ℓ ∈ c.toFinset,
        ((w ℓ * (((c.erase ℓ).map w).prod / (zMS (c.erase ℓ) : ℚ))) •
          (φ ℓ * ((c.erase ℓ).map φ).prod)) := by
    intro c hc
    apply Finset.sum_bij' (fun (p : Σ _ : ℕ, Multiset ℕ) _ => p.1)
      (fun ℓ _ => (⟨ℓ, c.erase ℓ⟩ : Σ _ : ℕ, Multiset ℕ))
    · rintro ⟨ℓ, c2⟩ hp
      rw [Finset.mem_filter] at hp
      have hcons := hp.2
      rw [Multiset.mem_toFinset, ← hcons]
      exact Multiset.mem_cons_self ℓ c2
    · intro ℓ hℓ
      rw [Multiset.mem_toFinset] at hℓ
      rw [Finset.mem_filter, Finset.mem_sigma, Finset.mem_Icc]
      rw [mem_Psets] at hc
      dsimp only
      refine ⟨⟨⟨?_, ?_⟩, ?_⟩, Multiset.cons_erase hℓ⟩
      · exact hc.2 ℓ hℓ
      · have hle : ℓ ≤ c.sum := Multiset.single_le_sum (fun y _ => Nat.zero_le y) ℓ hℓ
        omega
      · rw [mem_Psets]
        constructor
        · have hsum : ℓ + (c.erase ℓ).sum = c.sum := by
            conv_rhs => rw [← Multiset.cons_erase hℓ]
            rw [Multiset.sum_cons]
          rw [hc.1] at hsum
          omega
        · intro x hx
          exact hc.2 x (Multiset.mem_of_mem_erase hx)
    · rintro ⟨ℓ, c2⟩ hp
      rw [Finset.mem_filter] at hp
      have hcons := hp.2
      cases hcons
      rw [Multiset.erase_cons_head]
    · intro ℓ hℓ
      rfl
    · rintro ⟨ℓ, c2⟩ hp
      rw [Finset.mem_filter] at hp
      have hcons := hp.2
      have hc2 : c2 = c.erase ℓ := by
        rw [← hcons, Multiset.erase_cons_head]
      rw [hc2]
  rw [Finset.sum_congr rfl hfiber]
  have heval : ∀ c ∈ Psets m,
      (∑ ℓ ∈ c.toFinset,
        ((w ℓ * (((c.erase ℓ).map w).prod / (zMS (c.erase ℓ) : ℚ))) •
          (φ ℓ * ((c.erase ℓ).map φ).prod))) =
      (m : ℚ) • (((c.map w).prod / (zMS c : ℚ)) • (c.map φ).prod) := by
    intro c hc
    rw [mem_Psets] at hc
    have hterm : ∀ ℓ ∈ c.toFinset,
        ((w ℓ * (((c.erase ℓ).map w).prod / (zMS (c.erase ℓ) : ℚ))) •
          (φ ℓ * ((c.erase ℓ).map φ).prod)) =
        ((ℓ * c.count ℓ : ℕ) : ℚ) • (((c.map w).prod / (zMS c : ℚ)) • (c.map φ).prod) := by
      intro ℓ hℓ
      have hℓc : ℓ ∈ c := Multiset.mem_toFinset.mp hℓ
      have hcons : ℓ ::ₘ c.erase ℓ = c := Multiset.cons_erase hℓc
      have hzc : zMS c = (ℓ * ((c.erase ℓ).count ℓ + 1)) * zMS (c.erase ℓ) := by
        conv_lhs => rw [← hcons]
        exact zMS_cons ℓ (c.erase ℓ)
      have hcount : (c.erase ℓ).count ℓ + 1 = c.count ℓ := by
        rw [Multiset.count_erase_self]
        have := Multiset.count_pos.mpr hℓc
        omega
      have hze : (zMS (c.erase ℓ) : ℚ) ≠ 0 := by
        have := zMS_pos (c.erase ℓ) (fun x hx => hc.2 x (Multiset.mem_of_mem_erase hx))
        exact_mod_cast this.ne.symm
      have hw : w ℓ * ((c.erase ℓ).map w).prod = (c.map w).prod := by
        conv_rhs => rw [← hcons]
        rw [Multiset.map_cons, Multiset.prod_cons]
      have hφ : φ ℓ * ((c.erase ℓ).map φ).prod = (c.map φ).prod := by
        conv_rhs => rw [← hcons]
        rw [Multiset.map_cons, Multiset.prod_cons]
      rw [smul_smul, ← hφ]
      congr 1
      rw [← hw, hzc, ← hcount]
      have hℓ0 : (ℓ : ℚ) ≠ 0 := by
        have := hc.2 ℓ hℓc
        exact_mod_cast Nat.pos_iff_ne_zero.mp this
      push_cast
      field_simp
      ring
    rw [Finset.sum_congr rfl hterm, ← Finset.sum_smul]
    congr 1
    rw [← Nat.cast_sum]
    have hsum : ∑ ℓ ∈ c.toFinset, ℓ * c.count ℓ = m := by
      calc ∑ ℓ ∈ c.toFinset, ℓ * c.count ℓ = ∑ ℓ ∈ c.toFinset, c.count ℓ * ℓ := by
            apply Finset.sum_congr rfl
            intro a _
            ring
      _ = c.sum := sum_toFinset_count_mul c
      _ = m := hc.1
    rw [hsum]
  rw [Finset.sum_congr rfl heval, ← Finset.smul_sum, Wsum]

end Wsum

theorem Wsum_const_one (m : ℕ) : Wsum (fun _ => (1 : ℚ)) (fun _ => 1) m = 1 := by
  induction m using Nat.strong_induction_on with
  | _ m ih =>
    rcases Nat.eq_zero_or_pos m with rfl | hm
    · exact Wsum_zero _ _
    · have hrec := Wsum_rec (fun _ => (1 : ℚ)) (fun _ => 1) m hm
      have hsum : ∑ ℓ ∈ Finset.Icc 1 m,
          (1 : ℚ) • ((1 : ℚ) * Wsum (fun _ => (1 : ℚ)) (fun _ => 1) (m - ℓ)) = m := by
        have hterm : ∀ ℓ ∈ Finset.Icc 1 m,
            (1 : ℚ) • ((1 : ℚ) * Wsum (fun _ => (1 : ℚ)) (fun _ => 1) (m - ℓ)) = 1 := by
          intro ℓ hℓ
          rw [Finset.mem_Icc] at hℓ
          rw [one_smul, one_mul, ih (m - ℓ) (by omega)]
        rw [Finset.sum_congr rfl hterm, Finset.sum_const, Nat.card_Icc]
        simp
      rw [hsum] at hrec
      have hm0 : (m : ℚ) ≠ 0 := Nat.cast_ne_zero.mpr (by omega)
      have h2 : (m : ℚ) * Wsum (fun _ => (1 : ℚ)) (fun _ => 1) m = (m : ℚ) * 1 := by
        rw [mul_one, ← smul_eq_mul]
        exact hrec
      exact mul_left_cancel₀ hm0 h2

theorem Psets_mem_facts {m : ℕ} {c : Multiset ℕ} (hc : c ∈ Psets m) :
    zMS c ∣ m.factorial ∧ 0 < zMS c := by
  rw [mem_Psets] at hc
  constructor
  · have := zMS_dvd c hc.2
    rwa [hc.1] at this
  · exact zMS_pos c hc.2

theorem sum_inv_z (m : ℕ) : ∑ c ∈ Psets m, (1 : ℚ) / (zMS c : ℚ) = 1 := by
  have h := Wsum_const_one m
  rw [Wsum] at h
  have hterm : ∀ c ∈ Psets m,
      ((c.map (fun _ => (1 : ℚ))).prod / (zMS c : ℚ)) •
        (c.map (fun _ => (1 : ℚ))).prod = (1 : ℚ) / (zMS c : ℚ) := by
    intro c _
    rw [Multiset.prod_map_one, smul_eq_mul, mul_one]
  rw [Finset.sum_congr rfl hterm] at h
  exact h

theorem sum_class_size_list (m : ℕ) :
    ((integer_partitions m).map (fun ct => class_size_for_cycle_type ct m)).sum =
      m.factorial := by
  have hlist : ((integer_partitions m).map (fun ct => class_size_for_cycle_type ct m)) =
      ((integer_partitions m).map (fun ct => m.factorial / zMS (Multiset.ofList ct))) := by
    apply List.map_congr_left
    intro ct _
    rw [class_size_for_cycle_type, classDenom_eq_zMS]
  rw [hlist, ← sum_Psets_eq_list m (fun c => m.factorial / zMS c)]
  have hcast : ((∑ c ∈ Psets m, m.factorial / zMS c : ℕ) : ℚ) = (m.factorial : ℚ) := by
    rw [Nat.cast_sum]
    have hterm : ∀ c ∈ Psets m,
        ((m.factorial / zMS c : ℕ) : ℚ) = (m.factorial : ℚ) * ((1 : ℚ) / (zMS c : ℚ)) := by
      intro c hc
      obtain ⟨hdvd, hpos⟩ := Psets_mem_facts hc
      rw [Nat.cast_div hdvd (by exact_mod_cast hpos.ne.symm)]
      ring
    rw [Finset.sum_congr rfl hterm, ← Finset.mul_sum, sum_inv_z, mul_one]
  exact_mod_cast hcast

/-- C3: the class sizes over all cycle types returned by `conjugacyClasses(m)`
sum to `m!`, and for each record the defining division
`m! / (prod of length^mult * mult!)` is exact. -/
theorem claim_C3 (m : ℕ) (hm : 1 ≤ m) :
    ∃ l, conjugacy_classes_Sm (m : ℤ) = Except.ok l ∧
      (l.map (fun r => r.class_size)).sum = Nat.factorial m ∧
      ∀ r ∈ l, r.class_size * classDenom r.cycle_type = Nat.factorial m := by
  refine ⟨(integer_partitions m).map (fun ct => classRecOf ct m), ?_, ?_, ?_⟩
  · rw [conjugacy_classes_Sm, integer_partitionsZ, if_neg (by omega : ¬(m : ℤ) < 0)]
    simp [Int.toNat_natCast]
  · rw [List.map_map]
    have h2 : ((fun r => r.class_size) ∘ fun ct => classRecOf ct m) =
        fun ct => class_size_for_cycle_type ct m := rfl
    rw [h2]
    exact sum_class_size_list m
  · intro r hr
    rw [List.mem_map] at hr
    obtain ⟨ct, hct, rfl⟩ := hr
    show class_size_for_cycle_type ct m * classDenom ct = m.factorial
    rw [class_size_for_cycle_type, classDenom_eq_zMS]
    obtain ⟨h1, h2, h3⟩ := (mem_partHelperF m m m ct le_rfl).mp hct
    have hc : Multiset.ofList ct ∈ Psets m := by
      rw [mem_Psets]
      constructor
      · simpa using h3
      · intro x hx
        exact (h1 x (by simpa using hx)).1
    obtain ⟨hdvd, _⟩ := Psets_mem_facts hc
    exact Nat.div_mul_cancel hdvd

theorem claim_C3_witness :
    ∃ l, conjugacy_classes_Sm ((3 : ℕ) : ℤ) = Except.ok l ∧
      (l.map (fun r => r.class_size)).sum = Nat.factorial 3 ∧
      ∀ r ∈ l, r.class_size * classDenom r.cycle_type = Nat.factorial 3 :=
  claim_C3 3 (by omega)

/-! ### bruteforce_partitions.py: the backtracking counters -/

/-- The nonlocal state of one backtracking search: running count and collected
example tuples. -/
structure Acc where
  count : ℕ
  examples : List (List ℤ)
deriving DecidableEq

/-- The `pos == m`, `remaining == 0` success step: bump the count and record
the tuple while fewer than `max_examples` examples have been kept. -/
def record (maxEx : ℕ) (tup : List ℤ) (acc : Acc) : Acc :=
  { count := acc.count + 1
    examples :=
      if acc.examples.length < maxEx then acc.examples ++ [tup] else acc.examples }

/-- `backtrack` of `count_ordered_representations`: `rest` positions left to
fill, a suffix of `values` still to scan at the current position, the
remaining budget, the tuple so far, and the accumulator. `remaining < v`
aborts the scan (the Python `break`); a full tuple with budget `0` is
counted. -/
def btOrd (values : List ℤ) (maxEx : ℕ) : ℕ → List ℤ → ℤ → List ℤ → Acc → Acc
  | 0, _, remaining, tup, acc => if remaining = 0 then record maxEx tup acc else acc
  | _ + 1, [], _, _, acc => acc
  | rest + 1, v :: vs, remaining, tup, acc =>
    if remaining < v then acc
    else btOrd values maxEx (rest + 1) vs remaining tup
      (btOrd values maxEx rest values (remaining - v) (tup ++ [v]) acc)
termination_by rest scan _ _ _ => (rest, scan.length)

/-- `count_ordered_representations` from `bruteforce_partitions.py`: sort the
values `≤ target` ascending, then count ordered `m`-tuples summing to
`target`. -/
def count_ordered_representations (values : List ℤ) (m : ℕ) (target : ℤ)
    (max_examples : ℕ) : ℕ × List (List ℤ) :=
  let vals := (values.filter (fun v => v ≤ target)).mergeSort
  let res := btOrd vals max_examples m vals target [] ⟨0, []⟩
  (res.count, res.examples)

/-- The `distinct and pos > 0 and v <= tuple_so_far[pos-1]` guard of
`count_unordered_partitions` (`pos > 0` is `tup ≠ []`, and
`tuple_so_far[pos-1]` is the last chosen value). -/
def lastGuard (v : ℤ) (tup : List ℤ) : Bool :=
  match tup.getLast? with
  | some p => v ≤ p
  | none => false

/-- `backtrack` of `count_unordered_partitions`: like `btOrd` but the next
position scans from the current index (`idx` for non-distinct, `idx + 1` for
distinct), and the distinct mode skips a candidate `≤` the previous value. -/
def btUnord (values : List ℤ) (maxEx : ℕ) (distinct : Bool) :
    ℕ → List ℤ → ℤ → List ℤ → Acc → Acc
  | 0, _, remaining, tup, acc => if remaining = 0 then record maxEx tup acc else acc
  | _ + 1, [], _, _, acc => acc
  | rest + 1, v :: vs, remaining, tup, acc =>
    if remaining < v then acc
    else if distinct && lastGuard v tup then
      btUnord values maxEx distinct (rest + 1) vs remaining tup acc
    else
      btUnord values maxEx distinct (rest + 1) vs remaining tup
        (btUnord values maxEx distinct rest (if distinct then vs else v :: vs)
          (remaining - v) (tup ++ [v]) acc)
termination_by rest scan _ _ _ => (rest, scan.length)

/-- `count_unordered_partitions` from `bruteforce_partitions.py`. -/
def count_unordered_partitions (values : List ℤ) (m : ℕ) (target : ℤ)
    (distinct : Bool) (max_examples : ℕ) : ℕ × List (List ℤ) :=
  let vals := (values.filter (fun v => v ≤ target)).mergeSort
  let res := btUnord vals max_examples distinct m vals target [] ⟨0, []⟩
  (res.count, res.examples)

/-- The pure count computed by the ordered backtracking, independent of the
accumulator and of `max_examples`. -/
def tcountOrd (values : List ℤ) : ℕ → List ℤ → ℤ → ℕ
  | 0, _, remaining => if remaining = 0 then 1 else 0
  | _ + 1, [], _ => 0
  | rest + 1, v :: vs, remaining =>
    if remaining < v then 0
    else tcountOrd values rest values (remaining - v) + tcountOrd values (rest + 1) vs remaining
termination_by rest scan _ => (rest, scan.length)

/-- The pure count computed by the unordered backtracking. -/
def tcountUnord (distinct : Bool) : ℕ → List ℤ → ℤ → List ℤ → ℕ
  | 0, _, remaining, _ => if remaining = 0 then 1 else 0
  | _ + 1, [], _, _ => 0
  | rest + 1, v :: vs, remaining, tup =>
    if remaining < v then 0
    else if distinct && lastGuard v tup then
      tcountUnord distinct (rest + 1) vs remaining tup
    else
      tcountUnord distinct rest (if distinct then vs else v :: vs)
          (remaining - v) (tup ++ [v]) +
        tcountUnord distinct (rest + 1) vs remaining tup
termination_by rest scan _ _ => (rest, scan.length)

theorem btOrd_count (values : List ℤ) (maxEx : ℕ) :
    ∀ (rest : ℕ) (scan : List ℤ) (remaining : ℤ) (tup : List ℤ) (acc : Acc),
      (btOrd values maxEx rest scan remaining tup acc).count =
        acc.count + tcountOrd values rest scan remaining := by
  intro rest
  induction rest using Nat.strong_induction_on with
  | _ rest ih =>
    cases rest with
    | zero =>
      intro scan remaining tup acc
      simp only [btOrd, tcountOrd]
      split
      · simp [record]
      · simp
    | succ r =>
      intro scan
      induction scan with
      | nil =>
        intro remaining tup acc
        simp [btOrd, tcountOrd]
      | cons v vs ihs =>
        intro remaining tup acc
        simp only [btOrd, tcountOrd]
        split
        · simp
        · rw [ihs, ih r (by omega)]
          omega

theorem btUnord_count (values : List ℤ) (maxEx : ℕ) (distinct : Bool) :
    ∀ (rest : ℕ) (scan : List ℤ) (remaining : ℤ) (tup : List ℤ) (acc : Acc),
      (btUnord values maxEx distinct rest scan remaining tup acc).count =
        acc.count + tcountUnord distinct rest scan remaining tup := by
  intro rest
  induction rest using Nat.strong_induction_on with
  | _ rest ih =>
    cases rest with
    | zero =>
      intro scan remaining tup acc
      simp only [btUnord, tcountUnord]
      split
      · simp [record]
      · simp
    | succ r =>
      intro scan
      induction scan with
      | nil =>
        intro remaining tup acc
        simp [btUnord, tcountUnord]
      | cons v vs ihs =>
        intro remaining tup acc
        simp only [btUnord, tcountUnord]
        split
        · simp
        · split
          · rw [ihs]
          · rw [ihs, ih r (by omega)]
            omega

/-- C9: `maxExamples` bounds only the collected example tuples, never the
count: for every value list, `m`, target, and any two `maxExamples` settings,
the count components of `countOrderedRepresentations` and of
`countUnorderedPartitions` (both distinct modes via the flag) coincide. -/
theorem claim_C9 (values : List ℤ) (m : ℕ) (target : ℤ) (e1 e2 : ℕ)
    (distinct : Bool) :
    (count_ordered_representations values m target e1).1 =
      (count_ordered_representations values m target e2).1 ∧
    (count_unordered_partitions values m target distinct e1).1 =
      (count_unordered_partitions values m target distinct e2).1 := by
  constructor
  · show (btOrd _ e1 m _ target [] ⟨0, []⟩).count = (btOrd _ e2 m _ target [] ⟨0, []⟩).count
    rw [btOrd_count, btOrd_count]
  · show (btUnord _ e1 distinct m _ target [] ⟨0, []⟩).count =
      (btUnord _ e2 distinct m _ target [] ⟨0, []⟩).count
    rw [btUnord_count, btUnord_count]

/-! ### Canonical counting sets: multisets and sets of values -/

/-- Multisets with entries in `S`, cardinality `m`, and sum `n`: the
mathematical meaning of "unordered partitions of `n` into `m` values". -/
def msetsOf (S : Finset ℕ) (m n : ℕ) : Finset (Multiset ℕ) :=
  ((S.sym m).image (fun s => (s : Sym ℕ m).1)).filter (fun t => t.sum = n)

/-- Finsets with elements in `S`, cardinality `m`, and sum `n`: the
mathematical meaning of "partitions of `n` into `m` distinct values". -/
def ssetsOf (S : Finset ℕ) (m n : ℕ) : Finset (Finset ℕ) :=
  (S.powersetCard m).filter (fun t => ∑ a ∈ t, a = n)

theorem mem_msetsOf {S : Finset ℕ} {m n : ℕ} {t : Multiset ℕ} :
    t ∈ msetsOf S m n ↔ (∀ a ∈ t, a ∈ S) ∧ Multiset.card t = m ∧ t.sum = n := by
  rw [msetsOf, Finset.mem_filter, Finset.mem_image]
  constructor
  · rintro ⟨⟨s, hs, rfl⟩, hsum⟩
    refine ⟨?_, s.2, hsum⟩
    intro a ha
    exact Finset.mem_sym_iff.mp hs a ha
  · rintro ⟨hS, hcard, hsum⟩
    exact ⟨⟨⟨t, hcard⟩, Finset.mem_sym_iff.mpr (fun a ha => hS a ha), rfl⟩, hsum⟩

theorem mem_ssetsOf {S : Finset ℕ} {m n : ℕ} {t : Finset ℕ} :
    t ∈ ssetsOf S m n ↔ t ⊆ S ∧ t.card = m ∧ ∑ a ∈ t, a = n := by
  rw [ssetsOf, Finset.mem_filter, Finset.mem_powersetCard]
  tauto

theorem msetsOf_entry_le {S : Finset ℕ} {m n : ℕ} {t : Multiset ℕ}
    (ht : t ∈ msetsOf S m n) {a : ℕ} (ha : a ∈ t) : a ≤ n := by
  obtain ⟨_, _, hsum⟩ := mem_msetsOf.mp ht
  calc a ≤ t.sum := Multiset.single_le_sum (fun y _ => Nat.zero_le y) a ha
  _ = n := hsum

theorem ssetsOf_entry_le {S : Finset ℕ} {m n : ℕ} {t : Finset ℕ}
    (ht : t ∈ ssetsOf S m n) {a : ℕ} (ha : a ∈ t) : a ≤ n := by
  obtain ⟨_, _, hsum⟩ := mem_ssetsOf.mp ht
  calc a ≤ ∑ b ∈ t, b := Finset.single_le_sum (fun y _ => Nat.zero_le y) ha
  _ = n := hsum

theorem card_msetsOf_zero (S : Finset ℕ) (n : ℕ) :
    (msetsOf S 0 n).card = if n = 0 then 1 else 0 := by
  split
  · rename_i h0
    subst h0
    have h : msetsOf S 0 0 = {0} := by
      apply Finset.ext
      intro t
      rw [mem_msetsOf, Finset.mem_singleton]
      constructor
      · rintro ⟨_, hcard, _⟩
        exact Multiset.card_eq_zero.mp hcard
      · rintro rfl
        exact ⟨fun a ha => absurd ha (Multiset.not_mem_zero a), rfl, rfl⟩
    rw [h, Finset.card_singleton]
  · rename_i h0
    rw [Finset.card_eq_zero]
    apply Finset.eq_empty_of_forall_not_mem
    intro t ht
    obtain ⟨_, hcard, hsum⟩ := mem_msetsOf.mp ht
    have := Multiset.card_eq_zero.mp hcard
    subst this
    exact h0 (by simpa using hsum.symm)

theorem card_ssetsOf_zero (S : Finset ℕ) (n : ℕ) :
    (ssetsOf S 0 n).card = if n = 0 then 1 else 0 := by
  split
  · rename_i h0
    subst h0
    have h : ssetsOf S 0 0 = {∅} := by
      apply Finset.ext
      intro t
      rw [mem_ssetsOf, Finset.mem_singleton]
      constructor
      · rintro ⟨_, hcard, _⟩
        exact Finset.card_eq_zero.mp hcard
      · rintro rfl
        exact ⟨Finset.empty_subset S, rfl, rfl⟩
    rw [h, Finset.card_singleton]
  · rename_i h0
    rw [Finset.card_eq_zero]
    apply Finset.eq_empty_of_forall_not_mem
    intro t ht
    obtain ⟨_, hcard, hsum⟩ := mem_ssetsOf.mp ht
    have := Finset.card_eq_zero.mp hcard
    subst this
    exact h0 (by simpa using hsum.symm)

theorem msetsOf_empty (m n : ℕ) (hm : 1 ≤ m) : msetsOf (∅ : Finset ℕ) m n = ∅ := by
  apply Finset.eq_empty_of_forall_not_mem
  intro t ht
  obtain ⟨hS, hcard, _⟩ := mem_msetsOf.mp ht
  have hne : t ≠ 0 := by
    intro h0
    rw [h0] at hcard
    simp at hcard
    omega
  rcases Multiset.exists_mem_of_ne_zero hne with ⟨a, ha⟩
  exact absurd (hS a ha) (Finset.not_mem_empty a)

theorem ssetsOf_empty (m n : ℕ) (hm : 1 ≤ m) : ssetsOf (∅ : Finset ℕ) m n = ∅ := by
  apply Finset.eq_empty_of_forall_not_mem
  intro t ht
  obtain ⟨hS, hcard, _⟩ := mem_ssetsOf.mp ht
  have : t = ∅ := Finset.subset_empty.mp hS
  subst this
  simp at hcard
  omega

theorem card_msetsOf_insert_mem {v : ℕ} {VS : Finset ℕ} (m r : ℕ) (hvr : v ≤ r) :
    ((msetsOf (insert v VS) (m + 1) r).filter (fun t => v ∈ t)).card =
      (msetsOf (insert v VS) m (r - v)).card := by
  apply Finset.card_bij' (fun t _ => t.erase v) (fun t2 _ => v ::ₘ t2)
  · intro t ht
    rw [Finset.mem_filter] at ht
    obtain ⟨hm2, hv2⟩ := ht
    obtain ⟨hS, hcard, hsum⟩ := mem_msetsOf.mp hm2
    rw [mem_msetsOf]
    refine ⟨?_, ?_, ?_⟩
    · intro a ha
      exact hS a (Multiset.mem_of_mem_erase ha)
    · rw [Multiset.card_erase_of_mem hv2, hcard]
      rfl
    · have hc := Multiset.cons_erase hv2
      have : t.sum = v + (t.erase v).sum := by
        conv_lhs => rw [← hc]
        rw [Multiset.sum_cons]
      omega
  · intro t2 ht2
    obtain ⟨hS, hcard, hsum⟩ := mem_msetsOf.mp ht2
    rw [Finset.mem_filter, mem_msetsOf]
    refine ⟨⟨?_, ?_, ?_⟩, Multiset.mem_cons_self v t2⟩
    · intro a ha
      rcases Multiset.mem_cons.mp ha with rfl | ha2
      · exact Finset.mem_insert_self a VS
      · exact hS a ha2
    · rw [Multiset.card_cons, hcard]
    · rw [Multiset.sum_cons, hsum]
      omega
  · intro t ht
    rw [Finset.mem_filter] at ht
    exact Multiset.cons_erase ht.2
  · intro t2 _
    exact Multiset.erase_cons_head v t2

theorem filter_msetsOf_not_mem {v : ℕ} {VS : Finset ℕ} (hv : v ∉ VS) (m r : ℕ) :
    (msetsOf (insert v VS) m r).filter (fun t => v ∉ t) = msetsOf VS m r := by
  apply Finset.ext
  intro t
  rw [Finset.mem_filter, mem_msetsOf, mem_msetsOf]
  constructor
  · rintro ⟨⟨hS, hcard, hsum⟩, hnv⟩
    refine ⟨?_, hcard, hsum⟩
    intro a ha
    rcases Finset.mem_insert.mp (hS a ha) with rfl | h2
    · exact absurd ha hnv
    · exact h2
  · rintro ⟨hS, hcard, hsum⟩
    refine ⟨⟨?_, hcard, hsum⟩, ?_⟩
    · intro a ha
      exact Finset.mem_insert_of_mem (hS a ha)
    · intro hvt
      exact hv (hS v hvt)

theorem card_msetsOf_insert {v : ℕ} {VS : Finset ℕ} (hv : v ∉ VS) (m r : ℕ)
    (hvr : v ≤ r) :
    (msetsOf (insert v VS) (m + 1) r).card =
      (msetsOf (insert v VS) m (r - v)).card + (msetsOf VS (m + 1) r).card := by
  rw [← card_msetsOf_insert_mem m r hvr, ← filter_msetsOf_not_mem hv (m + 1) r]
  exact (Finset.filter_card_add_filter_neg_card_eq_card (fun t => v ∈ t)).symm

theorem msetsOf_eq_empty_of_lt {S : Finset ℕ} {v m r : ℕ} (hall : ∀ x ∈ S, v ≤ x)
    (hr : r < v) (hm : 1 ≤ m) : msetsOf S m r = ∅ := by
  apply Finset.eq_empty_of_forall_not_mem
  intro t ht
  obtain ⟨hS, hcard, hsum⟩ := mem_msetsOf.mp ht
  have hne : t ≠ 0 := by
    intro h0
    rw [h0] at hcard
    simp at hcard
    omega
  obtain ⟨a, ha⟩ := Multiset.exists_mem_of_ne_zero hne
  have h1 : v ≤ a := hall a (hS a ha)
  have h2 : a ≤ r := by
    calc a ≤ t.sum := Multiset.single_le_sum (fun y _ => Nat.zero_le y) a ha
    _ = r := hsum
  omega

theorem card_ssetsOf_insert_mem {v : ℕ} {VS : Finset ℕ} (hv : v ∉ VS) (m r : ℕ)
    (hvr : v ≤ r) :
    ((ssetsOf (insert v VS) (m + 1) r).filter (fun t => v ∈ t)).card =
      (ssetsOf VS m (r - v)).card := by
  refine Finset.card_bij' (fun t _ => t.erase v) (fun t2 _ => insert v t2) ?_ ?_ ?_ ?_
  · intro t ht
    rw [Finset.mem_filter] at ht
    obtain ⟨hm2, hv2⟩ := ht
    obtain ⟨hS, hcard, hsum⟩ := mem_ssetsOf.mp hm2
    rw [mem_ssetsOf]
    refine ⟨?_, ?_, ?_⟩
    · intro a ha
      have haS := hS (Finset.mem_of_mem_erase ha)
      rcases Finset.mem_insert.mp haS with rfl | h2
      · exact absurd (Finset.mem_erase.mp ha).1 (by simp)
      · exact h2
    · rw [Finset.card_erase_of_mem hv2, hcard]
      rfl
    · have hsplit := Finset.add_sum_erase t (fun a => a) hv2
      simp only at hsplit ⊢
      omega
  · intro t2 ht2
    obtain ⟨hS, hcard, hsum⟩ := mem_ssetsOf.mp ht2
    have hvnt : v ∉ t2 := fun h => hv (hS h)
    rw [Finset.mem_filter, mem_ssetsOf]
    refine ⟨⟨?_, ?_, ?_⟩, Finset.mem_insert_self v t2⟩
    · intro a ha
      rcases Finset.mem_insert.mp ha with rfl | h2
      · exact Finset.mem_insert_self a VS
      · exact Finset.mem_insert_of_mem (hS h2)
    · rw [Finset.card_insert_of_not_mem hvnt, hcard]
    · rw [Finset.sum_insert hvnt, hsum]
      omega
  · intro t ht
    rw [Finset.mem_filter] at ht
    exact Finset.insert_erase ht.2
  · intro t2 ht2
    obtain ⟨hS, _, _⟩ := mem_ssetsOf.mp ht2
    exact Finset.erase_insert (fun h => hv (hS h))

theorem filter_ssetsOf_not_mem {v : ℕ} {VS : Finset ℕ} (hv : v ∉ VS) (m r : ℕ) :
    (ssetsOf (insert v VS) m r).filter (fun t => v ∉ t) = ssetsOf VS m r := by
  apply Finset.ext
  intro t
  rw [Finset.mem_filter, mem_ssetsOf, mem_ssetsOf]
  constructor
  · rintro ⟨⟨hS, hcard, hsum⟩, hnv⟩
    refine ⟨?_, hcard, hsum⟩
    intro a ha
    rcases Finset.mem_insert.mp (hS ha) with rfl | h2
    · exact absurd ha hnv
    · exact h2
  · rintro ⟨hS, hcard, hsum⟩
    refine ⟨⟨?_, hcard, hsum⟩, ?_⟩
    · intro a ha
      exact Finset.mem_insert_of_mem (hS ha)
    · intro hvt
      exact hv (hS hvt)

theorem card_ssetsOf_insert {v : ℕ} {VS : Finset ℕ} (hv : v ∉ VS) (m r : ℕ)
    (hvr : v ≤ r) :
    (ssetsOf (insert v VS) (m + 1) r).card =
      (ssetsOf VS m (r - v)).card + (ssetsOf VS (m + 1) r).card := by
  rw [← card_ssetsOf_insert_mem hv m r hvr, ← filter_ssetsOf_not_mem hv (m + 1) r]
  exact (Finset.filter_card_add_filter_neg_card_eq_card (fun t => v ∈ t)).symm

theorem ssetsOf_eq_empty_of_lt {S : Finset ℕ} {v m r : ℕ} (hall : ∀ x ∈ S, v ≤ x)
    (hr : r < v) (hm : 1 ≤ m) : ssetsOf S m r = ∅ := by
  apply Finset.eq_empty_of_forall_not_mem
  intro t ht
  obtain ⟨hS, hcard, hsum⟩ := mem_ssetsOf.mp ht
  have hne : t.Nonempty := by
    rw [← Finset.card_pos, hcard]
    omega
  obtain ⟨a, ha⟩ := hne
  have h1 : v ≤ a := hall a (hS ha)
  have h2 : a ≤ r := by
    calc a ≤ ∑ b ∈ t, b := Finset.single_le_sum (fun y _ => Nat.zero_le y) ha
    _ = r := hsum
  omega

/-! ### The Newton recurrence for multiset counts -/

theorem msum_le_of_le {s t : Multiset ℕ} (h : s ≤ t) : s.sum ≤ t.sum := by
  obtain ⟨u, rfl⟩ := Multiset.le_iff_exists_add.mp h
  rw [Multiset.sum_add]
  omega

/-- Number of multisets of `m` values of `A` summing to `n` (unordered
partitions of `n` into `m` values, repetition allowed). -/
def hCount (A : ℕ → Prop) [DecidablePred A] (m n : ℕ) : ℕ :=
  (msetsOf ((Finset.range (n + 1)).filter A) m n).card

/-- Number of sets of `m` distinct values of `A` summing to `n`. -/
def eCount (A : ℕ → Prop) [DecidablePred A] (m n : ℕ) : ℕ :=
  (ssetsOf ((Finset.range (n + 1)).filter A) m n).card

theorem mem_hSet {A : ℕ → Prop} [DecidablePred A] {m n : ℕ} {t : Multiset ℕ} :
    t ∈ msetsOf ((Finset.range (n + 1)).filter A) m n ↔
      (∀ a ∈ t, A a) ∧ Multiset.card t = m ∧ t.sum = n := by
  rw [mem_msetsOf]
  constructor
  · rintro ⟨hS, h2, h3⟩
    exact ⟨fun a ha => (Finset.mem_filter.mp (hS a ha)).2, h2, h3⟩
  · rintro ⟨hA, h2, h3⟩
    refine ⟨?_, h2, h3⟩
    intro a ha
    rw [Finset.mem_filter, Finset.mem_range]
    have hle : a ≤ t.sum := Multiset.single_le_sum (fun y _ => Nat.zero_le y) a ha
    exact ⟨by omega, hA a ha⟩

theorem mem_eSet {A : ℕ → Prop} [DecidablePred A] {m n : ℕ} {t : Finset ℕ} :
    t ∈ ssetsOf ((Finset.range (n + 1)).filter A) m n ↔
      (∀ a ∈ t, A a) ∧ t.card = m ∧ ∑ a ∈ t, a = n := by
  rw [mem_ssetsOf]
  constructor
  · rintro ⟨hS, h2, h3⟩
    exact ⟨fun a ha => (Finset.mem_filter.mp (hS ha)).2, h2, h3⟩
  · rintro ⟨hA, h2, h3⟩
    refine ⟨?_, h2, h3⟩
    intro a ha
    rw [Finset.mem_filter, Finset.mem_range]
    have hle : a ≤ ∑ b ∈ t, b := Finset.single_le_sum (fun y _ => Nat.zero_le y) ha
    exact ⟨by omega, hA a ha⟩

theorem hCount_rec (A : ℕ → Prop) [DecidablePred A] (m n : ℕ) (hm : 1 ≤ m) :
    m * hCount A m n =
      ∑ ℓ ∈ Finset.Icc 1 m,
        ∑ a ∈ (Finset.range (n + 1)).filter (fun a => A a ∧ ℓ * a ≤ n),
          hCount A (m - ℓ) (n - ℓ * a) := by
  classical
  set T := msetsOf ((Finset.range (n + 1)).filter A) m n with hT
  set P : Finset (ℕ × ℕ) :=
    (Finset.Icc 1 m ×ˢ Finset.range (n + 1)).filter (fun q => A q.2 ∧ q.1 * q.2 ≤ n)
    with hP
  set D : Finset ((_ : ℕ × ℕ) × Multiset ℕ) :=
    P.sigma (fun q =>
      msetsOf ((Finset.range (n - q.1 * q.2 + 1)).filter A) (m - q.1) (n - q.1 * q.2))
    with hD
  have hPmem : ∀ q : ℕ × ℕ, q ∈ P ↔
      q.1 ∈ Finset.Icc 1 m ∧
        q.2 ∈ (Finset.range (n + 1)).filter (fun a => A a ∧ q.1 * a ≤ n) := by
    intro q
    rw [hP, Finset.mem_filter, Finset.mem_product, Finset.mem_filter]
    tauto
  have hcardD : D.card =
      ∑ ℓ ∈ Finset.Icc 1 m,
        ∑ a ∈ (Finset.range (n + 1)).filter (fun a => A a ∧ ℓ * a ≤ n),
          hCount A (m - ℓ) (n - ℓ * a) := by
    rw [hD, Finset.card_sigma]
    rw [Finset.sum_finset_product P (Finset.Icc 1 m)
      (fun ℓ => (Finset.range (n + 1)).filter (fun a => A a ∧ ℓ * a ≤ n)) hPmem]
    rfl
  have hmaps : ∀ p ∈ D, p.2 + Multiset.replicate p.1.1 p.1.2 ∈ T := by
    rintro ⟨⟨ℓ, a⟩, t2⟩ hp
    dsimp only
    rw [hD, Finset.mem_sigma] at hp
    dsimp only at hp
    obtain ⟨hq, ht2⟩ := hp
    rw [hPmem] at hq
    simp only [Finset.mem_Icc, Finset.mem_filter, Finset.mem_range] at hq
    obtain ⟨⟨h1, h2⟩, _, hA2, h3⟩ := hq
    obtain ⟨hA3, hcard, hsum⟩ := mem_hSet.mp ht2
    rw [hT, mem_hSet]
    refine ⟨?_, ?_, ?_⟩
    · intro x hx
      rcases Multiset.mem_add.mp hx with h | h
      · exact hA3 x h
      · rw [Multiset.eq_of_mem_replicate h]
        exact hA2
    · rw [Multiset.card_add, Multiset.card_replicate, hcard]
      omega
    · rw [Multiset.sum_add, Multiset.sum_replicate, hsum]
      simp only [smul_eq_mul]
      omega
  have hfib : ∀ t ∈ T, (D.filter (fun p => p.2 + Multiset.replicate p.1.1 p.1.2 = t)).card
      = m := by
    intro t ht
    obtain ⟨hA1, hcard1, hsum1⟩ := mem_hSet.mp ht
    set Q : Finset (ℕ × ℕ) :=
      (t.toFinset ×ˢ Finset.Icc 1 m).filter (fun q => q.2 ≤ t.count q.1) with hQ
    have hQmem : ∀ q : ℕ × ℕ, q ∈ Q ↔
        q.1 ∈ t.toFinset ∧ q.2 ∈ (Finset.Icc 1 m).filter (fun ℓ => ℓ ≤ t.count q.1) := by
      intro q
      rw [hQ, Finset.mem_filter, Finset.mem_product, Finset.mem_filter]
      tauto
    have hcardQ : Q.card = m := by
      have h1 : Q.card = ∑ q ∈ Q, 1 := by simp
      rw [h1, Finset.sum_finset_product Q t.toFinset
        (fun a => (Finset.Icc 1 m).filter (fun ℓ => ℓ ≤ t.count a)) hQmem]
      have h2 : ∀ a ∈ t.toFinset,
          ∑ _ℓ ∈ (Finset.Icc 1 m).filter (fun ℓ => ℓ ≤ t.count a), 1 = t.count a := by
        intro a ha
        have h3 : (Finset.Icc 1 m).filter (fun ℓ => ℓ ≤ t.count a) =
            Finset.Icc 1 (t.count a) := by
          apply Finset.ext
          intro ℓ
          rw [Finset.mem_filter, Finset.mem_Icc, Finset.mem_Icc]
          have hle : t.count a ≤ m := by
            rw [← hcard1]
            exact Multiset.count_le_card a t
          omega
        rw [h3, Finset.sum_const, Nat.card_Icc, smul_eq_mul, mul_one]
        omega
      rw [Finset.sum_congr rfl h2, ← hcard1]
      exact Multiset.toFinset_sum_count_eq t
    rw [← hcardQ]
    apply Finset.card_bij' (fun (p : (_ : ℕ × ℕ) × Multiset ℕ) _ => (p.1.2, p.1.1))
      (fun q _ => (⟨(q.2, q.1), t - Multiset.replicate q.2 q.1⟩ :
        (_ : ℕ × ℕ) × Multiset ℕ))
    · rintro ⟨⟨ℓ, a⟩, t2⟩ hp
      rw [Finset.mem_filter] at hp
      obtain ⟨hpD, hpt⟩ := hp
      rw [hD, Finset.mem_sigma] at hpD
      dsimp only at hpD
      obtain ⟨hq, _⟩ := hpD
      rw [hPmem] at hq
      simp only [Finset.mem_Icc, Finset.mem_filter, Finset.mem_range] at hq
      rw [hQmem]
      dsimp only
      simp only [Multiset.mem_toFinset, Finset.mem_filter, Finset.mem_Icc]
      have hcnt : t.count a = t2.count a + ℓ := by
        rw [← hpt, Multiset.count_add, Multiset.count_replicate_self]
      refine ⟨?_, ⟨hq.1.1, ?_⟩, ?_⟩
      · rw [← hpt]
        apply Multiset.mem_add.mpr
        right
        exact Multiset.mem_replicate.mpr ⟨Nat.one_le_iff_ne_zero.mp hq.1.1, rfl⟩
      · exact hq.1.2
      · omega
    · rintro ⟨a, ℓ⟩ hq
      rw [hQmem] at hq
      simp only [Multiset.mem_toFinset, Finset.mem_filter, Finset.mem_Icc] at hq
      obtain ⟨hat, ⟨hℓ1, hℓm⟩, hℓcnt⟩ := hq
      have hrep : Multiset.replicate ℓ a ≤ t :=
        Multiset.le_count_iff_replicate_le.mp hℓcnt
      have hsumrep : (Multiset.replicate ℓ a).sum = ℓ * a := by
        rw [Multiset.sum_replicate, smul_eq_mul]
      have hsumle : ℓ * a ≤ n := by
        rw [← hsum1, ← hsumrep]
        exact msum_le_of_le hrep
      have hsub : t - Multiset.replicate ℓ a + Multiset.replicate ℓ a = t :=
        tsub_add_cancel_of_le hrep
      rw [Finset.mem_filter]
      dsimp only
      constructor
      · rw [hD, Finset.mem_sigma]
        dsimp only
        constructor
        · rw [hPmem]
          simp only [Finset.mem_Icc, Finset.mem_filter, Finset.mem_range]
          have ham : a ≤ n := by
            rw [← hsum1]
            exact Multiset.single_le_sum (fun y _ => Nat.zero_le y) a hat
          exact ⟨⟨hℓ1, by
            calc ℓ ≤ t.count a := hℓcnt
            _ ≤ Multiset.card t := Multiset.count_le_card a t
            _ = m := hcard1⟩, by omega, hA1 a hat, hsumle⟩
        · rw [mem_hSet]
          refine ⟨?_, ?_, ?_⟩
          · intro x hx
            exact hA1 x (Multiset.mem_of_le tsub_le_self hx)
          · have hcardsub : Multiset.card (t - Multiset.replicate ℓ a) + ℓ = m := by
              have := congrArg Multiset.card hsub
              rw [Multiset.card_add, Multiset.card_replicate] at this
              omega
            omega
          · have hsumsub : (t - Multiset.replicate ℓ a).sum + ℓ * a = n := by
              have := congrArg Multiset.sum hsub
              rw [Multiset.sum_add, hsumrep] at this
              omega
            omega
      · exact hsub
    · rintro ⟨⟨ℓ, a⟩, t2⟩ hp
      rw [Finset.mem_filter] at hp
      obtain ⟨_, hpt⟩ := hp
      have ht2 : t - Multiset.replicate ℓ a = t2 := by
        rw [← hpt]
        exact add_tsub_cancel_right t2 (Multiset.replicate ℓ a)
      simp only
      rw [ht2]
    · rintro ⟨a, ℓ⟩ _
      rfl
  calc m * hCount A m n = ∑ _t ∈ T, m := by
        rw [Finset.sum_const, smul_eq_mul, mul_comm]
        rfl
  _ = ∑ t ∈ T, (D.filter (fun p => p.2 + Multiset.replicate p.1.1 p.1.2 = t)).card :=
        (Finset.sum_congr rfl hfib).symm
  _ = D.card := (Finset.card_eq_sum_card_fiberwise hmaps).symm
  _ = _ := hcardD

theorem eCount_rec (A : ℕ → Prop) [DecidablePred A] (m n : ℕ) (hm : 1 ≤ m) :
    (m : ℤ) * eCount A m n =
      ∑ ℓ ∈ Finset.Icc 1 m,
        ∑ a ∈ (Finset.range (n + 1)).filter (fun a => A a ∧ ℓ * a ≤ n),
          (-1 : ℤ) ^ (ℓ - 1) * eCount A (m - ℓ) (n - ℓ * a) := by
  classical
  set T := ssetsOf ((Finset.range (n + 1)).filter A) m n with hT
  set P : Finset (ℕ × ℕ) :=
    (Finset.Icc 1 m ×ˢ Finset.range (n + 1)).filter (fun q => A q.2 ∧ q.1 * q.2 ≤ n)
    with hP
  set D : Finset ((_ : ℕ × ℕ) × Finset ℕ) :=
    P.sigma (fun q =>
      ssetsOf ((Finset.range (n - q.1 * q.2 + 1)).filter A) (m - q.1) (n - q.1 * q.2))
    with hD
  set f : ((_ : ℕ × ℕ) × Finset ℕ) → ℤ := fun p => (-1 : ℤ) ^ (p.1.1 - 1) with hf
  have hPmem : ∀ q : ℕ × ℕ, q ∈ P ↔
      q.1 ∈ Finset.Icc 1 m ∧
        q.2 ∈ (Finset.range (n + 1)).filter (fun a => A a ∧ q.1 * a ≤ n) := by
    intro q
    rw [hP, Finset.mem_filter, Finset.mem_product, Finset.mem_filter]
    tauto
  have hDmem : ∀ (ℓ a : ℕ) (S : Finset ℕ),
      (⟨(ℓ, a), S⟩ : (_ : ℕ × ℕ) × Finset ℕ) ∈ D ↔
        ((1 ≤ ℓ ∧ ℓ ≤ m) ∧ a < n + 1 ∧ A a ∧ ℓ * a ≤ n) ∧
          (∀ x ∈ S, A x) ∧ S.card = m - ℓ ∧ ∑ x ∈ S, x = n - ℓ * a := by
    intro ℓ a S
    rw [hD, Finset.mem_sigma]
    dsimp only
    rw [hPmem]
    simp only [Finset.mem_Icc, Finset.mem_filter, Finset.mem_range]
    rw [mem_eSet]
  have hsumD : ∑ p ∈ D, f p =
      ∑ ℓ ∈ Finset.Icc 1 m,
        ∑ a ∈ (Finset.range (n + 1)).filter (fun a => A a ∧ ℓ * a ≤ n),
          (-1 : ℤ) ^ (ℓ - 1) * eCount A (m - ℓ) (n - ℓ * a) := by
    rw [hD, Finset.sum_sigma]
    rw [Finset.sum_finset_product P (Finset.Icc 1 m)
      (fun ℓ => (Finset.range (n + 1)).filter (fun a => A a ∧ ℓ * a ≤ n)) hPmem]
    apply Finset.sum_congr rfl
    intro ℓ _
    apply Finset.sum_congr rfl
    intro a _
    simp only [hf]
    rw [Finset.sum_const, nsmul_eq_mul, mul_comm]
    rfl
  have hsplit : ∑ p ∈ D, f p =
      ∑ p ∈ D.filter (fun p => p.1.2 ∈ p.2), f p +
        (∑ p ∈ (D.filter (fun p => p.1.2 ∉ p.2)).filter (fun p => p.1.1 = 1), f p +
          ∑ p ∈ (D.filter (fun p => p.1.2 ∉ p.2)).filter (fun p => ¬p.1.1 = 1), f p) := by
    rw [Finset.sum_filter_add_sum_filter_not (D.filter (fun p => p.1.2 ∉ p.2))
      (fun p => p.1.1 = 1) f]
    exact (Finset.sum_filter_add_sum_filter_not D (fun p => p.1.2 ∈ p.2) f).symm
  have hcancel : ∑ p ∈ D.filter (fun p => p.1.2 ∈ p.2), f p =
      ∑ p ∈ (D.filter (fun p => p.1.2 ∉ p.2)).filter (fun p => ¬p.1.1 = 1),
        (fun p => -f p) p := by
    refine Finset.sum_bij'
      (fun (p : (_ : ℕ × ℕ) × Finset ℕ) _ =>
        (⟨(p.1.1 + 1, p.1.2), p.2.erase p.1.2⟩ : (_ : ℕ × ℕ) × Finset ℕ))
      (fun (p : (_ : ℕ × ℕ) × Finset ℕ) _ =>
        (⟨(p.1.1 - 1, p.1.2), insert p.1.2 p.2⟩ : (_ : ℕ × ℕ) × Finset ℕ))
      ?_ ?_ ?_ ?_ ?_
    · rintro ⟨⟨ℓ, a⟩, S⟩ hp
      rw [Finset.mem_filter] at hp
      obtain ⟨hpD, haS⟩ := hp
      dsimp only at haS
      rw [hDmem] at hpD
      obtain ⟨⟨⟨hℓ1, hℓm⟩, han, hAa, hla⟩, hSA, hScard, hSsum⟩ := hpD
      have haA : a ≤ ∑ x ∈ S, x := Finset.single_le_sum (fun y _ => Nat.zero_le y) haS
      have hcard1 : 1 ≤ S.card := Finset.card_pos.mpr ⟨a, haS⟩
      have hmul : (ℓ + 1) * a = ℓ * a + a := by ring
      rw [Finset.mem_filter, Finset.mem_filter]
      dsimp only
      refine ⟨⟨?_, ?_⟩, ?_⟩
      · rw [hDmem]
        refine ⟨⟨⟨by omega, by omega⟩, han, hAa, by omega⟩, ?_, ?_, ?_⟩
        · intro x hx
          exact hSA x (Finset.mem_of_mem_erase hx)
        · rw [Finset.card_erase_of_mem haS]
          omega
        · have hse : ∑ x ∈ S.erase a, x + a = ∑ x ∈ S, x :=
            Finset.sum_erase_add S _ haS
          omega
      · exact Finset.not_mem_erase a S
      · omega
    · rintro ⟨⟨ℓ, a⟩, S⟩ hp
      rw [Finset.mem_filter, Finset.mem_filter] at hp
      obtain ⟨⟨hpD, haS⟩, hℓne⟩ := hp
      dsimp only at haS hℓne
      rw [hDmem] at hpD
      obtain ⟨⟨⟨hℓ1, hℓm⟩, han, hAa, hla⟩, hSA, hScard, hSsum⟩ := hpD
      have hmul : (ℓ - 1) * a + a = ℓ * a := by
        rw [Nat.sub_one_mul]
        have : a ≤ ℓ * a := Nat.le_mul_of_pos_left a (by omega)
        omega
      rw [Finset.mem_filter]
      dsimp only
      refine ⟨?_, ?_⟩
      · rw [hDmem]
        refine ⟨⟨⟨by omega, by omega⟩, han, hAa, by omega⟩, ?_, ?_, ?_⟩
        · intro x hx
          rcases Finset.mem_insert.mp hx with rfl | hx2
          · exact hAa
          · exact hSA x hx2
        · rw [Finset.card_insert_of_not_mem haS]
          omega
        · rw [Finset.sum_insert haS]
          omega
      · exact Finset.mem_insert_self a S
    · rintro ⟨⟨ℓ, a⟩, S⟩ hp
      rw [Finset.mem_filter] at hp
      obtain ⟨_, haS⟩ := hp
      dsimp only at haS ⊢
      simp only [Nat.add_sub_cancel]
      exact congrArg (Sigma.mk (ℓ, a)) (Finset.insert_erase haS)
    · rintro ⟨⟨ℓ, a⟩, S⟩ hp
      rw [Finset.mem_filter, Finset.mem_filter] at hp
      obtain ⟨⟨hpD, haS⟩, hℓne⟩ := hp
      dsimp only at haS hℓne
      rw [hDmem] at hpD
      obtain ⟨⟨⟨hℓ1, _⟩, _, _, _⟩, _, _, _⟩ := hpD
      dsimp only
      have hℓ : ℓ - 1 + 1 = ℓ := by omega
      rw [hℓ]
      exact congrArg (Sigma.mk (ℓ, a)) (Finset.erase_insert haS)
    · rintro ⟨⟨ℓ, a⟩, S⟩ hp
      rw [Finset.mem_filter] at hp
      obtain ⟨hpD, _⟩ := hp
      rw [hDmem] at hpD
      obtain ⟨⟨⟨hℓ1, _⟩, _, _, _⟩, _, _, _⟩ := hpD
      have key : (-1 : ℤ) ^ ℓ = -(-1 : ℤ) ^ (ℓ - 1) := by
        have h2 : ℓ - 1 + 1 = ℓ := by omega
        rw [← h2, pow_succ, Nat.add_sub_cancel]
        ring
      rw [hf]
      dsimp only
      rw [Nat.add_sub_cancel, key]
      ring
  have hsurv : ∑ p ∈ (D.filter (fun p => p.1.2 ∉ p.2)).filter (fun p => p.1.1 = 1), f p =
      (m : ℤ) * eCount A m n := by
    have hone : ∀ p ∈ (D.filter (fun p => p.1.2 ∉ p.2)).filter (fun p => p.1.1 = 1),
        f p = 1 := by
      rintro ⟨⟨ℓ, a⟩, S⟩ hp
      rw [Finset.mem_filter] at hp
      have hℓ : ℓ = 1 := hp.2
      rw [hf]
      dsimp only
      rw [hℓ]
      rfl
    rw [Finset.sum_congr rfl hone, Finset.sum_const, nsmul_eq_mul, mul_one]
    have hmaps : ∀ p ∈ (D.filter (fun p => p.1.2 ∉ p.2)).filter (fun p => p.1.1 = 1),
        insert p.1.2 p.2 ∈ T := by
      rintro ⟨⟨ℓ, a⟩, S⟩ hp
      rw [Finset.mem_filter, Finset.mem_filter] at hp
      obtain ⟨⟨hpD, haS⟩, hℓ1⟩ := hp
      dsimp only at haS hℓ1
      subst hℓ1
      rw [hDmem] at hpD
      obtain ⟨⟨⟨_, hℓm⟩, han, hAa, hla⟩, hSA, hScard, hSsum⟩ := hpD
      rw [one_mul] at hla hSsum
      rw [hT, mem_eSet]
      dsimp only
      refine ⟨?_, ?_, ?_⟩
      · intro x hx
        rcases Finset.mem_insert.mp hx with rfl | hx2
        · exact hAa
        · exact hSA x hx2
      · rw [Finset.card_insert_of_not_mem haS]
        omega
      · rw [Finset.sum_insert haS]
        omega
    rw [Finset.card_eq_sum_card_fiberwise hmaps]
    have hfiber : ∀ S ∈ T,
        (((D.filter (fun p => p.1.2 ∉ p.2)).filter (fun p => p.1.1 = 1)).filter
          (fun p => insert p.1.2 p.2 = S)).card = m := by
      intro S hS
      obtain ⟨hSA, hScard, hSsum⟩ := mem_eSet.mp hS
      have hcard : S.card = m := hScard
      rw [← hcard]
      refine Finset.card_bij' (fun (p : (_ : ℕ × ℕ) × Finset ℕ) _ => p.1.2)
        (fun a _ => (⟨(1, a), S.erase a⟩ : (_ : ℕ × ℕ) × Finset ℕ)) ?_ ?_ ?_ ?_
      · rintro ⟨⟨ℓ, a⟩, S2⟩ hp
        rw [Finset.mem_filter] at hp
        obtain ⟨_, hins⟩ := hp
        dsimp only at hins ⊢
        rw [← hins]
        exact Finset.mem_insert_self a S2
      · intro a ha
        have haA : A a := hSA a ha
        have han : a ≤ ∑ x ∈ S, x := Finset.single_le_sum (fun y _ => Nat.zero_le y) ha
        rw [Finset.mem_filter, Finset.mem_filter, Finset.mem_filter]
        dsimp only
        refine ⟨⟨⟨?_, Finset.not_mem_erase a S⟩, rfl⟩, Finset.insert_erase ha⟩
        rw [hDmem]
        rw [one_mul]
        refine ⟨⟨⟨le_rfl, hm⟩, by omega, haA, by omega⟩, ?_, ?_, ?_⟩
        · intro x hx
          exact hSA x (Finset.mem_of_mem_erase hx)
        · rw [Finset.card_erase_of_mem ha, hcard]
        · have hse : ∑ x ∈ S.erase a, x + a = ∑ x ∈ S, x :=
            Finset.sum_erase_add S _ ha
          omega
      · rintro ⟨⟨ℓ, a⟩, S2⟩ hp
        rw [Finset.mem_filter, Finset.mem_filter, Finset.mem_filter] at hp
        obtain ⟨⟨⟨_, haS2⟩, hℓ1⟩, hins⟩ := hp
        dsimp only at haS2 hℓ1 hins ⊢
        subst hℓ1
        rw [← hins, Finset.erase_insert haS2]
      · intro a _
        rfl
    rw [Finset.sum_congr rfl hfiber, Finset.sum_const, smul_eq_mul]
    have hTe : T.card = eCount A m n := rfl
    rw [hTe]
    push_cast
    ring
  have hzero : ∑ p ∈ D.filter (fun p => p.1.2 ∈ p.2), f p +
      ∑ p ∈ (D.filter (fun p => p.1.2 ∉ p.2)).filter (fun p => ¬p.1.1 = 1), f p = 0 := by
    rw [hcancel, ← Finset.sum_add_distrib]
    apply Finset.sum_eq_zero
    intro p _
    dsimp only
    ring
  rw [← hsumD, hsplit, hsurv]
  linarith [hzero]

/-! ### ψ(q^ℓ) over ℚ and the Burnside/Newton identities -/

/-- The substituted indicator series `ψ(q^ℓ)` over ℚ: coefficient `1` at `i`
iff `ℓ ∣ i` and `A (i/ℓ)`. -/
def pQ (A : ℕ → Prop) [DecidablePred A] (ℓ : ℕ) : PowerSeries ℚ :=
  PowerSeries.mk (fun i => if ℓ ∣ i ∧ A (i / ℓ) then 1 else 0)

/-- Generating function of the multiset counts `hCount`. -/
def hQ (A : ℕ → Prop) [DecidablePred A] (m : ℕ) : PowerSeries ℚ :=
  PowerSeries.mk (fun n => (hCount A m n : ℚ))

/-- Generating function of the distinct-set counts `eCount`. -/
def eQ (A : ℕ → Prop) [DecidablePred A] (m : ℕ) : PowerSeries ℚ :=
  PowerSeries.mk (fun n => (eCount A m n : ℚ))

theorem divisor_reindex (A : ℕ → Prop) [DecidablePred A] (ℓ n : ℕ) (hl : 1 ≤ ℓ)
    (g : ℕ → ℚ) :
    ∑ i ∈ Finset.range (n + 1),
        (if ℓ ∣ i ∧ A (i / ℓ) then (1 : ℚ) else 0) * g (n - i) =
      ∑ a ∈ (Finset.range (n + 1)).filter (fun a => A a ∧ ℓ * a ≤ n),
        g (n - ℓ * a) := by
  have hl0 : ℓ ≠ 0 := by omega
  rw [show (∑ i ∈ Finset.range (n + 1),
      (if ℓ ∣ i ∧ A (i / ℓ) then (1 : ℚ) else 0) * g (n - i)) =
      ∑ i ∈ Finset.range (n + 1),
        (if ℓ ∣ i ∧ A (i / ℓ) then g (n - i) else 0) from
    Finset.sum_congr rfl (fun i _ => by split <;> simp)]
  rw [← Finset.sum_filter]
  refine Finset.sum_nbij' (fun i => i / ℓ) (fun a => ℓ * a) ?_ ?_ ?_ ?_ ?_
  · intro i hi
    rw [Finset.mem_filter, Finset.mem_range] at hi
    obtain ⟨hin, hdvd, hA⟩ := hi
    rw [Finset.mem_filter, Finset.mem_range]
    dsimp only
    have hmul : ℓ * (i / ℓ) = i := Nat.mul_div_cancel' hdvd
    have hle : i / ℓ ≤ i := Nat.div_le_self i ℓ
    exact ⟨by omega, hA, by omega⟩
  · intro a ha
    rw [Finset.mem_filter, Finset.mem_range] at ha
    obtain ⟨han, hA, hla⟩ := ha
    rw [Finset.mem_filter, Finset.mem_range]
    dsimp only
    rw [Nat.mul_div_cancel_left a (by omega)]
    exact ⟨by omega, Dvd.intro a rfl, hA⟩
  · intro i hi
    rw [Finset.mem_filter] at hi
    exact Nat.mul_div_cancel' hi.2.1
  · intro a _
    exact Nat.mul_div_cancel_left a (by omega)
  · intro i hi
    rw [Finset.mem_filter] at hi
    rw [Nat.mul_div_cancel' hi.2.1]

theorem smul_cancel_PS {X Y : PowerSeries ℚ} {m : ℕ} (hm : 1 ≤ m)
    (h : (m : ℚ) • X = (m : ℚ) • Y) : X = Y := by
  apply PowerSeries.ext
  intro n
  have hc := congrArg (PowerSeries.coeff ℚ n) h
  rw [map_smul, map_smul, smul_eq_mul, smul_eq_mul] at hc
  exact mul_left_cancel₀ (by exact_mod_cast (by omega : m ≠ 0)) hc

theorem Wsum_hQ (A : ℕ → Prop) [DecidablePred A] (m : ℕ) :
    Wsum (pQ A) (fun _ => 1) m = hQ A m := by
  induction m using Nat.strong_induction_on with
  | _ m ih =>
    rcases Nat.eq_zero_or_pos m with rfl | hm
    · rw [Wsum_zero]
      apply PowerSeries.ext
      intro n
      rw [hQ, PowerSeries.coeff_mk, PowerSeries.coeff_one]
      have hcard : hCount A 0 n = if n = 0 then 1 else 0 := card_msetsOf_zero _ n
      rw [hcard]
      split <;> simp
    · apply smul_cancel_PS hm
      rw [Wsum_rec (pQ A) (fun _ => 1) m hm]
      have hterm : ∀ ℓ ∈ Finset.Icc 1 m,
          (fun _ => (1 : ℚ)) ℓ • (pQ A ℓ * Wsum (pQ A) (fun _ => 1) (m - ℓ)) =
            pQ A ℓ * hQ A (m - ℓ) := by
        intro ℓ hℓ
        rw [Finset.mem_Icc] at hℓ
        rw [one_smul, ih (m - ℓ) (by omega)]
      rw [Finset.sum_congr rfl hterm]
      apply PowerSeries.ext
      intro n
      rw [map_sum, map_smul]
      have hsummand : ∀ ℓ ∈ Finset.Icc 1 m,
          PowerSeries.coeff ℚ n (pQ A ℓ * hQ A (m - ℓ)) =
            ∑ a ∈ (Finset.range (n + 1)).filter (fun a => A a ∧ ℓ * a ≤ n),
              (hCount A (m - ℓ) (n - ℓ * a) : ℚ) := by
        intro ℓ hℓ
        rw [Finset.mem_Icc] at hℓ
        rw [PowerSeries.coeff_mul, Finset.Nat.sum_antidiagonal_eq_sum_range_succ_mk]
        rw [show (∑ i ∈ Finset.range (n + 1),
            PowerSeries.coeff ℚ (i, n - i).1 (pQ A ℓ) *
              PowerSeries.coeff ℚ (i, n - i).2 (hQ A (m - ℓ))) =
            ∑ i ∈ Finset.range (n + 1),
              (if ℓ ∣ i ∧ A (i / ℓ) then (1 : ℚ) else 0) *
                (hCount A (m - ℓ) (n - i) : ℚ) from
          Finset.sum_congr rfl (fun i _ => by
            rw [pQ, hQ, PowerSeries.coeff_mk, PowerSeries.coeff_mk])]
        exact divisor_reindex A ℓ n hℓ.1 (fun j => (hCount A (m - ℓ) j : ℚ))
      rw [Finset.sum_congr rfl hsummand]
      rw [hQ, PowerSeries.coeff_mk, smul_eq_mul]
      have hrec := hCount_rec A m n hm
      have hcast : ((m * hCount A m n : ℕ) : ℚ) =
          ((∑ ℓ ∈ Finset.Icc 1 m,
            ∑ a ∈ (Finset.range (n + 1)).filter (fun a => A a ∧ ℓ * a ≤ n),
              hCount A (m - ℓ) (n - ℓ * a) : ℕ) : ℚ) := by
        exact_mod_cast congrArg (fun z : ℕ => (z : ℚ)) hrec
      push_cast at hcast
      rw [← hcast]

theorem Wsum_eQ (A : ℕ → Prop) [DecidablePred A] (m : ℕ) :
    Wsum (pQ A) (fun ℓ => (-1 : ℚ) ^ (ℓ - 1)) m = eQ A m := by
  induction m using Nat.strong_induction_on with
  | _ m ih =>
    rcases Nat.eq_zero_or_pos m with rfl | hm
    · rw [Wsum_zero]
      apply PowerSeries.ext
      intro n
      rw [eQ, PowerSeries.coeff_mk, PowerSeries.coeff_one]
      have hcard : eCount A 0 n = if n = 0 then 1 else 0 := card_ssetsOf_zero _ n
      rw [hcard]
      split <;> simp
    · apply smul_cancel_PS hm
      rw [Wsum_rec (pQ A) (fun ℓ => (-1 : ℚ) ^ (ℓ - 1)) m hm]
      have hterm : ∀ ℓ ∈ Finset.Icc 1 m,
          (fun ℓ => (-1 : ℚ) ^ (ℓ - 1)) ℓ •
              (pQ A ℓ * Wsum (pQ A) (fun ℓ => (-1 : ℚ) ^ (ℓ - 1)) (m - ℓ)) =
            (-1 : ℚ) ^ (ℓ - 1) • (pQ A ℓ * eQ A (m - ℓ)) := by
        intro ℓ hℓ
        rw [Finset.mem_Icc] at hℓ
        rw [ih (m - ℓ) (by omega)]
      rw [Finset.sum_congr rfl hterm]
      apply PowerSeries.ext
      intro n
      rw [map_sum, map_smul]
      have hsummand : ∀ ℓ ∈ Finset.Icc 1 m,
          PowerSeries.coeff ℚ n ((-1 : ℚ) ^ (ℓ - 1) • (pQ A ℓ * eQ A (m - ℓ))) =
            ∑ a ∈ (Finset.range (n + 1)).filter (fun a => A a ∧ ℓ * a ≤ n),
              (-1 : ℚ) ^ (ℓ - 1) * (eCount A (m - ℓ) (n - ℓ * a) : ℚ) := by
        intro ℓ hℓ
        rw [Finset.mem_Icc] at hℓ
        rw [map_smul, smul_eq_mul]
        rw [PowerSeries.coeff_mul, Finset.Nat.sum_antidiagonal_eq_sum_range_succ_mk]
        rw [show (∑ i ∈ Finset.range (n + 1),
            PowerSeries.coeff ℚ (i, n - i).1 (pQ A ℓ) *
              PowerSeries.coeff ℚ (i, n - i).2 (eQ A (m - ℓ))) =
            ∑ i ∈ Finset.range (n + 1),
              (if ℓ ∣ i ∧ A (i / ℓ) then (1 : ℚ) else 0) *
                (eCount A (m - ℓ) (n - i) : ℚ) from
          Finset.sum_congr rfl (fun i _ => by
            rw [pQ, eQ, PowerSeries.coeff_mk, PowerSeries.coeff_mk])]
        rw [divisor_reindex A ℓ n hℓ.1 (fun j => (eCount A (m - ℓ) j : ℚ))]
        rw [Finset.mul_sum]
      rw [Finset.sum_congr rfl hsummand]
      rw [eQ, PowerSeries.coeff_mk, smul_eq_mul]
      have hrec := eCount_rec A m n hm
      have hcast : ((m : ℚ) * (eCount A m n : ℚ)) =
          ∑ ℓ ∈ Finset.Icc 1 m,
            ∑ a ∈ (Finset.range (n + 1)).filter (fun a => A a ∧ ℓ * a ≤ n),
              (-1 : ℚ) ^ (ℓ - 1) * (eCount A (m - ℓ) (n - ℓ * a) : ℚ) := by
        exact_mod_cast congrArg (fun z : ℤ => (z : ℚ)) hrec
      rw [← hcast]

/-! ### Bridging the backtracking counters to the canonical counts -/

theorem cast_list_sum (l : List ℕ) : ((l.sum : ℕ) : ℤ) = (l.map Int.ofNat).sum := by
  induction l with
  | nil => rfl
  | cons x xs ih =>
    rw [List.sum_cons, List.map_cons, List.sum_cons, ← ih]
    push_cast
    rfl

theorem sortedZ_of_sortedN {l : List ℕ} (h : l.Sorted (· < ·)) :
    (l.map Int.ofNat).Sorted (· ≤ ·) := by
  apply List.Pairwise.map (R := (· < ·)) (S := (· ≤ ·))
  · intro a b hab
    exact Int.le_of_lt (Int.ofNat_lt.mpr hab)
  · exact h

/-- One scan level of the ordered backtracking: on a sorted scan list, the
`break` is equivalent to summing over the candidates `≤ remaining`. -/
theorem tcountOrd_scan (values : List ℤ) (m : ℕ) :
    ∀ scan : List ℤ, scan.Sorted (· ≤ ·) → ∀ r : ℤ,
      tcountOrd values (m + 1) scan r =
        ((scan.filter (fun v => v ≤ r)).map
          (fun v => tcountOrd values m values (r - v))).sum := by
  intro scan
  induction scan with
  | nil =>
    intro _ r
    simp [tcountOrd]
  | cons v vs ihs =>
    intro hs r
    obtain ⟨hvall, hvs⟩ := List.sorted_cons.mp hs
    simp only [tcountOrd]
    by_cases hrv : r < v
    · rw [if_pos hrv]
      have hnil : (v :: vs).filter (fun v => decide (v ≤ r)) = [] := by
        apply List.filter_eq_nil_iff.mpr
        intro a ha
        rcases List.mem_cons.mp ha with rfl | ha2
        · simp only [decide_eq_true_eq]
          omega
        · have hva := hvall a ha2
          simp only [decide_eq_true_eq]
          omega
      rw [hnil]
      rfl
    · rw [if_neg hrv]
      have hfil : (v :: vs).filter (fun v => decide (v ≤ r)) =
          v :: vs.filter (fun v => decide (v ≤ r)) := by
        rw [List.filter_cons, if_pos (by simp only [decide_eq_true_eq]; omega)]
      rw [hfil, List.map_cons, List.sum_cons, ihs hvs r]

/-- The ordered count over a complete sorted value list is the coefficient of
`ψ(q)^m`. -/
theorem tcountOrd_coeff (A : ℕ → Prop) [DecidablePred A] (vals : List ℕ)
    (hnd : vals.Sorted (· < ·)) (cap : ℕ)
    (hmem : ∀ a : ℕ, a ∈ vals ↔ A a ∧ a ≤ cap) :
    ∀ (m : ℕ) (r : ℕ), r ≤ cap →
      ((tcountOrd (vals.map Int.ofNat) m (vals.map Int.ofNat) (r : ℤ) : ℕ) : ℤ) =
        PowerSeries.coeff ℤ r ((psiPS A) ^ m) := by
  intro m
  induction m with
  | zero =>
    intro r _
    simp only [tcountOrd, pow_zero, PowerSeries.coeff_one]
    by_cases hr : r = 0
    · subst hr
      norm_num
    · rw [if_neg (by exact_mod_cast hr), if_neg hr]
      rfl
  | succ m ihm =>
    intro r hr
    rw [tcountOrd_scan (vals.map Int.ofNat) m (vals.map Int.ofNat)
      (sortedZ_of_sortedN hnd) (r : ℤ)]
    rw [List.filter_map Int.ofNat vals, List.map_map]
    have hcast : ∀ x ∈ vals.filter ((fun v => decide (v ≤ (r : ℤ))) ∘ Int.ofNat),
        ((fun v => tcountOrd (vals.map Int.ofNat) m (vals.map Int.ofNat)
            ((r : ℤ) - v)) ∘ Int.ofNat) x =
          (fun x => tcountOrd (vals.map Int.ofNat) m (vals.map Int.ofNat)
            (((r - x : ℕ) : ℤ))) x := by
      intro x hx
      rw [List.mem_filter] at hx
      have hxr : x ≤ r := by
        have h2 := hx.2
        simp only [Function.comp_apply, decide_eq_true_eq] at h2
        have h3 : (x : ℤ) ≤ (r : ℤ) := h2
        exact_mod_cast h3
      simp only [Function.comp_apply]
      congr 1
      have h4 : ((r : ℤ)) - (x : ℤ) = ((r - x : ℕ) : ℤ) := by omega
      exact h4
    rw [List.map_congr_left hcast]
    have hfeq : vals.filter ((fun v => decide (v ≤ (r : ℤ))) ∘ Int.ofNat) =
        vals.filter (fun v => decide (v ≤ r)) := by
      apply List.filter_congr
      intro x _
      show decide ((x : ℤ) ≤ (r : ℤ)) = decide (x ≤ r)
      rw [decide_eq_decide]
      exact Int.ofNat_le
    rw [hfeq]
    have hnodup : (vals.filter (fun v => decide (v ≤ r))).Nodup :=
      (hnd.nodup).filter _
    have hsum : (((vals.filter (fun v => decide (v ≤ r))).map
        (fun x => tcountOrd (vals.map Int.ofNat) m (vals.map Int.ofNat)
          (((r - x : ℕ) : ℤ)))).sum : ℤ) =
        ∑ x ∈ (vals.filter (fun v => decide (v ≤ r))).toFinset,
          ((tcountOrd (vals.map Int.ofNat) m (vals.map Int.ofNat)
            (((r - x : ℕ) : ℤ)) : ℕ) : ℤ) := by
      rw [List.sum_toFinset _ hnodup, cast_list_sum, List.map_map]
      rfl
    rw [hsum]
    have hterm : ∀ x ∈ (vals.filter (fun v => decide (v ≤ r))).toFinset,
        ((tcountOrd (vals.map Int.ofNat) m (vals.map Int.ofNat)
          (((r - x : ℕ) : ℤ)) : ℕ) : ℤ) =
          PowerSeries.coeff ℤ (r - x) ((psiPS A) ^ m) := by
      intro x hx
      rw [List.mem_toFinset, List.mem_filter] at hx
      have hxc : x ≤ cap := ((hmem x).mp hx.1).2
      exact ihm (r - x) (by omega)
    rw [Finset.sum_congr rfl hterm]
    have hset : (vals.filter (fun v => decide (v ≤ r))).toFinset =
        (Finset.range (r + 1)).filter A := by
      apply Finset.ext
      intro j
      rw [List.mem_toFinset, List.mem_filter, Finset.mem_filter, Finset.mem_range, hmem]
      simp only [decide_eq_true_eq]
      constructor
      · rintro ⟨⟨hA, _⟩, hjr⟩
        exact ⟨by omega, hA⟩
      · rintro ⟨hjr, hA⟩
        exact ⟨⟨hA, by omega⟩, by omega⟩
    rw [hset]
    rw [pow_succ' (psiPS A) m, PowerSeries.coeff_mul,
      Finset.Nat.sum_antidiagonal_eq_sum_range_succ_mk]
    rw [show (∑ i ∈ Finset.range (r + 1),
        PowerSeries.coeff ℤ (i, r - i).1 (psiPS A) *
          PowerSeries.coeff ℤ (i, r - i).2 ((psiPS A) ^ m)) =
        ∑ i ∈ Finset.range (r + 1),
          (if A i then (1 : ℤ) else 0) * PowerSeries.coeff ℤ (r - i) ((psiPS A) ^ m) from
      Finset.sum_congr rfl (fun i _ => by rw [psiPS, PowerSeries.coeff_mk])]
    rw [Finset.sum_filter]
    apply Finset.sum_congr rfl
    intro i _
    split <;> simp

/-- The non-distinct unordered count over a sorted scan equals the number of
multisets drawn from the scan with the given size and sum. -/
theorem tcountUnord_false_card :
    ∀ (m : ℕ) (scan : List ℕ), scan.Sorted (· < ·) → ∀ (r : ℕ) (tup : List ℤ),
      tcountUnord false m (scan.map Int.ofNat) (r : ℤ) tup =
        (msetsOf scan.toFinset m r).card := by
  intro m
  induction m using Nat.strong_induction_on with
  | _ m ihm =>
    cases m with
    | zero =>
      intro scan _ r _
      simp only [tcountUnord]
      rw [card_msetsOf_zero]
      by_cases hr : r = 0
      · subst hr
        norm_num
      · rw [if_neg (by exact_mod_cast hr), if_neg hr]
    | succ m =>
      intro scan
      induction scan with
      | nil =>
        intro _ r _
        simp only [List.map_nil, tcountUnord]
        rw [show (([] : List ℕ).toFinset) = (∅ : Finset ℕ) from rfl,
          msetsOf_empty (m + 1) r (by omega), Finset.card_empty]
      | cons v vs ihs =>
        intro hs r tup
        obtain ⟨hvall, hvs⟩ := List.sorted_cons.mp hs
        have hvnotin : v ∉ vs.toFinset := by
          rw [List.mem_toFinset]
          intro hmem2
          exact absurd (hvall v hmem2) (lt_irrefl v)
        have htf : (v :: vs).toFinset = insert v vs.toFinset := by simp
        simp only [List.map_cons, tcountUnord, Int.ofNat_eq_natCast]
        by_cases hrv : (r : ℤ) < (v : ℤ)
        · rw [if_pos hrv]
          have hempty : msetsOf ((v :: vs).toFinset) (m + 1) r = ∅ := by
            apply msetsOf_eq_empty_of_lt (v := v)
            · intro x hx
              rw [List.mem_toFinset] at hx
              rcases List.mem_cons.mp hx with rfl | hx2
              · exact le_rfl
              · exact le_of_lt (hvall x hx2)
            · exact_mod_cast hrv
            · omega
          rw [hempty, Finset.card_empty]
        · rw [if_neg hrv]
          have hvr : v ≤ r := by exact_mod_cast Int.not_lt.mp hrv
          simp only [Bool.false_and, if_neg (Bool.false_ne_true)]
          have hsub : (r : ℤ) - (v : ℤ) = ((r - v : ℕ) : ℤ) := by omega
          rw [hsub]
          have hdeep := ihm m (by omega) (v :: vs) hs (r - v) (tup ++ [Int.ofNat v])
          rw [List.map_cons] at hdeep
          simp only [Int.ofNat_eq_natCast] at hdeep
          rw [hdeep, ihs hvs r tup, htf]
          rw [card_msetsOf_insert hvnotin m r hvr]

/-- The distinct unordered count over a sorted scan, when every element of the
scan exceeds the last chosen value, equals the number of subsets of the scan
with the given size and sum. -/
theorem tcountUnord_true_card :
    ∀ (m : ℕ) (scan : List ℕ), scan.Sorted (· < ·) → ∀ (r : ℕ) (tup : List ℤ),
      (∀ p ∈ tup.getLast?, ∀ x ∈ scan, p < (x : ℤ)) →
      tcountUnord true m (scan.map Int.ofNat) (r : ℤ) tup =
        (ssetsOf scan.toFinset m r).card := by
  intro m
  induction m using Nat.strong_induction_on with
  | _ m ihm =>
    cases m with
    | zero =>
      intro scan _ r _ _
      simp only [tcountUnord]
      rw [card_ssetsOf_zero]
      by_cases hr : r = 0
      · subst hr
        norm_num
      · rw [if_neg (by exact_mod_cast hr), if_neg hr]
    | succ m =>
      intro scan
      induction scan with
      | nil =>
        intro _ r _ _
        simp only [List.map_nil, tcountUnord]
        rw [show (([] : List ℕ).toFinset) = (∅ : Finset ℕ) from rfl,
          ssetsOf_empty (m + 1) r (by omega), Finset.card_empty]
      | cons v vs ihs =>
        intro hs r tup hinv
        obtain ⟨hvall, hvs⟩ := List.sorted_cons.mp hs
        have hvnotin : v ∉ vs.toFinset := by
          rw [List.mem_toFinset]
          intro hmem2
          exact absurd (hvall v hmem2) (lt_irrefl v)
        have htf : (v :: vs).toFinset = insert v vs.toFinset := by simp
        simp only [List.map_cons, tcountUnord, Int.ofNat_eq_natCast]
        by_cases hrv : (r : ℤ) < (v : ℤ)
        · rw [if_pos hrv]
          have hempty : ssetsOf ((v :: vs).toFinset) (m + 1) r = ∅ := by
            apply ssetsOf_eq_empty_of_lt (v := v)
            · intro x hx
              rw [List.mem_toFinset] at hx
              rcases List.mem_cons.mp hx with rfl | hx2
              · exact le_rfl
              · exact le_of_lt (hvall x hx2)
            · exact_mod_cast hrv
            · omega
          rw [hempty, Finset.card_empty]
        · rw [if_neg hrv]
          have hvr : v ≤ r := by exact_mod_cast Int.not_lt.mp hrv
          have hguard : lastGuard ((v : ℕ) : ℤ) tup = false := by
            rw [lastGuard]
            cases htup : tup.getLast? with
            | none => rfl
            | some p =>
              have hpv := hinv p (by rw [htup]; rfl) v (List.mem_cons_self v vs)
              simp only [decide_eq_false_iff_not]
              omega
          rw [hguard]
          simp only [Bool.and_false, if_neg (Bool.false_ne_true)]
          have hsub : (r : ℤ) - (v : ℤ) = ((r - v : ℕ) : ℤ) := by omega
          rw [if_pos trivial, hsub]
          have hinv2 : ∀ p ∈ (tup ++ [Int.ofNat v]).getLast?, ∀ x ∈ vs, p < (x : ℤ) := by
            intro p hp x hx
            rw [List.getLast?_concat] at hp
            rw [Option.mem_def, Option.some.injEq] at hp
            subst hp
            exact Int.ofNat_lt.mpr (hvall x hx)
          have hdeep := ihm m (by omega) vs hvs (r - v) (tup ++ [Int.ofNat v]) hinv2
          simp only [Int.ofNat_eq_natCast] at hdeep
          rw [hdeep, ihs hvs r tup (fun p hp x hx =>
            hinv p hp x (List.mem_cons_of_mem v hx)), htf]
          rw [card_ssetsOf_insert hvnotin m r hvr]

/-- The preprocessing of the brute-force counters (filter to `≤ target`, then
sort) is the identity on a sorted list of values that are all `≤ target`. -/
theorem brute_prep (vals : List ℕ) (hnd : vals.Sorted (· < ·)) (n : ℕ)
    (hall : ∀ a ∈ vals, a ≤ n) :
    ((vals.map Int.ofNat).filter (fun v => v ≤ (n : ℤ))).mergeSort =
      vals.map Int.ofNat := by
  have hfil : (vals.map Int.ofNat).filter (fun v => v ≤ (n : ℤ)) =
      vals.map Int.ofNat := by
    apply List.filter_eq_self.mpr
    intro a ha
    rw [List.mem_map] at ha
    obtain ⟨x, hx, rfl⟩ := ha
    simp only [decide_eq_true_eq]
    exact Int.ofNat_le.mpr (hall x hx)
  rw [hfil]
  exact List.mergeSort_eq_self (sortedZ_of_sortedN hnd)

/-- `countOrderedRepresentations` on an exhaustive sorted value list computes
the coefficient of `ψ(q)^m`. -/
theorem count_ordered_eq (A : ℕ → Prop) [DecidablePred A] (vals : List ℕ)
    (hnd : vals.Sorted (· < ·)) (n : ℕ) (hmem : ∀ a : ℕ, a ∈ vals ↔ A a ∧ a ≤ n)
    (m maxEx : ℕ) :
    (((count_ordered_representations (vals.map Int.ofNat) m (n : ℤ) maxEx).1 : ℕ) : ℤ) =
      PowerSeries.coeff ℤ n ((psiPS A) ^ m) := by
  have hprep := brute_prep vals hnd n (fun a ha => ((hmem a).mp ha).2)
  have hco : (count_ordered_representations (vals.map Int.ofNat) m (n : ℤ) maxEx).1 =
      tcountOrd (vals.map Int.ofNat) m (vals.map Int.ofNat) (n : ℤ) := by
    show (btOrd _ maxEx m _ (n : ℤ) [] ⟨0, []⟩).count = _
    rw [hprep, btOrd_count]
    simp
  rw [hco]
  exact tcountOrd_coeff A vals hnd n hmem m n le_rfl

/-- `countUnorderedPartitions` with `distinct = false` on an exhaustive sorted
value list computes the multiset count `hCount`. -/
theorem count_unordered_false_eq (A : ℕ → Prop) [DecidablePred A] (vals : List ℕ)
    (hnd : vals.Sorted (· < ·)) (n : ℕ) (hmem : ∀ a : ℕ, a ∈ vals ↔ A a ∧ a ≤ n)
    (m maxEx : ℕ) :
    (count_unordered_partitions (vals.map Int.ofNat) m (n : ℤ) false maxEx).1 =
      hCount A m n := by
  have hprep := brute_prep vals hnd n (fun a ha => ((hmem a).mp ha).2)
  have hco : (count_unordered_partitions (vals.map Int.ofNat) m (n : ℤ) false maxEx).1 =
      tcountUnord false m (vals.map Int.ofNat) (n : ℤ) [] := by
    show (btUnord _ maxEx false m _ (n : ℤ) [] ⟨0, []⟩).count = _
    rw [hprep, btUnord_count]
    simp
  rw [hco, tcountUnord_false_card m vals hnd n []]
  have hset : vals.toFinset = (Finset.range (n + 1)).filter A := by
    apply Finset.ext
    intro j
    rw [List.mem_toFinset, Finset.mem_filter, Finset.mem_range, hmem]
    constructor
    · rintro ⟨hA, hj⟩
      exact ⟨by omega, hA⟩
    · rintro ⟨hj, hA⟩
      exact ⟨hA, by omega⟩
  rw [hset]
  rfl

/-- `countUnorderedPartitions` with `distinct = true` on an exhaustive sorted
value list computes the distinct-set count `eCount`. -/
theorem count_unordered_true_eq (A : ℕ → Prop) [DecidablePred A] (vals : List ℕ)
    (hnd : vals.Sorted (· < ·)) (n : ℕ) (hmem : ∀ a : ℕ, a ∈ vals ↔ A a ∧ a ≤ n)
    (m maxEx : ℕ) :
    (count_unordered_partitions (vals.map Int.ofNat) m (n : ℤ) true maxEx).1 =
      eCount A m n := by
  have hprep := brute_prep vals hnd n (fun a ha => ((hmem a).mp ha).2)
  have hco : (count_unordered_partitions (vals.map Int.ofNat) m (n : ℤ) true maxEx).1 =
      tcountUnord true m (vals.map Int.ofNat) (n : ℤ) [] := by
    show (btUnord _ maxEx true m _ (n : ℤ) [] ⟨0, []⟩).count = _
    rw [hprep, btUnord_count]
    simp
  have hinv : ∀ p ∈ ([] : List ℤ).getLast?, ∀ x ∈ vals, p < (x : ℤ) := by
    intro p hp
    cases hp
  rw [hco, tcountUnord_true_card m vals hnd n [] hinv]
  have hset : vals.toFinset = (Finset.range (n + 1)).filter A := by
    apply Finset.ext
    intro j
    rw [List.mem_toFinset, Finset.mem_filter, Finset.mem_range, hmem]
    constructor
    · rintro ⟨hA, hj⟩
      exact ⟨by omega, hA⟩
    · rintro ⟨hj, hA⟩
      exact ⟨hA, by omega⟩
  rw [hset]
  rfl

/-! ### partitions_gf.py -/

/-- The ψ(q^ℓ) substitution series over ℤ. -/
def pZ (A : ℕ → Prop) [DecidablePred A] (ℓ : ℕ) : PowerSeries ℤ :=
  PowerSeries.mk (fun i => if ℓ ∣ i ∧ A (i / ℓ) then 1 else 0)

/-- The exponent set of each figurate family. -/
def famA : Fam → (ℕ → Prop)
  | Fam.triangular => isTri
  | Fam.square => isSqv
  | Fam.centered k => isCk k

instance famA_dec : (f : Fam) → DecidablePred (famA f)
  | Fam.triangular => inferInstanceAs (DecidablePred isTri)
  | Fam.square => inferInstanceAs (DecidablePred isSqv)
  | Fam.centered k => inferInstanceAs (DecidablePred (isCk k))

/-- The parameter constraint under which a family's base series is accepted. -/
def famOK : Fam → Prop
  | Fam.triangular => True
  | Fam.square => True
  | Fam.centered k => 3 ≤ k

instance famOK_dec : (f : Fam) → Decidable (famOK f)
  | Fam.triangular => inferInstanceAs (Decidable True)
  | Fam.square => inferInstanceAs (Decidable True)
  | Fam.centered k => inferInstanceAs (Decidable (3 ≤ k))

/-- `base_figurate_series` from `partitions_gf.py`: dispatch on the family
(the centered branch propagates the `k < 3` error raised in
`centered_polygonal_numbers_up_to`). -/
def base_figurate_series (family : Fam) (N : ℕ) : Except String (List ℤ) :=
  match family with
  | Fam.triangular => Except.ok (triangular_series N)
  | Fam.square => Except.ok (square_series N)
  | Fam.centered k =>
    if k < 3 then Except.error "k should be >= 3 for centered k-gonal numbers."
    else Except.ok (centered_series_core k N)

/-- `class_generating_series` from `partitions_gf.py`:
`C_i(q) = ∏_ℓ ψ(q^ℓ)^{m_ℓ}` over the cycle-type multiplicities, accumulated
with `mul_series`; the `q ↦ q^ℓ` substitution goes through the guarded
`compose_q_to_qk`. -/
def class_generating_series (ct : List ℕ) (base : List ℤ) (N : ℕ) :
    Except String (List ℤ) :=
  (cycle_type_multiplicities ct).foldlM
    (fun result lc => do
      let psi_q_l ← compose_q_to_qk base (lc.1 : ℤ) N
      Except.ok (mul_series result (pow_series psi_q_l lc.2 N) N))
    (one_series N)

/-- The pure value of `class_generating_series` on the (always-taken)
non-error path. -/
def class_generating_series_core (ct : List ℕ) (base : List ℤ) (N : ℕ) : List ℤ :=
  (cycle_type_multiplicities ct).foldl
    (fun result lc =>
      mul_series result (pow_series (compose_core base lc.1 N) lc.2 N) N)
    (one_series N)

theorem foldlM_except_ok {α β : Type} (f : β → α → Except String β) (g : β → α → β)
    (l : List α) (h : ∀ b : β, ∀ x ∈ l, f b x = Except.ok (g b x)) :
    ∀ init : β, l.foldlM f init = Except.ok (l.foldl g init) := by
  induction l with
  | nil => intro init; rfl
  | cons x xs ih =>
    intro init
    have hx := h init x (List.mem_cons_self x xs)
    rw [List.foldlM_cons, hx]
    show xs.foldlM f (g init x) = Except.ok (xs.foldl g (g init x))
    exact ih (fun b y hy => h b y (List.mem_cons_of_mem x hy)) (g init x)

theorem class_generating_series_pos (ct : List ℕ) (hp : ∀ x ∈ ct, 0 < x)
    (base : List ℤ) (N : ℕ) :
    class_generating_series ct base N =
      Except.ok (class_generating_series_core ct base N) := by
  apply foldlM_except_ok
  intro b lc hlc
  obtain ⟨la, lc2⟩ := lc
  have hmem := (cycle_mult_mem ct la lc2).mp hlc
  have hpos : 0 < la := hp la hmem.1
  have hcomp : compose_q_to_qk base ((la : ℕ) : ℤ) N =
      Except.ok (compose_core base la N) := by
    rw [compose_q_to_qk, if_neg (by exact_mod_cast Nat.not_le.mpr hpos)]
    rw [Int.toNat_natCast]
  show (do
    let psi_q_l ← compose_q_to_qk base ((la : ℕ) : ℤ) N
    Except.ok (mul_series b (pow_series psi_q_l lc2 N) N)) = _
  rw [hcomp]
  rfl

/-- The result record of `build_partition_generating_functions`. -/
structure GFResult where
  family : Fam
  m : ℤ
  N : ℕ
  representations : List ℤ
  P : List ℤ
  P_distinct : Option (List ℤ)
  class_data : List (ClassRec × List ℤ)

/-- One iteration of the class loop in
`build_partition_generating_functions`: compute `C_i(q)`, add
`|C_i| * C_i(q)` into `sum_P`, add `sign * |C_i| * C_i(q)` into
`sum_P_distinct` when it is carried, and append the class record with its
series. -/
def buildStep (base : List ℤ) (N : ℕ)
    (st : List ℤ × Option (List ℤ) × List (ClassRec × List ℤ)) (c : ClassRec) :
    Except String (List ℤ × Option (List ℤ) × List (ClassRec × List ℤ)) := do
  let Ci ← class_generating_series c.cycle_type base N
  let scaled := scalar_mul_series Ci (c.class_size : ℤ) N
  let sumP := List.zipWith (· + ·) st.1 scaled
  let sumPd := st.2.1.map (fun sd =>
    List.zipWith (· + ·) sd
      (scalar_mul_series Ci ((if c.parity = "even" then 1 else -1) *
        (c.class_size : ℤ)) N))
  Except.ok (sumP, sumPd, st.2.2 ++ [(c, Ci)])

/-- `build_partition_generating_functions` from `partitions_gf.py`. -/
def build_partition_generating_functions (family : Fam) (m : ℤ) (N : ℕ)
    (compute_distinct : Bool) : Except String GFResult :=
  if m ≤ 0 then Except.error "m must be positive."
  else do
    let base ← base_figurate_series family N
    let classes ← conjugacy_classes_Sm m
    let representations := pow_series base m.toNat N
    let st ← classes.foldlM (buildStep base N)
      (zero_series N, (if compute_distinct then some (zero_series N) else none), [])
    let mfact : ℤ := (m.toNat.factorial : ℤ)
    Except.ok
      { family := family
        m := m
        N := N
        representations := representations
        P := st.1.map (fun coeff => Int.fdiv coeff mfact)
        P_distinct := st.2.1.map (fun sd => sd.map (fun coeff => Int.fdiv coeff mfact))
        class_data := st.2.2 }

theorem coeffL_compose_core (A : ℕ → Prop) [DecidablePred A] (base : List ℤ) (N : ℕ)
    (hbase : ∀ i, i ≤ N → coeffL base i = PowerSeries.coeff ℤ i (psiPS A))
    (ℓ : ℕ) :
    ∀ i, i ≤ N → coeffL (compose_core base ℓ N) i = PowerSeries.coeff ℤ i (pZ A ℓ) := by
  intro i hi
  rw [compose_core, coeffL_rangeMap, if_pos (Nat.lt_add_one_iff.mpr hi), pZ,
    PowerSeries.coeff_mk]
  by_cases hdvd : ℓ ∣ i
  · rw [if_pos hdvd]
    have hdiv : i / ℓ ≤ N := le_trans (Nat.div_le_self i ℓ) hi
    rw [hbase (i / ℓ) hdiv, psiPS, PowerSeries.coeff_mk]
    by_cases hA : A (i / ℓ)
    · rw [if_pos hA, if_pos ⟨hdvd, hA⟩]
    · rw [if_neg hA, if_neg (fun hc => hA hc.2)]
  · rw [if_neg hdvd, if_neg (fun hc => hdvd hc.1)]

theorem coeffL_pow_series_of (base : List ℤ) (N : ℕ) {X : PowerSeries ℤ}
    (hb : ∀ i, i ≤ N → coeffL base i = PowerSeries.coeff ℤ i X) (e : ℕ) :
    ∀ n, n ≤ N → coeffL (pow_series base e N) n = PowerSeries.coeff ℤ n (X ^ e) := by
  intro n hn
  unfold pow_series
  split
  · rename_i h0
    subst h0
    rw [pow_zero]
    exact coeffL_one_series N n hn
  · split
    · rename_i h1
      subst h1
      rw [pow_one, coeffL_ensure, if_pos hn]
      exact hb n hn
    · have hb2 : ∀ i, i ≤ N → coeffL (ensure_length base N) i =
          PowerSeries.coeff ℤ i X := by
        intro i hi
        rw [coeffL_ensure, if_pos hi]
        exact hb i hi
      rw [coeffL_powLoop N e (one_series N) (ensure_length base N) 1 X
        (coeffL_one_series N) hb2 n hn, one_mul]

theorem coeffL_foldl_mul {α : Type} (N : ℕ) (g : α → List ℤ) (G : α → PowerSeries ℤ) :
    ∀ (steps : List α),
      (∀ s ∈ steps, ∀ i, i ≤ N → coeffL (g s) i = PowerSeries.coeff ℤ i (G s)) →
      ∀ (init : List ℤ) (I : PowerSeries ℤ),
        (∀ i, i ≤ N → coeffL init i = PowerSeries.coeff ℤ i I) →
        ∀ n, n ≤ N →
          coeffL (steps.foldl (fun res s => mul_series res (g s) N) init) n =
            PowerSeries.coeff ℤ n (I * (steps.map G).prod) := by
  intro steps
  induction steps with
  | nil =>
    intro _ init I hI n hn
    rw [List.foldl_nil, List.map_nil, List.prod_nil, mul_one]
    exact hI n hn
  | cons s ss ih =>
    intro hsteps init I hI n hn
    rw [List.foldl_cons, List.map_cons, List.prod_cons]
    have hinit2 : ∀ i, i ≤ N → coeffL (mul_series init (g s) N) i =
        PowerSeries.coeff ℤ i (I * G s) :=
      coeffL_mul_series init (g s) N hI (hsteps s (List.mem_cons_self s ss))
    rw [ih (fun t ht => hsteps t (List.mem_cons_of_mem s ht)) _ _ hinit2 n hn]
    rw [← mul_assoc]

theorem coeffL_class_series (A : ℕ → Prop) [DecidablePred A] (base : List ℤ) (N : ℕ)
    (hbase : ∀ i, i ≤ N → coeffL base i = PowerSeries.coeff ℤ i (psiPS A))
    (ct : List ℕ) :
    ∀ n, n ≤ N → coeffL (class_generating_series_core ct base N) n =
      PowerSeries.coeff ℤ n ((Multiset.ofList ct).map (pZ A)).prod := by
  intro n hn
  have hsteps : ∀ lc ∈ cycle_type_multiplicities ct, ∀ i, i ≤ N →
      coeffL ((fun lc : ℕ × ℕ => pow_series (compose_core base lc.1 N) lc.2 N) lc) i =
        PowerSeries.coeff ℤ i ((fun lc : ℕ × ℕ => pZ A lc.1 ^ lc.2) lc) := by
    intro lc _ i hi
    exact coeffL_pow_series_of (compose_core base lc.1 N) N
      (coeffL_compose_core A base N hbase lc.1) lc.2 i hi
  have h1 := coeffL_foldl_mul N
    (fun lc : ℕ × ℕ => pow_series (compose_core base lc.1 N) lc.2 N)
    (fun lc : ℕ × ℕ => pZ A lc.1 ^ lc.2)
    (cycle_type_multiplicities ct) hsteps (one_series N) 1 (coeffL_one_series N) n hn
  rw [one_mul] at h1
  have h2a := prod_cycle_mult (M := PowerSeries ℤ) ct (fun a c => pZ A a ^ c)
  have h2b := Finset.prod_multiset_map_count (Multiset.ofList ct) (pZ A)
  have h2 : ((cycle_type_multiplicities ct).map
      (fun lc : ℕ × ℕ => pZ A lc.1 ^ lc.2)).prod =
      ((Multiset.ofList ct).map (pZ A)).prod := by
    rw [h2a, h2b]
    apply Finset.prod_congr rfl
    intro a _
    rw [Multiset.coe_count]
  rw [h2] at h1
  exact h1

theorem coeffL_scalar_mul (a : List ℤ) (s : ℤ) (N n : ℕ) (hn : n ≤ N) :
    coeffL (scalar_mul_series a s N) n = s * coeffL a n := by
  rw [scalar_mul_series, coeffL_rangeMap, if_pos (Nat.lt_add_one_iff.mpr hn),
    coeffL_ensure, if_pos hn]

theorem coeffL_zipWith_add (a b : List ℤ) (N n : ℕ) (ha : a.length = N + 1)
    (hb : b.length = N + 1) (hn : n ≤ N) :
    coeffL (List.zipWith (· + ·) a b) n = coeffL a n + coeffL b n := by
  have hna : n < a.length := by omega
  have hnb : n < b.length := by omega
  have hnz : n < (List.zipWith (· + ·) a b).length := by
    rw [List.length_zipWith]
    omega
  unfold coeffL
  rw [List.getD_eq_getElem _ _ hnz, List.getD_eq_getElem _ _ hna,
    List.getD_eq_getElem _ _ hnb, List.getElem_zipWith]

theorem length_zipWith_add (a b : List ℤ) (N : ℕ) (ha : a.length = N + 1)
    (hb : b.length = N + 1) : (List.zipWith (· + ·) a b).length = N + 1 := by
  rw [List.length_zipWith, ha, hb, min_self]

theorem coeffL_zero_series (N n : ℕ) : coeffL (zero_series N) n = 0 := by
  unfold coeffL zero_series
  by_cases hn : n < N + 1
  · rw [List.getD_eq_getElem _ _ (by simpa using hn), List.getElem_replicate]
  · rw [List.getD_eq_default _ _ (by simpa using hn)]

/-- The class loop of `build_partition_generating_functions`: it never fails,
accumulates `Σ |C_i| * C_i(q)` and `Σ sign_i * |C_i| * C_i(q)` coefficientwise,
and appends each class record with its series. -/
theorem buildLoop_spec (A : ℕ → Prop) [DecidablePred A] (base : List ℤ) (N : ℕ)
    (hbase : ∀ i, i ≤ N → coeffL base i = PowerSeries.coeff ℤ i (psiPS A)) :
    ∀ (classes : List ClassRec), (∀ c ∈ classes, ∀ x ∈ c.cycle_type, 0 < x) →
    ∀ (sumP sd : List ℤ) (cdata : List (ClassRec × List ℤ)),
      sumP.length = N + 1 → sd.length = N + 1 →
      ∃ sumP2 sd2 cdata2,
        classes.foldlM (buildStep base N) (sumP, some sd, cdata) =
          Except.ok (sumP2, some sd2, cdata2) ∧
        sumP2.length = N + 1 ∧ sd2.length = N + 1 ∧
        (∀ n, n ≤ N → coeffL sumP2 n = coeffL sumP n +
          (classes.map (fun c => (c.class_size : ℤ) *
            PowerSeries.coeff ℤ n
              ((Multiset.ofList c.cycle_type).map (pZ A)).prod)).sum) ∧
        (∀ n, n ≤ N → coeffL sd2 n = coeffL sd n +
          (classes.map (fun c =>
            (if c.parity = "even" then (1 : ℤ) else -1) * (c.class_size : ℤ) *
            PowerSeries.coeff ℤ n
              ((Multiset.ofList c.cycle_type).map (pZ A)).prod)).sum) ∧
        cdata2 = cdata ++ classes.map (fun c =>
          (c, class_generating_series_core c.cycle_type base N)) := by
  intro classes
  induction classes with
  | nil =>
    intro _ sumP sd cdata hP hd
    refine ⟨sumP, sd, cdata, rfl, hP, hd, ?_, ?_, by simp⟩
    · intro n _
      simp
    · intro n _
      simp
  | cons c cs ih =>
    intro hpos sumP sd cdata hP hd
    have hc := hpos c (List.mem_cons_self c cs)
    have hcs : ∀ c2 ∈ cs, ∀ x ∈ c2.cycle_type, 0 < x :=
      fun c2 hc2 => hpos c2 (List.mem_cons_of_mem c hc2)
    set Ci := class_generating_series_core c.cycle_type base N with hCi
    have hstep : buildStep base N (sumP, some sd, cdata) c =
        Except.ok (List.zipWith (· + ·) sumP (scalar_mul_series Ci (c.class_size : ℤ) N),
          some (List.zipWith (· + ·) sd
            (scalar_mul_series Ci ((if c.parity = "even" then 1 else -1) *
              (c.class_size : ℤ)) N)),
          cdata ++ [(c, Ci)]) := by
      rw [buildStep]
      rw [class_generating_series_pos c.cycle_type hc base N]
      rfl
    rw [List.foldlM_cons, hstep]
    have hP2 : (List.zipWith (· + ·) sumP
        (scalar_mul_series Ci (c.class_size : ℤ) N)).length = N + 1 :=
      length_zipWith_add _ _ N hP (length_scalar_mul_series _ _ N)
    have hd2 : (List.zipWith (· + ·) sd
        (scalar_mul_series Ci ((if c.parity = "even" then 1 else -1) *
          (c.class_size : ℤ)) N)).length = N + 1 :=
      length_zipWith_add _ _ N hd (length_scalar_mul_series _ _ N)
    obtain ⟨sumP2, sd2, cdata2, hfold, hlenP, hlend, hcoP, hcod, hcd⟩ :=
      ih hcs _ _ (cdata ++ [(c, Ci)]) hP2 hd2
    refine ⟨sumP2, sd2, cdata2, ?_, hlenP, hlend, ?_, ?_, ?_⟩
    · exact hfold
    · intro n hn
      rw [hcoP n hn, coeffL_zipWith_add _ _ N n hP (length_scalar_mul_series _ _ N) hn,
        coeffL_scalar_mul _ _ N n hn, hCi,
        coeffL_class_series A base N hbase c.cycle_type n hn, List.map_cons,
        List.sum_cons]
      ring
    · intro n hn
      rw [hcod n hn, coeffL_zipWith_add _ _ N n hd (length_scalar_mul_series _ _ N) hn,
        coeffL_scalar_mul _ _ N n hn, hCi,
        coeffL_class_series A base N hbase c.cycle_type n hn, List.map_cons,
        List.sum_cons]
      ring
    · rw [hcd, List.map_cons, List.append_assoc, List.singleton_append]

theorem pZ_map_ratCast (A : ℕ → Prop) [DecidablePred A] (ℓ : ℕ) :
    PowerSeries.map (Int.castRingHom ℚ) (pZ A ℓ) = pQ A ℓ := by
  apply PowerSeries.ext
  intro n
  rw [PowerSeries.coeff_map, pZ, pQ, PowerSeries.coeff_mk, PowerSeries.coeff_mk]
  split <;> simp

theorem coeff_prod_cast (A : ℕ → Prop) [DecidablePred A] (c : Multiset ℕ) (n : ℕ) :
    ((PowerSeries.coeff ℤ n (c.map (pZ A)).prod : ℤ) : ℚ) =
      PowerSeries.coeff ℚ n (c.map (pQ A)).prod := by
  have hmap : PowerSeries.map (Int.castRingHom ℚ) ((c.map (pZ A)).prod) =
      (c.map (pQ A)).prod := by
    rw [map_multiset_prod, Multiset.map_map]
    congr 1
    apply Multiset.map_congr rfl
    intro ℓ _
    exact pZ_map_ratCast A ℓ
  calc ((PowerSeries.coeff ℤ n (c.map (pZ A)).prod : ℤ) : ℚ)
      = PowerSeries.coeff ℚ n
          (PowerSeries.map (Int.castRingHom ℚ) ((c.map (pZ A)).prod)) := by
        rw [PowerSeries.coeff_map]
        rfl
  _ = PowerSeries.coeff ℚ n (c.map (pQ A)).prod := by rw [hmap]

theorem sign_eq_pow (ct : List ℕ) (m : ℕ) :
    (if parity_for_cycle_type ct m = "even" then (1 : ℤ) else -1) =
      (-1 : ℤ) ^ (m - ct.length) := by
  rw [parity_for_cycle_type]
  by_cases h : ((-1 : ℤ)) ^ (m - ct.length) = 1
  · rw [if_pos h, if_pos rfl, h]
  · rw [if_neg h, if_neg (by decide : ¬(("odd" : String) = "even"))]
    rcases neg_one_pow_eq_or ℤ (m - ct.length) with h1 | h1
    · exact absurd h1 h
    · exact h1.symm

theorem card_le_sum_of_pos : ∀ (c : Multiset ℕ), (∀ x ∈ c, 0 < x) →
    Multiset.card c ≤ c.sum := by
  intro c
  induction c using Multiset.induction_on with
  | empty => intro _; simp
  | cons ℓ s ih =>
    intro h
    rw [Multiset.card_cons, Multiset.sum_cons]
    have h1 := ih (fun x hx => h x (Multiset.mem_cons_of_mem hx))
    have h2 := h ℓ (Multiset.mem_cons_self ℓ s)
    omega

theorem prod_sign_weights : ∀ (c : Multiset ℕ), (∀ x ∈ c, 0 < x) →
    (c.map (fun ℓ => (-1 : ℚ) ^ (ℓ - 1))).prod =
      (-1 : ℚ) ^ (c.sum - Multiset.card c) := by
  intro c
  induction c using Multiset.induction_on with
  | empty => intro _; simp
  | cons ℓ s ih =>
    intro hpos
    rw [Multiset.map_cons, Multiset.prod_cons,
      ih (fun x hx => hpos x (Multiset.mem_cons_of_mem hx)),
      Multiset.sum_cons, Multiset.card_cons, ← pow_add]
    have hl : 1 ≤ ℓ := hpos ℓ (Multiset.mem_cons_self ℓ s)
    have hcard := card_le_sum_of_pos s (fun x hx => hpos x (Multiset.mem_cons_of_mem hx))
    congr 1
    omega

/-- The accumulated sum `Σ |C_i| * C_i(q)[n]` equals `m! * hCount`: the
Burnside symmetrization identity, unsigned case. -/
theorem sum_P_coeff (A : ℕ → Prop) [DecidablePred A] (m n : ℕ) :
    ((integer_partitions m).map (fun ct => (class_size_for_cycle_type ct m : ℤ) *
      PowerSeries.coeff ℤ n ((Multiset.ofList ct).map (pZ A)).prod)).sum =
      (m.factorial : ℤ) * (hCount A m n : ℤ) := by
  have hlist : ((integer_partitions m).map (fun ct =>
      (class_size_for_cycle_type ct m : ℤ) *
      PowerSeries.coeff ℤ n ((Multiset.ofList ct).map (pZ A)).prod)).sum =
      ((integer_partitions m).map (fun ct =>
        (fun c : Multiset ℕ => ((m.factorial / zMS c : ℕ) : ℤ) *
          PowerSeries.coeff ℤ n ((c.map (pZ A)).prod)) (Multiset.ofList ct))).sum := by
    congr 1
    apply List.map_congr_left
    intro ct _
    rw [class_size_for_cycle_type, classDenom_eq_zMS]
  rw [hlist, ← sum_Psets_eq_list m (fun c => ((m.factorial / zMS c : ℕ) : ℤ) *
    PowerSeries.coeff ℤ n ((c.map (pZ A)).prod))]
  have hQcast : ((∑ c ∈ Psets m, ((m.factorial / zMS c : ℕ) : ℤ) *
      PowerSeries.coeff ℤ n ((c.map (pZ A)).prod) : ℤ) : ℚ) =
      (((m.factorial : ℤ) * (hCount A m n : ℤ) : ℤ) : ℚ) := by
    rw [Int.cast_sum]
    conv_rhs => rw [Int.cast_mul, Int.cast_natCast, Int.cast_natCast]
    have hterm : ∀ c ∈ Psets m,
        ((((m.factorial / zMS c : ℕ) : ℤ) *
          PowerSeries.coeff ℤ n ((c.map (pZ A)).prod) : ℤ) : ℚ) =
        (m.factorial : ℚ) * (((c.map (fun _ => (1 : ℚ))).prod / (zMS c : ℚ)) *
          PowerSeries.coeff ℚ n ((c.map (pQ A)).prod)) := by
      intro c hc
      obtain ⟨hdvd, hpos⟩ := Psets_mem_facts hc
      rw [Int.cast_mul, Int.cast_natCast,
        Nat.cast_div hdvd (by exact_mod_cast hpos.ne.symm), coeff_prod_cast,
        Multiset.prod_map_one]
      ring
    rw [Finset.sum_congr rfl hterm, ← Finset.mul_sum]
    congr 1
    have hW := congrArg (PowerSeries.coeff ℚ n) (Wsum_hQ A m)
    rw [hQ, PowerSeries.coeff_mk, Wsum, map_sum] at hW
    have hW2 : ∀ c ∈ Psets m, PowerSeries.coeff ℚ n
        (((c.map (fun _ => (1 : ℚ))).prod / (zMS c : ℚ)) • (c.map (pQ A)).prod) =
        ((c.map (fun _ => (1 : ℚ))).prod / (zMS c : ℚ)) *
          PowerSeries.coeff ℚ n ((c.map (pQ A)).prod) := by
      intro c _
      rw [map_smul, smul_eq_mul]
    rw [Finset.sum_congr rfl hW2] at hW
    exact hW
  exact_mod_cast hQcast

/-- The accumulated signed sum `Σ sign_i * |C_i| * C_i(q)[n]` equals
`m! * eCount`: the Burnside symmetrization identity, signed case. -/
theorem sum_Pd_coeff (A : ℕ → Prop) [DecidablePred A] (m n : ℕ) :
    ((integer_partitions m).map (fun ct =>
      (if parity_for_cycle_type ct m = "even" then (1 : ℤ) else -1) *
        (class_size_for_cycle_type ct m : ℤ) *
        PowerSeries.coeff ℤ n ((Multiset.ofList ct).map (pZ A)).prod)).sum =
      (m.factorial : ℤ) * (eCount A m n : ℤ) := by
  have hlist : ((integer_partitions m).map (fun ct =>
      (if parity_for_cycle_type ct m = "even" then (1 : ℤ) else -1) *
        (class_size_for_cycle_type ct m : ℤ) *
        PowerSeries.coeff ℤ n ((Multiset.ofList ct).map (pZ A)).prod)).sum =
      ((integer_partitions m).map (fun ct =>
        (fun c : Multiset ℕ => (-1 : ℤ) ^ (m - Multiset.card c) *
          ((m.factorial / zMS c : ℕ) : ℤ) *
          PowerSeries.coeff ℤ n ((c.map (pZ A)).prod)) (Multiset.ofList ct))).sum := by
    congr 1
    apply List.map_congr_left
    intro ct _
    dsimp only
    rw [class_size_for_cycle_type, classDenom_eq_zMS, sign_eq_pow, Multiset.coe_card]
  rw [hlist, ← sum_Psets_eq_list m (fun c => (-1 : ℤ) ^ (m - Multiset.card c) *
    ((m.factorial / zMS c : ℕ) : ℤ) *
    PowerSeries.coeff ℤ n ((c.map (pZ A)).prod))]
  have hQcast : ((∑ c ∈ Psets m, (-1 : ℤ) ^ (m - Multiset.card c) *
      ((m.factorial / zMS c : ℕ) : ℤ) *
      PowerSeries.coeff ℤ n ((c.map (pZ A)).prod) : ℤ) : ℚ) =
      (((m.factorial : ℤ) * (eCount A m n : ℤ) : ℤ) : ℚ) := by
    rw [Int.cast_sum]
    conv_rhs => rw [Int.cast_mul, Int.cast_natCast, Int.cast_natCast]
    have hterm : ∀ c ∈ Psets m,
        (((-1 : ℤ) ^ (m - Multiset.card c) * ((m.factorial / zMS c : ℕ) : ℤ) *
          PowerSeries.coeff ℤ n ((c.map (pZ A)).prod) : ℤ) : ℚ) =
        (m.factorial : ℚ) *
          (((c.map (fun ℓ => (-1 : ℚ) ^ (ℓ - 1))).prod / (zMS c : ℚ)) *
            PowerSeries.coeff ℚ n ((c.map (pQ A)).prod)) := by
      intro c hc
      obtain ⟨hdvd, hpos⟩ := Psets_mem_facts hc
      obtain ⟨hsum, hposc⟩ := (mem_Psets m c).mp hc
      rw [Int.cast_mul, Int.cast_mul, Int.cast_natCast]
      rw [show (((-1 : ℤ) ^ (m - Multiset.card c) : ℤ) : ℚ) =
        (-1 : ℚ) ^ (m - Multiset.card c) by push_cast; ring]
      rw [Nat.cast_div hdvd (by exact_mod_cast hpos.ne.symm), coeff_prod_cast,
        prod_sign_weights c hposc, hsum]
      ring
    rw [Finset.sum_congr rfl hterm, ← Finset.mul_sum]
    congr 1
    have hW := congrArg (PowerSeries.coeff ℚ n) (Wsum_eQ A m)
    rw [eQ, PowerSeries.coeff_mk, Wsum, map_sum] at hW
    have hW2 : ∀ c ∈ Psets m, PowerSeries.coeff ℚ n
        (((c.map (fun ℓ => (-1 : ℚ) ^ (ℓ - 1))).prod / (zMS c : ℚ)) •
          (c.map (pQ A)).prod) =
        ((c.map (fun ℓ => (-1 : ℚ) ^ (ℓ - 1))).prod / (zMS c : ℚ)) *
          PowerSeries.coeff ℚ n ((c.map (pQ A)).prod) := by
      intro c _
      rw [map_smul, smul_eq_mul]
    rw [Finset.sum_congr rfl hW2] at hW
    exact hW
  exact_mod_cast hQcast

theorem except_ok_bind {α β : Type} (a : α) (f : α → Except String β) :
    (Except.ok a >>= f) = f a := rfl

theorem coeffL_map_fdiv (l : List ℤ) (d : ℤ) (N n : ℕ) (hl : l.length = N + 1)
    (hn : n ≤ N) :
    coeffL (l.map (fun c => Int.fdiv c d)) n = Int.fdiv (coeffL l n) d := by
  have hn1 : n < l.length := by omega
  have hn2 : n < (l.map (fun c => Int.fdiv c d)).length := by
    rw [List.length_map]
    omega
  unfold coeffL
  rw [List.getD_eq_getElem _ _ hn2, List.getD_eq_getElem _ _ hn1, List.getElem_map]

theorem base_spec (fam : Fam) (N : ℕ) (hfam : famOK fam) :
    ∃ base : List ℤ, base_figurate_series fam N = Except.ok base ∧
      ∀ i, i ≤ N → coeffL base i = PowerSeries.coeff ℤ i (psiPS (famA fam)) := by
  cases fam with
  | triangular =>
    exact ⟨triangular_series N, rfl, fun i hi => coeffL_triangular_series N i hi⟩
  | square =>
    exact ⟨square_series N, rfl, fun i hi => coeffL_square_series N i hi⟩
  | centered k =>
    have hk : 3 ≤ k := hfam
    refine ⟨centered_series_core k N, ?_, fun i hi =>
      coeffL_centered_series k N i (by omega) hi⟩
    rw [base_figurate_series]
    rw [if_neg (by omega)]

theorem conj_nat (m : ℕ) : conjugacy_classes_Sm (m : ℤ) =
    Except.ok ((integer_partitions m).map (fun ct => classRecOf ct m)) := by
  rw [conjugacy_classes_Sm, integer_partitionsZ, if_neg (by omega : ¬(m : ℤ) < 0),
    Int.toNat_natCast]

theorem parts_pos {m : ℕ} {ct : List ℕ} (hct : ct ∈ integer_partitions m) :
    ∀ x ∈ ct, 0 < x := by
  obtain ⟨h1, _, _⟩ := (mem_partHelperF m m m ct le_rfl).mp hct
  exact fun x hx => (h1 x hx).1

/-- Full specification of `build_partition_generating_functions` with
`compute_distinct = true`: it succeeds, `representations` is `ψ^m`, `P` and
`P_distinct` are the accumulated sums divided by `m!`, those sums have
coefficients `m! * hCount` and `m! * eCount`, and `class_data` lists each
class with its series. -/
theorem build_spec (fam : Fam) (m N : ℕ) (hm : 1 ≤ m) (hfam : famOK fam) :
    ∃ (base sumP sd : List ℤ),
      base_figurate_series fam N = Except.ok base ∧
      (∀ i, i ≤ N → coeffL base i = PowerSeries.coeff ℤ i (psiPS (famA fam))) ∧
      build_partition_generating_functions fam (m : ℤ) N true = Except.ok
        { family := fam
          m := (m : ℤ)
          N := N
          representations := pow_series base m N
          P := sumP.map (fun coeff => Int.fdiv coeff (m.factorial : ℤ))
          P_distinct := some (sd.map (fun coeff => Int.fdiv coeff (m.factorial : ℤ)))
          class_data := (integer_partitions m).map (fun ct =>
            (classRecOf ct m, class_generating_series_core ct base N)) } ∧
      sumP.length = N + 1 ∧ sd.length = N + 1 ∧
      (∀ n, n ≤ N → coeffL sumP n = (m.factorial : ℤ) * (hCount (famA fam) m n : ℤ)) ∧
      (∀ n, n ≤ N → coeffL sd n = (m.factorial : ℤ) * (eCount (famA fam) m n : ℤ)) := by
  obtain ⟨base, hbe, hbase⟩ := base_spec fam N hfam
  set classes := (integer_partitions m).map (fun ct => classRecOf ct m) with hcl
  have hposAll : ∀ c ∈ classes, ∀ x ∈ c.cycle_type, 0 < x := by
    intro c hc
    rw [hcl, List.mem_map] at hc
    obtain ⟨ct, hct, rfl⟩ := hc
    exact parts_pos hct
  obtain ⟨sumP2, sd2, cdata2, hfold, hlenP, hlend, hcoP, hcod, hcd⟩ :=
    buildLoop_spec (famA fam) base N hbase classes hposAll
      (zero_series N) (zero_series N) [] (length_zero_series N) (length_zero_series N)
  have hmapP : ∀ n : ℕ, (classes.map (fun c => (c.class_size : ℤ) *
      PowerSeries.coeff ℤ n ((Multiset.ofList c.cycle_type).map (pZ (famA fam))).prod)).sum =
      ((integer_partitions m).map (fun ct => (class_size_for_cycle_type ct m : ℤ) *
        PowerSeries.coeff ℤ n
          ((Multiset.ofList ct).map (pZ (famA fam))).prod)).sum := by
    intro n
    rw [hcl, List.map_map]
    rfl
  have hmapPd : ∀ n : ℕ, (classes.map (fun c =>
      (if c.parity = "even" then (1 : ℤ) else -1) * (c.class_size : ℤ) *
      PowerSeries.coeff ℤ n ((Multiset.ofList c.cycle_type).map (pZ (famA fam))).prod)).sum =
      ((integer_partitions m).map (fun ct =>
        (if parity_for_cycle_type ct m = "even" then (1 : ℤ) else -1) *
          (class_size_for_cycle_type ct m : ℤ) *
        PowerSeries.coeff ℤ n
          ((Multiset.ofList ct).map (pZ (famA fam))).prod)).sum := by
    intro n
    rw [hcl, List.map_map]
    rfl
  refine ⟨base, sumP2, sd2, hbe, hbase, ?_, hlenP, hlend, ?_, ?_⟩
  · rw [build_partition_generating_functions, if_neg (by omega : ¬(m : ℤ) ≤ 0)]
    rw [hbe, except_ok_bind, conj_nat m, except_ok_bind]
    rw [show (if (true : Bool) then some (zero_series N) else none) =
      some (zero_series N) from rfl]
    rw [← hcl, hfold, except_ok_bind]
    rw [hcd, List.nil_append, hcl, List.map_map]
    rw [Int.toNat_natCast]
    rfl
  · intro n hn
    rw [hcoP n hn, coeffL_zero_series, zero_add, hmapP n, sum_P_coeff]
  · intro n hn
    rw [hcod n hn, coeffL_zero_series, zero_add, hmapPd n, sum_Pd_coeff]

theorem vals_spec (fam : Fam) (n : ℕ) (hfam : famOK fam) :
    ∃ vals : List ℕ, figurate_values_up_to fam (n : ℤ) = Except.ok vals ∧
      vals.Sorted (· < ·) ∧ ∀ a : ℕ, a ∈ vals ↔ famA fam a ∧ a ≤ n := by
  cases fam with
  | triangular =>
    exact ⟨triangular_numbers_up_to n, figurate_tri_eq n, sorted_lt_triangular n,
      fun a => mem_triangular_numbers_up_to n a⟩
  | square =>
    exact ⟨square_numbers_up_to n, figurate_sq_eq n, sorted_lt_square n,
      fun a => mem_square_numbers_up_to n a⟩
  | centered k =>
    have hk : 3 ≤ k := hfam
    exact ⟨centered_sorted k n, figurate_centered_eq k n hk, sorted_lt_centered k n,
      fun a => mem_centered_sorted k n a (by omega)⟩

/-- C1: for every family (with `k ≥ 3` for centered), every `m ≥ 1`, every
`N ≥ 0`, and every `n ∈ [0, N]`, `buildGeneratingFunctions` succeeds and the
coefficient `representations[n]` equals the `countOrderedRepresentations`
count on `valuesUpTo(family, n)` with target `n`; likewise `P[n]` equals the
`countUnorderedPartitions` count with `distinct = false` and `P_distinct[n]`
the count with `distinct = true`. -/
theorem claim_C1 (fam : Fam) (m N n : ℕ) (hm : 1 ≤ m) (hn : n ≤ N)
    (hfam : famOK fam) :
    ∃ (res : GFResult) (vals : List ℕ) (Pd : List ℤ),
      build_partition_generating_functions fam (m : ℤ) N true = Except.ok res ∧
      figurate_values_up_to fam (n : ℤ) = Except.ok vals ∧
      res.P_distinct = some Pd ∧
      coeffL res.representations n =
        ((count_ordered_representations (vals.map Int.ofNat) m (n : ℤ) 0).1 : ℤ) ∧
      coeffL res.P n =
        ((count_unordered_partitions (vals.map Int.ofNat) m (n : ℤ) false 0).1 : ℤ) ∧
      coeffL Pd n =
        ((count_unordered_partitions (vals.map Int.ofNat) m (n : ℤ) true 0).1 : ℤ) := by
  obtain ⟨base, sumP, sd, hbe, hbase, hbuild, hlenP, hlend, hcoP, hcod⟩ :=
    build_spec fam m N hm hfam
  obtain ⟨vals, hve, hnd, hmem⟩ := vals_spec fam n hfam
  have hfact : (m.factorial : ℤ) ≠ 0 := by
    exact_mod_cast m.factorial_ne_zero
  refine ⟨_, vals, _, hbuild, hve, rfl, ?_, ?_, ?_⟩
  · show coeffL (pow_series base m N) n = _
    rw [coeffL_pow_series_of base N hbase m n hn]
    exact (count_ordered_eq (famA fam) vals hnd n hmem m 0).symm
  · show coeffL (sumP.map (fun c => Int.fdiv c (m.factorial : ℤ))) n = _
    rw [coeffL_map_fdiv sumP _ N n hlenP hn, hcoP n hn,
      Int.mul_fdiv_cancel_left _ hfact,
      count_unordered_false_eq (famA fam) vals hnd n hmem m 0]
  · show coeffL (sd.map (fun c => Int.fdiv c (m.factorial : ℤ))) n = _
    rw [coeffL_map_fdiv sd _ N n hlend hn, hcod n hn,
      Int.mul_fdiv_cancel_left _ hfact,
      count_unordered_true_eq (famA fam) vals hnd n hmem m 0]

theorem claim_C1_witness :
    (1 ≤ 1 ∧ (0 : ℕ) ≤ 0 ∧ famOK Fam.triangular) ∧
    (∃ (res : GFResult) (vals : List ℕ) (Pd : List ℤ),
      build_partition_generating_functions Fam.triangular ((1 : ℕ) : ℤ) 0 true =
        Except.ok res ∧
      figurate_values_up_to Fam.triangular ((0 : ℕ) : ℤ) = Except.ok vals ∧
      res.P_distinct = some Pd ∧
      coeffL res.representations 0 =
        ((count_ordered_representations (vals.map Int.ofNat) 1 ((0 : ℕ) : ℤ) 0).1 : ℤ) ∧
      coeffL res.P 0 =
        ((count_unordered_partitions (vals.map Int.ofNat) 1 ((0 : ℕ) : ℤ) false 0).1 : ℤ) ∧
      coeffL Pd 0 =
        ((count_unordered_partitions (vals.map Int.ofNat) 1 ((0 : ℕ) : ℤ) true 0).1 : ℤ)) :=
  ⟨⟨le_rfl, le_rfl, trivial⟩, claim_C1 Fam.triangular 1 0 0 le_rfl le_rfl trivial⟩

/-- C2: for every family (with `k ≥ 3` for centered), every `m ≥ 1` and every
coefficient index `n ∈ [0, N]`, `m!` exactly divides the accumulated sums
`Σ_i classSize_i * C_i(q)[n]` and `Σ_i sign_i * classSize_i * C_i(q)[n]`
over the classes in `class_data`, and the coefficientwise integer divisions
producing `P(q)` and `P_distinct(q)` are exact (multiplying back by `m!`
recovers the sums). -/
theorem claim_C2 (fam : Fam) (m N : ℕ) (hm : 1 ≤ m) (hfam : famOK fam) :
    ∃ res : GFResult,
      build_partition_generating_functions fam (m : ℤ) N true = Except.ok res ∧
      ∀ n, n ≤ N →
        ((m.factorial : ℤ) ∣
          (res.class_data.map (fun cc =>
            (cc.1.class_size : ℤ) * coeffL cc.2 n)).sum) ∧
        ((m.factorial : ℤ) ∣
          (res.class_data.map (fun cc =>
            (if cc.1.parity = "even" then (1 : ℤ) else -1) *
              (cc.1.class_size : ℤ) * coeffL cc.2 n)).sum) ∧
        coeffL res.P n * (m.factorial : ℤ) =
          (res.class_data.map (fun cc =>
            (cc.1.class_size : ℤ) * coeffL cc.2 n)).sum ∧
        ∃ Pd, res.P_distinct = some Pd ∧
          coeffL Pd n * (m.factorial : ℤ) =
            (res.class_data.map (fun cc =>
              (if cc.1.parity = "even" then (1 : ℤ) else -1) *
                (cc.1.class_size : ℤ) * coeffL cc.2 n)).sum := by
  obtain ⟨base, sumP, sd, hbe, hbase, hbuild, hlenP, hlend, hcoP, hcod⟩ :=
    build_spec fam m N hm hfam
  have hfact : (m.factorial : ℤ) ≠ 0 := by
    exact_mod_cast m.factorial_ne_zero
  refine ⟨_, hbuild, ?_⟩
  intro n hn
  have hsum1 : (((integer_partitions m).map (fun ct =>
      (classRecOf ct m, class_generating_series_core ct base N))).map
        (fun cc => (cc.1.class_size : ℤ) * coeffL cc.2 n)).sum =
      (m.factorial : ℤ) * (hCount (famA fam) m n : ℤ) := by
    rw [List.map_map]
    have hcongr : ∀ ct ∈ integer_partitions m,
        ((fun cc : ClassRec × List ℤ => (cc.1.class_size : ℤ) * coeffL cc.2 n) ∘
          (fun ct => (classRecOf ct m, class_generating_series_core ct base N))) ct =
        (class_size_for_cycle_type ct m : ℤ) *
          PowerSeries.coeff ℤ n ((Multiset.ofList ct).map (pZ (famA fam))).prod := by
      intro ct _
      simp only [Function.comp_apply]
      rw [coeffL_class_series (famA fam) base N hbase ct n hn]
      rfl
    rw [List.map_congr_left hcongr, sum_P_coeff]
  have hsum2 : (((integer_partitions m).map (fun ct =>
      (classRecOf ct m, class_generating_series_core ct base N))).map
        (fun cc => (if cc.1.parity = "even" then (1 : ℤ) else -1) *
          (cc.1.class_size : ℤ) * coeffL cc.2 n)).sum =
      (m.factorial : ℤ) * (eCount (famA fam) m n : ℤ) := by
    rw [List.map_map]
    have hcongr : ∀ ct ∈ integer_partitions m,
        ((fun cc : ClassRec × List ℤ =>
          (if cc.1.parity = "even" then (1 : ℤ) else -1) *
            (cc.1.class_size : ℤ) * coeffL cc.2 n) ∘
          (fun ct => (classRecOf ct m, class_generating_series_core ct base N))) ct =
        (if parity_for_cycle_type ct m = "even" then (1 : ℤ) else -1) *
          (class_size_for_cycle_type ct m : ℤ) *
          PowerSeries.coeff ℤ n ((Multiset.ofList ct).map (pZ (famA fam))).prod := by
      intro ct _
      simp only [Function.comp_apply]
      rw [coeffL_class_series (famA fam) base N hbase ct n hn]
      rfl
    rw [List.map_congr_left hcongr, sum_Pd_coeff]
  refine ⟨?_, ?_, ?_, ?_⟩
  · show (m.factorial : ℤ) ∣ (((integer_partitions m).map (fun ct =>
      (classRecOf ct m, class_generating_series_core ct base N))).map
        (fun cc => (cc.1.class_size : ℤ) * coeffL cc.2 n)).sum
    rw [hsum1]
    exact dvd_mul_right _ _
  · show (m.factorial : ℤ) ∣ (((integer_partitions m).map (fun ct =>
      (classRecOf ct m, class_generating_series_core ct base N))).map
        (fun cc => (if cc.1.parity = "even" then (1 : ℤ) else -1) *
          (cc.1.class_size : ℤ) * coeffL cc.2 n)).sum
    rw [hsum2]
    exact dvd_mul_right _ _
  · show coeffL (sumP.map (fun c => Int.fdiv c (m.factorial : ℤ))) n *
      (m.factorial : ℤ) = _
    rw [coeffL_map_fdiv sumP _ N n hlenP hn, hcoP n hn,
      Int.mul_fdiv_cancel_left _ hfact]
    rw [show ((((integer_partitions m).map (fun ct =>
      (classRecOf ct m, class_generating_series_core ct base N))).map
        (fun cc => (cc.1.class_size : ℤ) * coeffL cc.2 n)).sum : ℤ) =
      (m.factorial : ℤ) * (hCount (famA fam) m n : ℤ) from hsum1]
    ring
  · refine ⟨sd.map (fun c => Int.fdiv c (m.factorial : ℤ)), rfl, ?_⟩
    rw [coeffL_map_fdiv sd _ N n hlend hn, hcod n hn,
      Int.mul_fdiv_cancel_left _ hfact]
    rw [show ((((integer_partitions m).map (fun ct =>
      (classRecOf ct m, class_generating_series_core ct base N))).map
        (fun cc => (if cc.1.parity = "even" then (1 : ℤ) else -1) *
          (cc.1.class_size : ℤ) * coeffL cc.2 n)).sum : ℤ) =
      (m.factorial : ℤ) * (eCount (famA fam) m n : ℤ) from hsum2]
    ring

theorem claim_C2_witness :
    (1 ≤ 1 ∧ famOK Fam.triangular) ∧
    (∃ res : GFResult,
      build_partition_generating_functions Fam.triangular ((1 : ℕ) : ℤ) 0 true =
        Except.ok res ∧
      ∀ n, n ≤ 0 →
        ((Nat.factorial 1 : ℤ) ∣
          (res.class_data.map (fun cc =>
            (cc.1.class_size : ℤ) * coeffL cc.2 n)).sum) ∧
        ((Nat.factorial 1 : ℤ) ∣
          (res.class_data.map (fun cc =>
            (if cc.1.parity = "even" then (1 : ℤ) else -1) *
              (cc.1.class_size : ℤ) * coeffL cc.2 n)).sum) ∧
        coeffL res.P n * (Nat.factorial 1 : ℤ) =
          (res.class_data.map (fun cc =>
            (cc.1.class_size : ℤ) * coeffL cc.2 n)).sum ∧
        ∃ Pd, res.P_distinct = some Pd ∧
          coeffL Pd n * (Nat.factorial 1 : ℤ) =
            (res.class_data.map (fun cc =>
              (if cc.1.parity = "even" then (1 : ℤ) else -1) *
                (cc.1.class_size : ℤ) * coeffL cc.2 n)).sum) :=
  ⟨⟨le_rfl, trivial⟩, claim_C2 Fam.triangular 1 0 le_rfl trivial⟩

end FPE
